import Mathlib

/-
Formal model of the Switchboard Gateway data plane.

Each definition is a shallow embedding of the corresponding Go function of
the repository (internal/plugin, internal/proxy, internal/router,
internal/ratelimit).  Go maps are modelled as association lists with
replace-on-set, Go slices as Lean lists or arrays, Go machine integers as
Int, and Lua/float token counts as rationals.  Definitions marked
"Modelled from the spec:" embed behaviour whose implementing code is not
part of the source tree; everything else is translated directly from the
source files.
-/

namespace Switchboard

/-! ## Plugin metadata map (internal/plugin Context.Metadata)

Go declares `Metadata map[string]interface{}`.  The dynamically typed
values are modelled by a small sum covering the cases the typed accessors
inspect; every other runtime type is collapsed into `vOther`. -/

inductive MetaVal where
  | vStr (s : String)
  | vInt (n : Int)
  | vBool (b : Bool)
  | vOther
  deriving DecidableEq, Repr

/-- Association-list model of the Go map; `metaSet` keeps keys unique. -/
def Metadata : Type := List (String × MetaVal)

instance : DecidableEq Metadata := by
  unfold Metadata
  infer_instance

/-- Context.Set: `c.Metadata[key] = value` (replace or insert). -/
def metaSet (m : Metadata) (key : String) (v : MetaVal) : Metadata :=
  match m with
  | [] => [(key, v)]
  | (k, w) :: rest => if k = key then (k, v) :: rest else (k, w) :: metaSet rest key v

/-- Context.Get: `value, exists := c.Metadata[key]`. -/
def metaGet (m : Metadata) (key : String) : Option MetaVal :=
  match m with
  | [] => none
  | (k, w) :: rest => if k = key then some w else metaGet rest key

/-- Context.GetString: the stored value when present and a string, else "". -/
def getString (m : Metadata) (key : String) : String :=
  match metaGet m key with
  | some (.vStr s) => s
  | _ => ""

/-- Context.GetInt: the stored value when present and an int, else 0. -/
def getInt (m : Metadata) (key : String) : Int :=
  match metaGet m key with
  | some (.vInt n) => n
  | _ => 0

/-- Context.GetBool: the stored value when present and a bool, else false. -/
def getBool (m : Metadata) (key : String) : Bool :=
  match metaGet m key with
  | some (.vBool b) => b
  | _ => false

/-! ## Wrapped response writer (internal/plugin ResponseWriter)

The underlying `http.ResponseWriter` is modelled by the observable calls
forwarded to it: the list of status codes passed to its WriteHeader and
the list of byte chunks passed to its Write (bytes as Nat).  Its Write is
modelled as accepting the whole chunk (n = len(b), err = nil), which is
the only behaviour the wrapper logic depends on. -/

structure ResponseWriter where
  statusCode : Int
  written : Bool
  bodySize : Int
  headersSent : Bool
  underlyingStatus : List Int
  underlyingBody : List (List Nat)
  deriving DecidableEq, Repr

/-- NewResponseWriter: defaults to 200, nothing written. -/
def newResponseWriter : ResponseWriter :=
  { statusCode := 200
    written := false
    bodySize := 0
    headersSent := false
    underlyingStatus := []
    underlyingBody := [] }

/-- ResponseWriter.WriteHeader: ignored when already written, otherwise
records the code and forwards it to the underlying writer. -/
def ResponseWriter.goWriteHeader (w : ResponseWriter) (code : Int) : ResponseWriter :=
  if w.written then
    w
  else
    { w with
      statusCode := code
      written := true
      headersSent := true
      underlyingStatus := w.underlyingStatus ++ [code] }

/-- ResponseWriter.Write: implicit WriteHeader(200) when none yet, then
forwards the chunk and adds the accepted byte count. -/
def ResponseWriter.goWrite (w : ResponseWriter) (b : List Nat) : ResponseWriter × Int :=
  let w1 := if !w.written then w.goWriteHeader 200 else w
  let n : Int := (b.length : Int)
  ({ w1 with
     underlyingBody := w1.underlyingBody ++ [b]
     bodySize := w1.bodySize + n }, n)

/-! ## Plugin phases, per-request context and chain executor
(internal/plugin: context.go and chain.go) -/

inductive Phase where
  | beforeRequest
  | afterResponse
  deriving DecidableEq, Repr

/-- Per-request plugin context (internal/plugin Context).  The inbound
request, route and service references are not needed by the claims and are
omitted; the response writer, metadata map and abort state are carried. -/
structure Ctx where
  phase : Phase
  metadata : Metadata
  response : ResponseWriter
  aborted : Bool
  abortStatusCode : Int
  abortMessage : String
  deriving DecidableEq

/-- Context.Abort: set aborted and record status code and message. -/
def Ctx.abort (c : Ctx) (statusCode : Int) (message : String) : Ctx :=
  { c with aborted := true, abortStatusCode := statusCode, abortMessage := message }

/-- Context.IsAborted. -/
def Ctx.isAborted (c : Ctx) : Bool :=
  c.aborted

/-- NewContext: fresh context for a request in the given phase. -/
def newCtx (phase : Phase) : Ctx :=
  { phase := phase
    metadata := []
    response := newResponseWriter
    aborted := false
    abortStatusCode := 0
    abortMessage := "" }

/-- PluginInstance (internal/plugin chain.go).  A plugin's Execute is an
arbitrary mutation of the context that may also return an error message;
it is modelled as a function field. -/
structure PluginInstance where
  name : String
  scope : String
  priority : Int
  critical : Bool
  exec : Ctx → Ctx × Option String

/-- PluginError (internal/plugin context.go), as built by NewPluginError. -/
structure PluginError where
  pluginName : String
  phase : Phase
  msg : String
  critical : Bool
  deriving DecidableEq

/-- Outcome of Chain.Execute: the final context, the surfaced error (nil on
success), and the names of the plugins whose Execute was invoked, in call
order (the observable trace of the loop). -/
structure ChainResult where
  ctx : Ctx
  err : Option PluginError
  trace : List String
  deriving DecidableEq

/-- Chain.executePlugin: invoke the plugin's Execute and pass its error up
(the surrounding logging has no effect on the result). -/
def executePlugin (inst : PluginInstance) (ctx : Ctx) : Ctx × Option String :=
  inst.exec ctx

/-- Loop body of Chain.Execute over the already-ordered plugin list:
stop silently when the context is aborted; on a critical error stop and
surface a PluginError; on a non-critical error log and continue. -/
def executeFrom : List PluginInstance → Ctx → ChainResult
  | [], ctx => ⟨ctx, none, []⟩
  | inst :: rest, ctx =>
    if ctx.isAborted then
      ⟨ctx, none, []⟩
    else
      match executePlugin inst ctx with
      | (ctx2, some e) =>
        if inst.critical then
          ⟨ctx2, some ⟨inst.name, ctx2.phase, e, true⟩, [inst.name]⟩
        else
          let r := executeFrom rest ctx2
          ⟨r.ctx, r.err, inst.name :: r.trace⟩
      | (ctx2, none) =>
        let r := executeFrom rest ctx2
        ⟨r.ctx, r.err, inst.name :: r.trace⟩

/-- Chain.getExecutionOrder: a copy of the plugin list, reversed for the
AfterResponse phase (the Go swap loop reverses the copied slice). -/
def getExecutionOrder (plugins : List PluginInstance) (phase : Phase) : List PluginInstance :=
  if phase = Phase.afterResponse then plugins.reverse else plugins

/-- Chain of plugin instances (internal/plugin Chain). -/
structure Chain where
  plugins : List PluginInstance

/-- Chain.Execute: order the plugins for the context's phase, then run the
loop (the empty-chain early return yields the same result). -/
def Chain.execute (c : Chain) (ctx : Ctx) : ChainResult :=
  executeFrom (getExecutionOrder c.plugins ctx.phase) ctx

/-! ## Dispatcher around the chain (modelled from the spec) -/

/-- Byte view of a string, for the response body written on abort. -/
def strBytes (s : String) : List Nat :=
  s.toList.map Char.toNat

/-- Outcome of dispatching one request. -/
structure DispatchResult where
  beforeTrace : List String
  proxied : Bool
  afterTrace : List String
  response : ResponseWriter
  err500 : Bool
  deriving DecidableEq

/-- Modelled from the spec: the dispatcher that surrounds the proxy with
the two chain phases is not part of the source tree (only Chain.Execute
and the Context are).  Per the spec's request life cycle it runs
Chain.Execute(BeforeRequest) on the per-request context, on a critical
error emits 500 and does not forward, on abort writes the abort status and
message (if the plugin has not already written a response) and skips the
proxy step, otherwise forwards via the proxy; it then runs
Chain.Execute(AfterResponse) on the same per-request context.  The proxy
forwarding step is abstracted as a context transformer `fw`. -/
def dispatch (fw : Ctx → Ctx) (c : Chain) (ctx0 : Ctx) : DispatchResult :=
  let r1 := c.execute { ctx0 with phase := Phase.beforeRequest }
  match r1.err with
  | some _ =>
    { beforeTrace := r1.trace
      proxied := false
      afterTrace := []
      response := r1.ctx.response.goWriteHeader 500
      err500 := true }
  | none =>
    if r1.ctx.isAborted then
      let w :=
        if r1.ctx.response.written then r1.ctx.response
        else ((r1.ctx.response.goWriteHeader r1.ctx.abortStatusCode).goWrite
          (strBytes r1.ctx.abortMessage)).1
      let ctx1 := { r1.ctx with response := w, phase := Phase.afterResponse }
      let r2 := c.execute ctx1
      { beforeTrace := r1.trace
        proxied := false
        afterTrace := r2.trace
        response := r2.ctx.response
        err500 := false }
    else
      let ctx1 := { fw r1.ctx with phase := Phase.afterResponse }
      let r2 := c.execute ctx1
      { beforeTrace := r1.trace
        proxied := true
        afterTrace := r2.trace
        response := r2.ctx.response
        err500 := false }

/-! ## Go sort.Slice (Go standard library pdqsort, sort/zsortfunc.go)

Chain.Sort calls sort.Slice, whose behaviour on ties the stability part of
the ordering claims depends on.  The library routine is therefore embedded
here: an unstable pattern-defeating quicksort over a comparison closure.
Index accesses mirror data.Less(i, j) and data.Swap(i, j); all calls stay
in bounds, out-of-range access is given the harmless default behaviour.
Loops whose bound is not structural carry an ample fuel argument. -/

/-- Swap of two positions (data.Swap); out of range leaves the slice. -/
def aswap {α : Type} [Inhabited α] (xs : List α) (i j : Nat) : List α :=
  let xi := xs.getD i default
  let xj := xs.getD j default
  (xs.set i xj).set j xi

/-- Read of a position, with a default out of range. -/
def aget {α : Type} [Inhabited α] (xs : List α) (i : Nat) : α :=
  xs.getD i default

/-- Comparison of two positions (data.Less). -/
def aless {α : Type} [Inhabited α] (less : α → α → Bool) (xs : List α) (i j : Nat) : Bool :=
  less (aget xs i) (aget xs j)

/-- Inner loop of insertionSort_func: shift element j left while smaller
than its left neighbour and j > a. -/
def insertInner {α : Type} [Inhabited α] (less : α → α → Bool) (a : Nat) :
    List α → Nat → List α
  | xs, 0 => xs
  | xs, j + 1 =>
    if a < j + 1 && aless less xs (j + 1) j then
      insertInner less a (aswap xs (j + 1) j) j
    else
      xs

/-- insertionSort_func over [a, b): the for loop over i = a+1, …, b-1. -/
def insertionSortRange {α : Type} [Inhabited α] (less : α → α → Bool)
    (xs : List α) (a b : Nat) : List α :=
  ((List.range b).drop (a + 1)).foldl (fun ys i => insertInner less a ys i) xs

/-- siftDown_func: push the root of the heap [lo, hi) down (first is the
array offset of the heap).  Fuel bounds the descent, which is at most the
heap height; callers pass hi + 1. -/
def siftDownGo {α : Type} [Inhabited α] (less : α → α → Bool) :
    Nat → List α → Nat → Nat → Nat → List α
  | 0, xs, _, _, _ => xs
  | fuel + 1, xs, root, hi, first =>
    let child := 2 * root + 1
    if child ≥ hi then xs
    else
      let child := if child + 1 < hi && aless less xs (first + child) (first + child + 1) then
        child + 1 else child
      if !aless less xs (first + root) (first + child) then xs
      else siftDownGo less fuel (aswap xs (first + root) (first + child)) child hi first

/-- heapSort_func over [a, b): build the heap, then repeatedly move the
maximum to the end. -/
def heapSortRange {α : Type} [Inhabited α] (less : α → α → Bool)
    (xs : List α) (a b : Nat) : List α :=
  let first := a
  let lo := 0
  let hi := b - a
  let xs1 := ((List.range ((hi - 1) / 2 + 1)).reverse).foldl
    (fun ys i => siftDownGo less (hi + 1) ys i hi first) xs
  ((List.range hi).reverse).foldl
    (fun ys i => siftDownGo less (hi + 1) (aswap ys first (first + i)) lo i first) xs1

/-- The heap construction pass of heapSort_func, processing roots m-1, …, 0. -/
def heapBuildLoop {α : Type} [Inhabited α] (less : α → α → Bool)
    (hi first : Nat) (m : Nat) (xs : List α) : List α :=
  ((List.range m).reverse).foldl (fun ys i => siftDownGo less (hi + 1) ys i hi first) xs

/-- The extraction pass of heapSort_func, processing i = m-1, …, 0. -/
def heapExtractLoop {α : Type} [Inhabited α] (less : α → α → Bool)
    (hi first : Nat) (m : Nat) (xs : List α) : List α :=
  ((List.range m).reverse).foldl
    (fun ys i => siftDownGo less (hi + 1) (aswap ys first (first + i)) 0 i first) xs

/-- reverseRange_func over [a, b). -/
def reverseRangeGo {α : Type} [Inhabited α] : Nat → List α → Nat → Nat → List α
  | 0, xs, _, _ => xs
  | fuel + 1, xs, i, j =>
    if i < j then reverseRangeGo fuel (aswap xs i j) (i + 1) (j - 1) else xs

/-- Single step of the xorshift generator used by breakPatterns_func,
on 64-bit words (explicit mod 2^64). -/
def xorshiftNext (x : Nat) : Nat :=
  let a := (x ^^^ (x <<< 13)) % 2 ^ 64
  let b := a ^^^ (a >>> 17)
  (b ^^^ (b <<< 5)) % 2 ^ 64

/-- Bit length of a natural number (bits.Len), by structural recursion on
an ample fuel so that kernel reduction is possible. -/
def bitsLenAux : Nat → Nat → Nat
  | 0, _ => 0
  | fuel + 1, n => if n = 0 then 0 else bitsLenAux fuel (n / 2) + 1

/-- Bit length of a natural number (bits.Len). -/
def bitsLen (n : Nat) : Nat :=
  bitsLenAux n n

/-- breakPatterns_func: scatter three elements using the xorshift stream
seeded with the range length; modulus is the next power of two. -/
def breakPatternsGo {α : Type} [Inhabited α] (xs : List α) (a b : Nat) : List α :=
  let length := b - a
  if length ≥ 8 then
    let modulus := 2 ^ (bitsLen length)
    let idx := a + (length / 4) * 2 - 1
    let step := fun (st : List α × Nat) (i : Nat) =>
      let rand := xorshiftNext st.2
      let other := rand &&& (modulus - 1)
      let other := if other ≥ length then other - length else other
      (aswap st.1 (idx - 1 + i) (a + other), rand)
    (([0, 1, 2].foldl step (xs, length))).1
  else
    xs

/-- One scatter step of breakPatterns_func (the inline closure, named). -/
def bpStep {α : Type} [Inhabited α] (a length modulus idx : Nat)
    (st : List α × Nat) (i : Nat) : List α × Nat :=
  let rand := xorshiftNext st.2
  let other := rand &&& (modulus - 1)
  let other := if other ≥ length then other - length else other
  (aswap st.1 (idx - 1 + i) (a + other), rand)

/-- Hints returned by choosePivot_func. -/
inductive PivotHint where
  | unknownHint
  | increasingHint
  | decreasingHint
  deriving DecidableEq, Repr

/-- order2_func: order two indices by the pointed-to elements, counting a
swap when they are out of order. -/
def order2Go {α : Type} [Inhabited α] (less : α → α → Bool) (xs : List α)
    (a b swaps : Nat) : Nat × Nat × Nat :=
  if aless less xs b a then (b, a, swaps + 1) else (a, b, swaps)

/-- median_func of three indices. -/
def medianGo {α : Type} [Inhabited α] (less : α → α → Bool) (xs : List α)
    (a b c swaps : Nat) : Nat × Nat :=
  let (a, b, swaps) := order2Go less xs a b swaps
  let (b, _, swaps) := order2Go less xs b c swaps
  let (_, b, swaps) := order2Go less xs a b swaps
  (b, swaps)

/-- medianAdjacent_func: median of an index and its two neighbours. -/
def medianAdjGo {α : Type} [Inhabited α] (less : α → α → Bool) (xs : List α)
    (a swaps : Nat) : Nat × Nat :=
  medianGo less xs (a - 1) a (a + 1) swaps

/-- choosePivot_func over [a, b): median (of medians) of three positions
at l/4 spacing; the swap count classifies the range as likely increasing,
likely decreasing, or unknown. -/
def choosePivotGo {α : Type} [Inhabited α] (less : α → α → Bool) (xs : List α)
    (a b : Nat) : Nat × PivotHint :=
  let l := b - a
  let i := a + (l / 4) * 1
  let j := a + (l / 4) * 2
  let k := a + (l / 4) * 3
  let (i, j, k, swaps) :=
    if l ≥ 8 then
      let (i, j, k, sw) :=
        if l ≥ 50 then
          let (i, sw) := medianAdjGo less xs i 0
          let (j, sw) := medianAdjGo less xs j sw
          let (k, sw) := medianAdjGo less xs k sw
          (i, j, k, sw)
        else
          (i, j, k, 0)
      let (j, sw) := medianGo less xs i j k sw
      (i, j, k, sw)
    else
      (i, j, k, 0)
  let _ := i
  let _ := k
  if swaps = 0 then (j, PivotHint.increasingHint)
  else if swaps = 12 then (j, PivotHint.decreasingHint)
  else (j, PivotHint.unknownHint)

/-- Advance of the forward scan of partition_func: move i right over
elements smaller than the pivot at a, while i ≤ j. -/
def scanFwd {α : Type} [Inhabited α] (less : α → α → Bool) (xs : List α)
    (a j : Nat) : Nat → Nat → Nat
  | 0, i => i
  | fuel + 1, i =>
    if i ≤ j && aless less xs i a then scanFwd less xs a j fuel (i + 1) else i

/-- Retreat of the backward scan of partition_func: move j left over
elements not smaller than the pivot at a, while i ≤ j. -/
def scanBack {α : Type} [Inhabited α] (less : α → α → Bool) (xs : List α)
    (a i : Nat) : Nat → Nat → Nat
  | 0, j => j
  | fuel + 1, j =>
    if i ≤ j && !aless less xs j a then scanBack less xs a i fuel (j - 1) else j

/-- Main exchange loop of partition_func after the first crossing test. -/
def partLoop {α : Type} [Inhabited α] (less : α → α → Bool) (b : Nat) :
    Nat → List α → Nat → Nat → Nat → List α × Nat
  | 0, xs, _, _, j => (xs, j)
  | fuel + 1, xs, a, i, j =>
    let i := scanFwd less xs a j (b + 2) i
    let j := scanBack less xs a i (b + 2) j
    if i > j then (xs, j)
    else partLoop less b fuel (aswap xs i j) a (i + 1) (j - 1)

/-- partition_func over [a, b) with the pivot moved to a: Hoare partition
returning the final pivot position and whether the range was already
partitioned. -/
def partitionGo {α : Type} [Inhabited α] (less : α → α → Bool)
    (xs0 : List α) (a b pivot : Nat) : List α × Nat × Bool :=
  let xs := aswap xs0 a pivot
  let i := scanFwd less xs a (b - 1) (b + 2) (a + 1)
  let j := scanBack less xs a i (b + 2) (b - 1)
  if i > j then (aswap xs j a, j, true)
  else
    let xs := aswap xs i j
    let (xs, jf) := partLoop less b (b + 2) xs a (i + 1) (j - 1)
    (aswap xs jf a, jf, false)

/-- Forward scan of partitionEqual_func: skip elements not greater than
the pivot at a. -/
def scanFwdEq {α : Type} [Inhabited α] (less : α → α → Bool) (xs : List α)
    (a j : Nat) : Nat → Nat → Nat
  | 0, i => i
  | fuel + 1, i =>
    if i ≤ j && !aless less xs a i then scanFwdEq less xs a j fuel (i + 1) else i

/-- Backward scan of partitionEqual_func: skip elements greater than the
pivot at a. -/
def scanBackEq {α : Type} [Inhabited α] (less : α → α → Bool) (xs : List α)
    (a i : Nat) : Nat → Nat → Nat
  | 0, j => j
  | fuel + 1, j =>
    if i ≤ j && aless less xs a j then scanBackEq less xs a i fuel (j - 1) else j

/-- Exchange loop of partitionEqual_func. -/
def partEqLoop {α : Type} [Inhabited α] (less : α → α → Bool) (b : Nat) :
    Nat → List α → Nat → Nat → Nat → List α × Nat
  | 0, xs, _, i, _ => (xs, i)
  | fuel + 1, xs, a, i, j =>
    let i := scanFwdEq less xs a j (b + 2) i
    let j := scanBackEq less xs a i (b + 2) j
    if i > j then (xs, i)
    else partEqLoop less b fuel (aswap xs i j) a (i + 1) (j - 1)

/-- partitionEqual_func over [a, b): with the pivot moved to a, gather the
elements equal to it on the left and return the first index past them. -/
def partitionEqualGo {α : Type} [Inhabited α] (less : α → α → Bool)
    (xs0 : List α) (a b pivot : Nat) : List α × Nat :=
  let xs := aswap xs0 a pivot
  partEqLoop less b (b + 2) xs a (a + 1) (b - 1)

/-- Advance loop of partialInsertionSort_func: skip the already ordered
run starting at i. -/
def pisAdvance {α : Type} [Inhabited α] (less : α → α → Bool) (xs : List α)
    (b : Nat) : Nat → Nat → Nat
  | 0, i => i
  | fuel + 1, i =>
    if i < b && !aless less xs i (i - 1) then pisAdvance less xs b fuel (i + 1) else i

/-- Left shift of partialInsertionSort_func: bubble the smaller element of
a swapped pair further left. -/
def pisShiftLeft {α : Type} [Inhabited α] (less : α → α → Bool) :
    Nat → List α → Nat → List α
  | 0, xs, _ => xs
  | fuel + 1, xs, j =>
    if j ≥ 1 then
      if !aless less xs j (j - 1) then xs
      else pisShiftLeft less fuel (aswap xs j (j - 1)) (j - 1)
    else xs

/-- Right shift of partialInsertionSort_func: bubble the greater element
of a swapped pair further right. -/
def pisShiftRight {α : Type} [Inhabited α] (less : α → α → Bool) (b : Nat) :
    Nat → List α → Nat → List α
  | 0, xs, _ => xs
  | fuel + 1, xs, j =>
    if j < b then
      if !aless less xs j (j - 1) then xs
      else pisShiftRight less b fuel (aswap xs j (j - 1)) (j + 1)
    else xs

/-- Step loop of partialInsertionSort_func, at most maxSteps = 5 rounds. -/
def pisLoop {α : Type} [Inhabited α] (less : α → α → Bool) (a b : Nat) :
    Nat → List α → Nat → List α × Bool
  | 0, xs, _ => (xs, false)
  | steps + 1, xs, i =>
    let i := pisAdvance less xs b (b + 2) i
    if i = b then (xs, true)
    else if b - a < 50 then (xs, false)
    else
      let xs := aswap xs i (i - 1)
      let xs := if i - a ≥ 2 then pisShiftLeft less (b + 2) xs (i - 1) else xs
      let xs := if b - i ≥ 2 then pisShiftRight less b (b + 2) xs (i + 1) else xs
      pisLoop less a b steps xs i

/-- partialInsertionSort_func over [a, b): true when the range got fully
sorted within the step budget. -/
def partialInsertionSortGo {α : Type} [Inhabited α] (less : α → α → Bool)
    (xs : List α) (a b : Nat) : List α × Bool :=
  pisLoop less a b 5 xs (a + 1)

/-- pdqsort_func: the main loop.  Recursive calls act on the shorter side
with fresh balance flags; the loop continues on the longer side.  Fuel
bounds the total number of loop iterations and is passed ample by
sortSliceGo. -/
def pdqsortGo {α : Type} [Inhabited α] (less : α → α → Bool) :
    Nat → List α → Nat → Nat → Nat → Bool → Bool → List α
  | 0, xs, _, _, _, _, _ => xs
  | fuel + 1, xs, a, b, limit, wasBalanced, wasPartitioned =>
    let length := b - a
    if length ≤ 12 then
      insertionSortRange less xs a b
    else if limit = 0 then
      heapSortRange less xs a b
    else
      let (xs, limit) :=
        if !wasBalanced then (breakPatternsGo xs a b, limit - 1) else (xs, limit)
      let (pivot, hint) := choosePivotGo less xs a b
      let (xs, pivot, hint) :=
        if hint = PivotHint.decreasingHint then
          (reverseRangeGo b xs a (b - 1), (b - 1) - (pivot - a), PivotHint.increasingHint)
        else
          (xs, pivot, hint)
      let (xs, sorted) :=
        if wasBalanced && wasPartitioned && hint = PivotHint.increasingHint then
          partialInsertionSortGo less xs a b
        else
          (xs, false)
      if sorted then xs
      else if a > 0 && !aless less xs (a - 1) pivot then
        let (xs, mid) := partitionEqualGo less xs a b pivot
        pdqsortGo less fuel xs mid b limit wasBalanced wasPartitioned
      else
        let (xs, mid, alreadyPartitioned) := partitionGo less xs a b pivot
        let wasPartitioned := alreadyPartitioned
        let leftLen := mid - a
        let rightLen := b - mid
        let balanceThreshold := length / 8
        let wasBalanced := min leftLen rightLen ≥ balanceThreshold
        if leftLen < rightLen then
          let xs := pdqsortGo less fuel xs a mid limit true true
          pdqsortGo less fuel xs (mid + 1) b limit wasBalanced wasPartitioned
        else
          let xs := pdqsortGo less fuel xs (mid + 1) b limit true true
          pdqsortGo less fuel xs a mid limit wasBalanced wasPartitioned

/-- sort.Slice: pdqsort with depth limit bits.Len(n); not guaranteed
stable.  The fuel is ample for the iteration count of the main loop. -/
def sortSliceGo {α : Type} [Inhabited α] (less : α → α → Bool) (xs : List α) : List α :=
  pdqsortGo less ((xs.length + 4) * (bitsLen xs.length + 4) + 16) xs 0 xs.length
    (bitsLen xs.length) true true

instance : Inhabited PluginInstance :=
  ⟨{ name := ""
     scope := ""
     priority := 0
     critical := false
     exec := fun c => (c, none) }⟩

/-- Chain.Sort: sort.Slice over the plugin slice with the comparison
plugins[i].Priority < plugins[j].Priority. -/
def Chain.sortPlugins (c : Chain) : Chain :=
  ⟨sortSliceGo (fun p q => p.priority < q.priority) c.plugins⟩

/-- Plugin that does nothing, with the given name and priority. -/
def mkNoopPlugin (nm : String) (pr : Int) : PluginInstance :=
  { name := nm
    scope := "global"
    priority := pr
    critical := false
    exec := fun c => (c, none) }

/-- Thirteen plugins in insertion order: the first has priority 2, the
remaining twelve have equal priority 1. -/
def c5Plugins : List PluginInstance :=
  [mkNoopPlugin "p1" 2, mkNoopPlugin "p2" 1, mkNoopPlugin "p3" 1,
    mkNoopPlugin "p4" 1, mkNoopPlugin "p5" 1, mkNoopPlugin "p6" 1,
    mkNoopPlugin "p7" 1, mkNoopPlugin "p8" 1, mkNoopPlugin "p9" 1,
    mkNoopPlugin "p10" 1, mkNoopPlugin "p11" 1, mkNoopPlugin "p12" 1,
    mkNoopPlugin "p13" 1]

/-- Three well-behaved plugins with priorities 5, 10, 15. -/
def c5SmallPlugins : List PluginInstance :=
  [mkNoopPlugin "a" 5, mkNoopPlugin "b" 10, mkNoopPlugin "c" 15]

/-- Plugin that aborts with 401 during BeforeRequest (an auth failure). -/
def abortingPlugin : PluginInstance :=
  { name := "auth"
    scope := "global"
    priority := 1
    critical := false
    exec := fun c => (c.abort 401 "Unauthorized", none) }

/-- Plugin that observes and never fails. -/
def observerPlugin : PluginInstance :=
  { name := "logger"
    scope := "global"
    priority := 2
    critical := false
    exec := fun c => (c, none) }

/-- Two-plugin chain used to exercise the abort path. -/
def c1Chain : Chain :=
  ⟨[abortingPlugin, observerPlugin]⟩

/-- Plugin marked critical whose Execute fails. -/
def failingCriticalPlugin : PluginInstance :=
  { name := "crit"
    scope := "global"
    priority := 1
    critical := true
    exec := fun c => (c, some "boom") }

/-- Plugin not marked critical whose Execute fails. -/
def failingSoftPlugin : PluginInstance :=
  { name := "soft"
    scope := "global"
    priority := 1
    critical := false
    exec := fun c => (c, some "oops") }

/-! ## Radix routing tree (internal/router/radix_tree.go)

Paths of this gateway are ASCII, so Go byte positions coincide with
character positions; Go strings are handled through their character
lists. -/

/-- Route record (internal/database models.go), restricted to the fields
the routing and proxy logic reads. -/
structure Route where
  id : String
  paths : List String
  stripPath : Bool
  preserveHost : Bool
  deriving DecidableEq, Repr

/-- Node kinds of the radix tree. -/
inductive NodeType where
  | staticNode
  | paramNode
  | wildcardNode
  deriving DecidableEq, Repr

/-- Tree node: type, label, prefix, insertion priority (uint32, far from
overflow here), parameter name, optional route, children. -/
inductive RNode where
  | node (nType : NodeType) (label : String) (pfx : String) (priority : Nat)
      (paramName : String) (route : Option Route) (children : List RNode)

/-- Node type of a node. -/
def RNode.nType : RNode → NodeType
  | .node t _ _ _ _ _ _ => t

/-- Label of a node. -/
def RNode.label : RNode → String
  | .node _ l _ _ _ _ _ => l

/-- Insertion priority of a node. -/
def RNode.priority : RNode → Nat
  | .node _ _ _ pr _ _ _ => pr

/-- Parameter name of a node. -/
def RNode.paramName : RNode → String
  | .node _ _ _ _ pn _ _ => pn

/-- Route attached to a node. -/
def RNode.route : RNode → Option Route
  | .node _ _ _ _ _ rt _ => rt

/-- Children of a node. -/
def RNode.children : RNode → List RNode
  | .node _ _ _ _ _ _ ch => ch

instance : Inhabited RNode :=
  ⟨.node NodeType.staticNode "" "" 0 "" none []⟩

/-- normalizePath: drop one trailing slash (except at root), force a
leading slash. -/
def normalizePath (path : String) : String :=
  let cs := path.toList
  let cs := if cs.length > 1 && (cs.getLastD ' ' == '/') then cs.dropLast else cs
  let cs := if !(cs.headD ' ' == '/') then '/' :: cs else cs
  cs.asString

/-- strings.Split on a single separator character. -/
def splitOnChar (sep : Char) : List Char → List (List Char)
  | [] => [[]]
  | c :: rest =>
    match splitOnChar sep rest with
    | [] => [[c]]
    | h :: t => if c == sep then [] :: h :: t else (c :: h) :: t

/-- strings.Trim with the cutset "/": strip slashes from both ends. -/
def trimSlashes (cs : List Char) : List Char :=
  ((cs.dropWhile (fun c => c == '/')).reverse.dropWhile (fun c => c == '/')).reverse

/-- splitPath: trim outer slashes, empty means root, else split on /. -/
def splitPath (path : String) : List String :=
  let cs := trimSlashes path.toList
  if cs.isEmpty then [] else (splitOnChar '/' cs).map List.asString

/-- getSegmentType: wildcard for *, param for a leading colon (name is the
rest), static otherwise. -/
def getSegmentType (segment : String) : NodeType × String :=
  if segment.length = 0 then (NodeType.staticNode, "")
  else if segment = "*" then (NodeType.wildcardNode, "")
  else if segment.toList.headD ' ' == ':' then
    (NodeType.paramNode, (segment.toList.drop 1).asString)
  else (NodeType.staticNode, "")

/-- nodePriority: type band (static 100, param 50, wildcard 1) plus the
insertion priority for the non-wildcard kinds. -/
def nodePriority (n : RNode) : Nat :=
  match n.nType with
  | NodeType.staticNode => 100 + n.priority
  | NodeType.paramNode => 50 + n.priority
  | NodeType.wildcardNode => 1

/-- sortChildren: the Go double loop (for i; for j > i: swap when the
later child has strictly higher nodePriority), descending order. -/
def sortChildrenGo (cs : List RNode) : List RNode :=
  let n := cs.length
  (List.range n).foldl
    (fun acc i =>
      ((List.range n).drop (i + 1)).foldl
        (fun acc2 j =>
          if nodePriority (aget acc2 j) > nodePriority (aget acc2 i) then
            aswap acc2 i j
          else acc2)
        acc)
    cs

/-- findChild: index of the first child with this type and label. -/
def findChildIdx (seg : String) (ty : NodeType) : List RNode → Nat → Option Nat
  | [], _ => none
  | c :: rest, k =>
    if c.nType = ty && c.label = seg then some k
    else findChildIdx seg ty rest (k + 1)

/-- Descent loop of Insert: follow or create one node per segment; a new
node gets priority (number of segments − index) and the parent's children
are re-sorted after the append.  The Go code appends the empty node, sorts,
and then keeps mutating the new node while descending; since the sort reads
only the type and priority fixed at creation, building the subtree before
the append is the same tree. -/
def insertSegs (route : Route) (total : Nat) : List String → Nat → RNode → RNode
  | [], _, .node t l p pr pn _ ch => .node t l p pr pn (some route) ch
  | seg :: rest, i, .node t l p pr pn rt ch =>
    let st := getSegmentType seg
    match findChildIdx seg st.1 ch 0 with
    | some idx =>
      .node t l p pr pn rt (ch.set idx (insertSegs route total rest (i + 1) (aget ch idx)))
    | none =>
      let child := insertSegs route total rest (i + 1)
        (.node st.1 seg seg (total - i) st.2 none [])
      .node t l p pr pn rt (sortChildrenGo (ch ++ [child]))

/-- Radix tree with its size counter. -/
structure RadixTree where
  root : RNode
  size : Nat

/-- NewRadixTree: an empty static root. -/
def emptyTree : RadixTree :=
  ⟨.node NodeType.staticNode "" "" 0 "" none [], 0⟩

/-- RadixTree.Insert. -/
def RadixTree.insertPath (t : RadixTree) (path : String) (route : Route) : RadixTree :=
  let npath := normalizePath path
  let segments := splitPath npath
  ⟨insertSegs route segments.length segments 0 t.root, t.size + 1⟩

/-- Param map handed to searches (Go map[string]string). -/
def Params : Type := List (String × String)

instance : DecidableEq Params := by
  unfold Params
  infer_instance

/-- Map write params[k] = v. -/
def paramsSet (ps : Params) (k v : String) : Params :=
  match ps with
  | [] => [(k, v)]
  | (k2, v2) :: rest => if k2 = k then (k2, v) :: rest else (k2, v2) :: paramsSet rest k v

/-- Map delete(params, k). -/
def paramsDel (ps : Params) (k : String) : Params :=
  match ps with
  | [] => []
  | (k2, v2) :: rest => if k2 = k then rest else (k2, v2) :: paramsDel rest k

/-- strings.Join with "/". -/
def joinSlash (segs : List String) : String :=
  String.intercalate "/" segs

mutual

/-- Recursive search of the tree: at the end of the path the node's route
answers; otherwise the children are tried in their stored order
(structural recursion into the node's children). -/
def searchGo : RNode → List String → Params → Option Route × Params
  | RNode.node _ _ _ _ _ rt _, [], params => (rt, params)
  | RNode.node _ _ _ _ _ _ ch, seg :: rest, params => searchChildren ch seg rest params

/-- Trial of the children in order: a static child must match the label; a
param child records the segment and backtracks (deleting it) on failure; a
wildcard child with a route captures the remainder under * and returns. -/
def searchChildren : List RNode → String → List String → Params → Option Route × Params
  | [], _, _, params => (none, params)
  | child :: others, seg, rest, params =>
    match child.nType with
    | NodeType.staticNode =>
      if child.label = seg then
        match searchGo child rest params with
        | (some r, p2) => (some r, p2)
        | (none, p2) => searchChildren others seg rest p2
      else searchChildren others seg rest params
    | NodeType.paramNode =>
      match searchGo child rest (paramsSet params child.paramName seg) with
      | (some r, p2) => (some r, p2)
      | (none, p2) => searchChildren others seg rest (paramsDel p2 child.paramName)
    | NodeType.wildcardNode =>
      match child.route with
      | some r => (some r, paramsSet params "*" (joinSlash (seg :: rest)))
      | none => searchChildren others seg rest params

end

/-- RadixTree.Search: normalize and split the path, then search from the
root with an empty param map. -/
def RadixTree.searchPath (t : RadixTree) (path : String) : Option Route × Params :=
  let npath := normalizePath path
  let segments := splitPath npath
  searchGo t.root segments []

/-- Routes used by the routing-priority scenarios. -/
def rStatic : Route := ⟨"r-static", ["/a/b"], false, false⟩

def rParam : Route := ⟨"r-param", ["/a/:x"], false, false⟩

def rWild : Route := ⟨"r-wild", ["/a/*"], false, false⟩

def rB : Route := ⟨"r-b", ["/b"], false, false⟩

def rDeep : Route := ⟨"r-deep", [], false, false⟩

/-- Pattern with a leading parameter segment followed by 51 static
segments, so the param node is created with insertion priority 52. -/
def deepParamPath : String :=
  "/" ++ String.intercalate "/" (":x" :: List.replicate 51 "s")

/-- Tree of the claim's concrete scenario: /a/b, /a/:x, /a/*. -/
def c4PriorityTree : RadixTree :=
  ((emptyTree.insertPath "/a/b" rStatic).insertPath "/a/:x" rParam).insertPath "/a/*" rWild

/-- Tree of the failing input: /b inserted first, then the deep param
pattern. -/
def c4DeepTree : RadixTree :=
  (emptyTree.insertPath "/b" rB).insertPath deepParamPath rDeep

/-! ## Reverse proxy: headers and upstream URL (internal/proxy/proxy.go)

Header keys and values are ASCII; Go net/http canonicalizes keys on every
map access, which is reproduced below for well-formed token keys (the
invalid-byte fallback of CanonicalMIMEHeaderKey never fires on them). -/

/-- Character run of CanonicalMIMEHeaderKey: uppercase the first letter
and every letter after a hyphen, lowercase the rest. -/
def canonChars : Bool → List Char → List Char
  | _, [] => []
  | up, c :: rest =>
    (if up then c.toUpper else c.toLower) :: canonChars (c == '-') rest

/-- CanonicalMIMEHeaderKey for token keys. -/
def canonicalKey (s : String) : String :=
  (canonChars true s.toList).asString

/-- Header map (net/http Header: map from canonical key to value list). -/
def Headers : Type := List (String × List String)

instance : DecidableEq Headers := by
  unfold Headers
  infer_instance

/-- Map write under an already-canonical key. -/
def assocSetH (k : String) (v : List String) : Headers → Headers
  | [] => [(k, v)]
  | (k2, v2) :: rest =>
    if k2 = k then (k2, v) :: rest else (k2, v2) :: assocSetH k v rest

/-- Map read under an already-canonical key. -/
def assocGetH (k : String) : Headers → Option (List String)
  | [] => none
  | (k2, v2) :: rest => if k2 = k then some v2 else assocGetH k rest

/-- Header.Get: first value stored under the canonical key, else "". -/
def headersGet (h : Headers) (key : String) : String :=
  match assocGetH (canonicalKey key) h with
  | some (v :: _) => v
  | _ => ""

/-- Header.Set: replace the canonical key's values with the single value. -/
def headersSet (h : Headers) (key value : String) : Headers :=
  assocSetH (canonicalKey key) [value] h

/-- Header.Add: append the value under the canonical key. -/
def headersAdd (h : Headers) (key value : String) : Headers :=
  match assocGetH (canonicalKey key) h with
  | some vs => assocSetH (canonicalKey key) (vs ++ [value]) h
  | none => assocSetH (canonicalKey key) [value] h

/-- Inbound request, restricted to the fields the proxy reads. -/
structure Request where
  headers : Headers
  remoteAddr : String
  host : String
  tls : Bool
  urlPath : String
  rawQuery : String
  deriving DecidableEq

/-- ASCII space check used for header-value trimming. -/
def isGoSpace (c : Char) : Bool :=
  c == ' ' || c == '\t' || c == '\n' || c == '\r'

/-- strings.TrimSpace over the spaces occurring in header values. -/
def goTrimSpace (s : String) : String :=
  (((s.toList.dropWhile isGoSpace).reverse.dropWhile isGoSpace).reverse).asString

/-- Index counter of the first occurrence of a character, -1 if absent
(strings.Index with a one-character separator). -/
def idxOfCharAux (c : Char) : List Char → Int → Int
  | [], _ => -1
  | x :: rest, k => if x == c then k else idxOfCharAux c rest (k + 1)

/-- strings.Index of a character. -/
def goIndexOfChar (s : String) (c : Char) : Int :=
  idxOfCharAux c s.toList 0

/-- strings.LastIndex of a character: fold remembering the last hit. -/
def goLastIndexOfChar (s : String) (c : Char) : Int :=
  (s.toList.foldl
    (fun (st : Int × Int) x =>
      (if x == c then st.2 else st.1, st.2 + 1))
    (-1, 0)).1

/-- Byte prefix s[:n] (ASCII, so byte and character positions agree). -/
def strTake (s : String) (n : Nat) : String :=
  (s.toList.take n).asString

/-- getClientIP (internal/proxy): first X-Forwarded-For element, then
X-Real-IP, then the remote address with the part after the last colon
stripped. -/
def getClientIP (r : Request) : String :=
  let xff := headersGet r.headers "X-Forwarded-For"
  if xff ≠ "" then
    let idx := goIndexOfChar xff ','
    if idx > 0 then goTrimSpace (strTake xff idx.toNat)
    else goTrimSpace xff
  else
    let xri := headersGet r.headers "X-Real-IP"
    if xri ≠ "" then goTrimSpace xri
    else
      let lidx := goLastIndexOfChar r.remoteAddr ':'
      if lidx > 0 then strTake r.remoteAddr lidx.toNat
      else r.remoteAddr

/-- isHopByHopHeader: membership of the canonicalized key in the fixed
hop-by-hop set. -/
def isHopByHopHeader (header : String) : Bool :=
  [ "Connection", "Keep-Alive", "Proxy-Authenticate", "Proxy-Authorization",
    "Te", "Trailers", "Transfer-Encoding", "Upgrade"
  ].contains (canonicalKey header)

/-- copyHeaders: add every value of every non-hop-by-hop key of src to
dst. -/
def copyHeaders (dst src : Headers) : Headers :=
  src.foldl
    (fun d kv =>
      if isHopByHopHeader kv.1 then d
      else kv.2.foldl (fun d2 v => headersAdd d2 kv.1 v) d)
    dst

/-- setProxyHeaders: append the client IP to X-Forwarded-For (or start
it), set X-Forwarded-Proto from the inbound scheme, X-Forwarded-Host,
X-Real-IP and X-Request-ID. -/
def setProxyHeadersGo (up : Headers) (r : Request) (requestID : String) : Headers :=
  let clientIP := getClientIP r
  let up :=
    if clientIP ≠ "" then
      let prior := headersGet up "X-Forwarded-For"
      if prior ≠ "" then headersSet up "X-Forwarded-For" (prior ++ ", " ++ clientIP)
      else headersSet up "X-Forwarded-For" clientIP
    else up
  let proto := if r.tls then "https" else "http"
  let up := headersSet up "X-Forwarded-Proto" proto
  let up := headersSet up "X-Forwarded-Host" r.host
  let up := if clientIP ≠ "" then headersSet up "X-Real-IP" clientIP else up
  headersSet up "X-Request-ID" requestID

/-- Host header choice of setProxyHeaders: the upstream URL's authority
unless the route preserves the inbound host. -/
def upstreamHostGo (preserveHost : Bool) (upstreamURLHost originalHost : String) : String :=
  if !preserveHost then upstreamURLHost else originalHost

/-- strings.HasPrefix. -/
def strHasPfx (s pre : String) : Bool :=
  pre.toList.isPrefixOf s.toList

/-- strings.TrimPrefix. -/
def strTrimPfx (s pre : String) : String :=
  if strHasPfx s pre then (s.toList.drop pre.toList.length).asString else s

/-- Strip loop of buildUpstreamURL: trim the first declared route path
that literally prefixes the request path, then stop. -/
def stripPathLoop (path : String) : List String → String
  | [] => path
  | rp :: rest =>
    if strHasPfx path rp then strTrimPfx path rp
    else stripPathLoop path rest

/-- buildUpstreamURL: optionally strip the route path, force a leading
slash, append the target and the query string. -/
def buildUpstreamURL (targetURL : String) (r : Request) (route : Route) : String :=
  let path := r.urlPath
  let path := if route.stripPath then stripPathLoop path route.paths else path
  let path := if !strHasPfx path "/" then "/" ++ path else path
  let upstreamURL := targetURL ++ path
  if r.rawQuery ≠ "" then upstreamURL ++ "?" ++ r.rawQuery else upstreamURL

/-- Longest-matching-prefix strip as the claim words it: among the
route's path patterns that literally prefix the request path, trim the
longest one (the request path unchanged when none matches). -/
def stripLongestSpec (path : String) (routePaths : List String) : String :=
  let best := (routePaths.filter (fun rp => strHasPfx path rp)).foldl
    (fun acc rp => if rp.toList.length > acc.toList.length then rp else acc) ""
  if best = "" then path else strTrimPfx path best

/-- Request of the header-rewrite scenario: inbound X-Forwarded-For
1.1.1.1 arriving from remote 2.2.2.2. -/
def c2Request : Request :=
  { headers := [("X-Forwarded-For", ["1.1.1.1"])]
    remoteAddr := "2.2.2.2:5678"
    host := "gw.example"
    tls := false
    urlPath := "/x"
    rawQuery := "" }

/-- Route with two overlapping literal path patterns, the shorter one
declared first, and stripPath set. -/
def c3Route : Route :=
  ⟨"r-strip", ["/api", "/api/users"], true, false⟩

/-- Request for /api/users/7. -/
def c3Request : Request :=
  { headers := []
    remoteAddr := "9.9.9.9:1111"
    host := "gw.example"
    tls := false
    urlPath := "/api/users/7"
    rawQuery := "" }

/-- Leading-slash fixup of buildUpstreamURL, as a named function. -/
def ensureLeadingSlash (p : String) : String :=
  if !strHasPfx p "/" then "/" ++ p else p

/-! ## Token bucket limiter (internal/ratelimit/token_bucket.go)

The Lua script keeps the token count as a Lua float; it is modelled as a
rational, exact for the claims at hand (no time elapses, so no float
rounding is exercised).  Times are Unix milliseconds as integers. -/

/-- Bucket state stored in the Redis hash: tokens and last refill time. -/
structure TBState where
  tokens : ℚ
  lastRefillMs : Int
  deriving DecidableEq

/-- tokenBucketLuaScript: initialize an absent bucket at capacity, refill
by elapsed seconds times the rate capped at capacity, consume one token
when at least one is available, and report the floored token count and
the reset time (seconds). -/
def tokenBucketScript (capacity : Int) (refillRate : ℚ) (nowMs : Int)
    (st : Option TBState) : TBState × Int × Int × Int :=
  let tokens : ℚ := match st with
    | none => (capacity : ℚ)
    | some s => s.tokens
  let lastRefill : Int := match st with
    | none => nowMs
    | some s => s.lastRefillMs
  let elapsedMs : Int := max 0 (nowMs - lastRefill)
  let elapsedSec : ℚ := (elapsedMs : ℚ) / 1000
  let tokensToAdd : ℚ := elapsedSec * refillRate
  let tokens : ℚ := min (capacity : ℚ) (tokens + tokensToAdd)
  let lastRefill : Int := nowMs
  let consume : ℚ × Int := if tokens ≥ 1 then (tokens - 1, 1) else (tokens, 0)
  let tokens : ℚ := consume.1
  let allowed : Int := consume.2
  let tokensNeeded : ℚ := (capacity : ℚ) - tokens
  let secondsToFull : Int := if tokensNeeded > 0 then ⌈tokensNeeded / refillRate⌉ else 0
  let resetTimeMs : Int := nowMs + secondsToFull * 1000
  let resetTime : Int := ⌊(resetTimeMs : ℚ) / 1000⌋
  (⟨tokens, lastRefill⟩, allowed, ⌊tokens⌋, resetTime)

/-- Outcome of TokenBucket.Allow (retry-after in seconds as a rational,
standing for the nanosecond Duration). -/
structure TokenBucketResult where
  allowed : Bool
  remaining : Int
  resetTimeSec : Int
  retryAfterSec : ℚ
  deriving DecidableEq

/-- TokenBucket.Allow: run the script and decode its triple; on denial the
retry-after is the time one token takes to refill. -/
def tokenBucketAllow (capacity : Int) (refillRate : ℚ) (nowMs : Int)
    (st : Option TBState) : TBState × TokenBucketResult :=
  let r := tokenBucketScript capacity refillRate nowMs st
  let allowed := r.2.1 = 1
  let retryAfter : ℚ := if allowed then 0 else 1 / refillRate
  (r.1,
    { allowed := allowed
      remaining := r.2.2.1
      resetTimeSec := r.2.2.2
      retryAfterSec := retryAfter })

/-- Bucket state after k immediate calls on a previously unseen
identifier (all calls at the same instant nowMs). -/
def tbAfterCalls (capacity : Int) (refillRate : ℚ) (nowMs : Int) : Nat → Option TBState
  | 0 => none
  | k + 1 => some (tokenBucketAllow capacity refillRate nowMs
      (tbAfterCalls capacity refillRate nowMs k)).1

/-! ## Sliding window limiter (internal/ratelimit/sliding_window.go)

The Redis sorted set is modelled as a list of (member, score) pairs;
scores are Unix seconds.  Cleanup, count, conditional insert and the
minimum score mirror the Lua script. -/

/-- ZREMRANGEBYSCORE -inf..windowStart: drop members at or below the
window start. -/
def zCleanup (windowStart : Int) (z : List (String × Int)) : List (String × Int) :=
  z.filter (fun e => windowStart < e.2)

/-- ZADD: update the member's score or append the member. -/
def zAdd : List (String × Int) → Int → String → List (String × Int)
  | [], score, m => [(m, score)]
  | (m2, s2) :: rest, score, m =>
    if m2 = m then (m2, score) :: rest else (m2, s2) :: zAdd rest score m

/-- Minimum score of the set (ZRANGE 0 0 WITHSCORES reads the least
element; only its score is used). -/
def zMinScore : List (String × Int) → Option Int
  | [] => none
  | e :: rest =>
    some (match zMinScore rest with
      | none => e.2
      | some m => min e.2 m)

/-- Oldest timestamp reported by the script: the minimum score, 0 when
the set is empty. -/
def zOldest (z : List (String × Int)) : Int :=
  match zMinScore z with
  | none => 0
  | some s => s

/-- slidingWindowLuaScript: cleanup, count, insert when below the limit,
and report the count and the oldest remaining score (0 when empty). -/
def slidingWindowScript (windowStart nowSec limit : Int) (requestID : String)
    (z : List (String × Int)) : List (String × Int) × Int × Int × Int :=
  let z := zCleanup windowStart z
  let count : Int := (z.length : Int)
  let step : List (String × Int) × Int × Int :=
    if count < limit then (zAdd z nowSec requestID, count + 1, 1)
    else (z, count, 0)
  let z := step.1
  let count := step.2.1
  let allowed := step.2.2
  let oldest : Int := zOldest z
  (z, allowed, count, oldest)

/-- Outcome of SlidingWindow.Allow (times in seconds). -/
structure SlidingWindowResult where
  allowed : Bool
  remaining : Int
  resetTimeSec : Int
  retryAfterSec : Int
  currentCount : Int
  deriving DecidableEq

/-- SlidingWindow.Allow: window start is now − window; remaining is the
limit minus the count clamped at zero; the reset time is the oldest
member's expiry (or now + window on an empty set); retry-after on denial
is the time to that expiry clamped at zero. -/
def slidingWindowAllow (limit windowSec nowSec : Int) (requestID : String)
    (z : List (String × Int)) : List (String × Int) × SlidingWindowResult :=
  let windowStart := nowSec - windowSec
  let r := slidingWindowScript windowStart nowSec limit requestID z
  let allowed := r.2.1 = 1
  let currentCount := r.2.2.1
  let oldest := r.2.2.2
  let remaining0 := limit - currentCount
  let remaining := if remaining0 < 0 then 0 else remaining0
  let resetTime := if oldest > 0 then oldest + windowSec else nowSec + windowSec
  let retryAfter :=
    if ¬allowed ∧ oldest > 0 then
      (if resetTime - nowSec < 0 then 0 else resetTime - nowSec)
    else 0
  (r.1,
    { allowed := allowed
      remaining := remaining
      resetTimeSec := resetTime
      retryAfterSec := retryAfter
      currentCount := currentCount })

/-- Window state after k calls at the same second t with per-call request
identifiers ids 0, ids 1, …. -/
def swAfterCalls (limit windowSec t : Int) (ids : Nat → String) : Nat → List (String × Int)
  | 0 => []
  | k + 1 => (slidingWindowAllow limit windowSec t (ids k)
      (swAfterCalls limit windowSec t ids k)).1

/-! ## Specification predicates for the embedded sort

Chain.Sort compares plugins through an integer key (the priority), so the
sorting development is phrased for an arbitrary key function into Int. -/

/-- Comparison closure induced by an integer key; the closure Chain.Sort
passes to sort.Slice is keyLess of the priority field. -/
def keyLess {α : Type} (key : α → Int) : α → α → Bool :=
  fun x y => decide (key x < key y)

/-- Positions [a, b) hold pairwise nondecreasing keys. -/
def sortedRange {α : Type} [Inhabited α] (key : α → Int) (xs : List α) (a b : Nat) : Prop :=
  ∀ i j, a ≤ i → i < j → j < b → key (aget xs i) ≤ key (aget xs j)

/-- Adjacent pairs inside [a, b) are nondecreasing. -/
def adjSorted {α : Type} [Inhabited α] (key : α → Int) (xs : List α) (a b : Nat) : Prop :=
  ∀ k, a < k → k < b → key (aget xs (k - 1)) ≤ key (aget xs k)

/-- ys is xs with the window [a, b) permuted: same length, identical
outside the window, and a permutation overall. -/
def rangePerm {α : Type} [Inhabited α] (xs ys : List α) (a b : Nat) : Prop :=
  ys.length = xs.length ∧
  (∀ k, k < xs.length → (k < a ∨ b ≤ k) → aget ys k = aget xs k) ∧
  ys.Perm xs

/-- Sublist of the positions [a, b). -/
def windowOf {α : Type} (l : List α) (a b : Nat) : List α :=
  (l.take b).drop a

end Switchboard

namespace Switchboard

/-- C10: the typed metadata accessors are total with defaults: a present
string value is returned by GetString, absence or any other stored type
yields "", and likewise 0 for GetInt and false for GetBool; the accessors
are pure reads of the metadata map (they return values without producing
a modified map). -/
theorem claim_c10_typed_accessors (m : Metadata) (key : String) :
    ((∀ s, metaGet m key = some (MetaVal.vStr s) → getString m key = s) ∧
      (metaGet m key = none → getString m key = "") ∧
      (∀ v, metaGet m key = some v → (∀ s, v ≠ MetaVal.vStr s) → getString m key = "")) ∧
    ((∀ n, metaGet m key = some (MetaVal.vInt n) → getInt m key = n) ∧
      (metaGet m key = none → getInt m key = 0) ∧
      (∀ v, metaGet m key = some v → (∀ n, v ≠ MetaVal.vInt n) → getInt m key = 0)) ∧
    ((∀ b, metaGet m key = some (MetaVal.vBool b) → getBool m key = b) ∧
      (metaGet m key = none → getBool m key = false) ∧
      (∀ v, metaGet m key = some v → (∀ b, v ≠ MetaVal.vBool b) → getBool m key = false)) := by
  refine ⟨⟨?_, ?_, ?_⟩, ⟨?_, ?_, ?_⟩, ⟨?_, ?_, ?_⟩⟩
  · intro s hx
    simp [getString, hx]
  · intro hx
    simp [getString, hx]
  · intro v hx hne
    cases v with
    | vStr s => exact absurd rfl (hne s)
    | vInt n => simp [getString, hx]
    | vBool b => simp [getString, hx]
    | vOther => simp [getString, hx]
  · intro n hx
    simp [getInt, hx]
  · intro hx
    simp [getInt, hx]
  · intro v hx hne
    cases v with
    | vStr s => simp [getInt, hx]
    | vInt n => exact absurd rfl (hne n)
    | vBool b => simp [getInt, hx]
    | vOther => simp [getInt, hx]
  · intro b hx
    simp [getBool, hx]
  · intro hx
    simp [getBool, hx]
  · intro v hx hne
    cases v with
    | vStr s => simp [getBool, hx]
    | vInt n => simp [getBool, hx]
    | vBool b => exact absurd rfl (hne b)
    | vOther => simp [getBool, hx]

/-- Witness for C10 at concrete metadata maps: a stored string is returned,
an absent key defaults, and a type mismatch defaults. -/
theorem claim_c10_typed_accessors_witness :
    getString [("k", MetaVal.vStr "v")] "k" = "v" ∧
    getInt ([] : Metadata) "k" = 0 ∧
    getBool [("k", MetaVal.vInt 3)] "k" = false := by
  refine ⟨?_, ?_, ?_⟩
  · exact (claim_c10_typed_accessors [("k", MetaVal.vStr "v")] "k").1.1 "v" (by decide)
  · exact (claim_c10_typed_accessors ([] : Metadata) "k").2.1.2.1 (by decide)
  · exact (claim_c10_typed_accessors [("k", MetaVal.vInt 3)] "k").2.2.2.2
      (MetaVal.vInt 3) (by decide) (fun b => by simp)

/-- C9: write-once semantics of the wrapped response writer: the first
WriteHeader fixes the captured status; any later WriteHeader leaves the
status, the written flag and the underlying writer unchanged; a Write
before any WriteHeader implicitly performs WriteHeader(200); a fresh
writer defaults to status 200 with nothing written. -/
theorem claim_c9_write_once (w : ResponseWriter) (code code2 : Int) (b : List Nat) :
    (newResponseWriter.statusCode = 200 ∧ newResponseWriter.written = false) ∧
    (w.written = false →
      (w.goWriteHeader code).statusCode = code ∧
      (w.goWriteHeader code).written = true ∧
      (w.goWriteHeader code).underlyingStatus = w.underlyingStatus ++ [code]) ∧
    (w.written = true → w.goWriteHeader code2 = w) ∧
    ((w.goWriteHeader code).goWriteHeader code2 = w.goWriteHeader code) ∧
    (w.written = false →
      ((w.goWrite b).1.statusCode = 200 ∧
        (w.goWrite b).1.written = true ∧
        (w.goWrite b).1.underlyingStatus = w.underlyingStatus ++ [200])) := by
  refine ⟨⟨rfl, rfl⟩, ?_, ?_, ?_, ?_⟩
  · intro h
    simp [ResponseWriter.goWriteHeader, h]
  · intro h
    simp [ResponseWriter.goWriteHeader, h]
  · by_cases h : w.written <;>
      simp [ResponseWriter.goWriteHeader, h]
  · intro h
    simp [ResponseWriter.goWrite, ResponseWriter.goWriteHeader, h]

/-- Witness for C9 on a fresh writer: WriteHeader 503 sticks, a second
WriteHeader 404 is ignored, and a bare Write implies status 200. -/
theorem claim_c9_write_once_witness :
    (newResponseWriter.goWriteHeader 503).statusCode = 503 ∧
    ((newResponseWriter.goWriteHeader 503).goWriteHeader 404 =
      newResponseWriter.goWriteHeader 503) ∧
    (newResponseWriter.goWrite [7, 8]).1.statusCode = 200 := by
  refine ⟨?_, ?_, ?_⟩
  · exact ((claim_c9_write_once newResponseWriter 503 404 [7, 8]).2.1 rfl).1
  · exact (claim_c9_write_once newResponseWriter 503 404 [7, 8]).2.2.2.1
  · exact ((claim_c9_write_once newResponseWriter 503 404 [7, 8]).2.2.2.2 rfl).1

/-- C1 counterexample: with the chain [auth (aborts), logger] and a fresh
context, the abort during BeforeRequest keeps logger out of the before
phase and skips the proxy, but the AfterResponse pass executes no plugin
at all (trace []), not every plugin in reverse order (["logger", "auth"])
as the claim states: Chain.Execute stops on the still-aborted context in
the AfterResponse phase as well. -/
theorem claim_c1_counterexample :
    (dispatch id c1Chain (newCtx Phase.beforeRequest)).beforeTrace = ["auth"] ∧
    (dispatch id c1Chain (newCtx Phase.beforeRequest)).proxied = false ∧
    (dispatch id c1Chain (newCtx Phase.beforeRequest)).afterTrace = [] ∧
    ([] : List String) ≠ ["logger", "auth"] := by
  refine ⟨?_, ?_, ?_, ?_⟩ <;> decide

/-- C1 (amended): if a BeforeRequest plugin calls Abort, the remaining
BeforeRequest plugins do not run and the proxy forwarding step is skipped
(and the abort status is written when the plugin left the response
unwritten); but the AfterResponse pass, run through Chain.Execute on the
same still-aborted context, executes no plugin at all: the abort check
stops the chain in every phase. -/
theorem claim_c1_abort_skips_rest_and_proxy :
    (∀ (ps : List PluginInstance) (ctx : Ctx), ctx.aborted = true →
      executeFrom ps ctx = ⟨ctx, none, []⟩) ∧
    (∀ (fw : Ctx → Ctx) (c : Chain) (ctx0 : Ctx),
      (c.execute { ctx0 with phase := Phase.beforeRequest }).err = none →
      (c.execute { ctx0 with phase := Phase.beforeRequest }).ctx.aborted = true →
      (dispatch fw c ctx0).proxied = false ∧
      (dispatch fw c ctx0).afterTrace = [] ∧
      (dispatch fw c ctx0).beforeTrace =
        (c.execute { ctx0 with phase := Phase.beforeRequest }).trace ∧
      ((c.execute { ctx0 with phase := Phase.beforeRequest }).ctx.response.written = false →
        (dispatch fw c ctx0).response.statusCode =
          (c.execute { ctx0 with phase := Phase.beforeRequest }).ctx.abortStatusCode)) := by
  have hstop : ∀ (ps : List PluginInstance) (ctx : Ctx), ctx.aborted = true →
      executeFrom ps ctx = ⟨ctx, none, []⟩ := by
    intro ps ctx h
    cases ps with
    | nil => rfl
    | cons a l => simp [executeFrom, Ctx.isAborted, h]
  have hafter : ∀ (c : Chain) (x : Ctx), x.aborted = true → c.execute x = ⟨x, none, []⟩ := by
    intro c x hx
    unfold Chain.execute
    exact hstop _ _ hx
  refine ⟨hstop, ?_⟩
  intro fw c ctx0 h1 h2
  simp only [dispatch, h1, Ctx.isAborted, h2, if_true]
  set R := c.execute { ctx0 with phase := Phase.beforeRequest } with hR
  set w := if R.ctx.response.written = true then R.ctx.response
    else ((R.ctx.response.goWriteHeader R.ctx.abortStatusCode).goWrite
      (strBytes R.ctx.abortMessage)).1 with hwdef
  have key : c.execute
      (⟨Phase.afterResponse, R.ctx.metadata, w, true,
        R.ctx.abortStatusCode, R.ctx.abortMessage⟩ : Ctx) =
      ⟨⟨Phase.afterResponse, R.ctx.metadata, w, true,
        R.ctx.abortStatusCode, R.ctx.abortMessage⟩, none, []⟩ :=
    hafter c _ rfl
  refine ⟨by trivial, ?_, by trivial, ?_⟩
  · rw [key]
  · intro hw
    rw [key]
    rw [hwdef]
    simp [hw, ResponseWriter.goWrite, ResponseWriter.goWriteHeader]

/-- Witness for the amended C1 at the concrete chain [auth (aborts 401),
logger]: the proxy is skipped, the AfterResponse trace is empty and the
401 abort status is the one written. -/
theorem claim_c1_abort_skips_rest_and_proxy_witness :
    (dispatch id c1Chain (newCtx Phase.beforeRequest)).proxied = false ∧
    (dispatch id c1Chain (newCtx Phase.beforeRequest)).afterTrace = [] ∧
    (dispatch id c1Chain (newCtx Phase.beforeRequest)).response.statusCode = 401 := by
  have h := claim_c1_abort_skips_rest_and_proxy.2 id c1Chain (newCtx Phase.beforeRequest)
    (by decide) (by decide)
  exact ⟨h.1, h.2.1, by rw [h.2.2.2 (by decide)]; decide⟩

/-- C6: Chain.Execute surfaces an error only from a plugin marked critical,
and then stops with no later plugin of the phase running; a non-critical
error is swallowed (the surfaced error and final context are exactly those
of the continuation on the rest of the chain, so the executor neither
aborts nor stops there), and when the erroring plugin did not itself abort,
the next plugin of the phase is invoked. -/
theorem claim_c6_critical_error_policy :
    (∀ (ps : List PluginInstance) (ctx : Ctx) (pe : PluginError),
      (executeFrom ps ctx).err = some pe → pe.critical = true) ∧
    (∀ (inst : PluginInstance) (rest : List PluginInstance) (ctx ctx2 : Ctx) (e : String),
      ctx.aborted = false → inst.exec ctx = (ctx2, some e) → inst.critical = true →
      executeFrom (inst :: rest) ctx =
        ⟨ctx2, some ⟨inst.name, ctx2.phase, e, true⟩, [inst.name]⟩) ∧
    (∀ (inst : PluginInstance) (rest : List PluginInstance) (ctx ctx2 : Ctx) (e : String),
      ctx.aborted = false → inst.exec ctx = (ctx2, some e) → inst.critical = false →
      executeFrom (inst :: rest) ctx =
        ⟨(executeFrom rest ctx2).ctx, (executeFrom rest ctx2).err,
          inst.name :: (executeFrom rest ctx2).trace⟩) ∧
    (∀ (nxt : PluginInstance) (rest : List PluginInstance) (ctx : Ctx),
      ctx.aborted = false →
      ∃ t, (executeFrom (nxt :: rest) ctx).trace = nxt.name :: t) := by
  refine ⟨?_, ?_, ?_, ?_⟩
  · intro ps
    induction ps with
    | nil =>
      intro ctx pe h
      simp [executeFrom] at h
    | cons inst rest ih =>
      intro ctx pe h
      by_cases hab : ctx.isAborted
      · simp [executeFrom, hab] at h
      · rcases hx : executePlugin inst ctx with ⟨ctx2, oe⟩
        cases oe with
        | some e =>
          by_cases hc : inst.critical
          · simp [executeFrom, hab, hx, hc] at h
            cases h
            rfl
          · simp [executeFrom, hab, hx, hc] at h
            exact ih ctx2 pe h
        | none =>
          simp [executeFrom, hab, hx] at h
          exact ih ctx2 pe h
  · intro inst rest ctx ctx2 e hab hx hc
    simp [executeFrom, Ctx.isAborted, hab, executePlugin, hx, hc]
  · intro inst rest ctx ctx2 e hab hx hc
    simp [executeFrom, Ctx.isAborted, hab, executePlugin, hx, hc]
  · intro nxt rest ctx hab
    rcases hx : executePlugin nxt ctx with ⟨ctx2, oe⟩
    cases oe with
    | some e =>
      by_cases hc : nxt.critical
      · exact ⟨[], by simp [executeFrom, Ctx.isAborted, hab, hx, hc]⟩
      · exact ⟨(executeFrom rest ctx2).trace,
          by simp [executeFrom, Ctx.isAborted, hab, hx, hc]⟩
    | none =>
      exact ⟨(executeFrom rest ctx2).trace,
        by simp [executeFrom, Ctx.isAborted, hab, hx]⟩

/-- Witness for C6 at concrete chains: a critical failure stops the chain
with the error surfaced and the second plugin never invoked; a non-critical
failure is swallowed and the second plugin runs. -/
theorem claim_c6_critical_error_policy_witness :
    executeFrom [failingCriticalPlugin, observerPlugin] (newCtx Phase.beforeRequest) =
      ⟨newCtx Phase.beforeRequest,
        some ⟨"crit", Phase.beforeRequest, "boom", true⟩, ["crit"]⟩ ∧
    executeFrom [failingSoftPlugin, observerPlugin] (newCtx Phase.beforeRequest) =
      ⟨newCtx Phase.beforeRequest, none, ["soft", "logger"]⟩ := by
  constructor
  · exact claim_c6_critical_error_policy.2.1 failingCriticalPlugin [observerPlugin]
      (newCtx Phase.beforeRequest) (newCtx Phase.beforeRequest) "boom" rfl rfl rfl
  · have h := claim_c6_critical_error_policy.2.2.1 failingSoftPlugin [observerPlugin]
      (newCtx Phase.beforeRequest) (newCtx Phase.beforeRequest) "oops" rfl rfl rfl
    rw [h]
    decide

/-- Helper: a run over plugins that never error and never change the abort
flag, started on a non-aborted context, invokes every plugin in list
order. -/
theorem executeFrom_benign_trace :
    ∀ (ps : List PluginInstance) (ctx : Ctx),
      (∀ inst ∈ ps, ∀ x : Ctx, (inst.exec x).1.aborted = x.aborted ∧ (inst.exec x).2 = none) →
      ctx.aborted = false →
      (executeFrom ps ctx).trace = ps.map PluginInstance.name ∧
      (executeFrom ps ctx).ctx.aborted = false := by
  intro ps
  induction ps with
  | nil =>
    intro ctx _ hab
    exact ⟨rfl, hab⟩
  | cons inst rest ih =>
    intro ctx h hab
    have h2 := h inst (by simp) ctx
    rcases hx : inst.exec ctx with ⟨ctx2, oe⟩
    rw [hx] at h2
    obtain ⟨hab2, hoe⟩ := h2
    subst hoe
    have hrest := ih ctx2 (fun i hi x => h i (by simp [hi]) x) (by rw [hab2, hab])
    constructor
    · simp only [executeFrom, Ctx.isAborted, hab, Bool.false_eq_true, if_false,
        executePlugin, hx, List.map_cons]
      rw [hrest.1]
    · simp only [executeFrom, Ctx.isAborted, hab, Bool.false_eq_true, if_false,
        executePlugin, hx]
      exact hrest.2

/-! ### Functional correctness of the embedded sort.Slice (pdqsort)

The following development proves that sortSliceGo permutes its input and
orders it by the integer key of the comparison closure, for every input.
It is used by the amended C5 theorem. -/

section SortBasics

variable {α : Type} [Inhabited α]

theorem aget_eq_getElem (xs : List α) (k : Nat) (h : k < xs.length) :
    aget xs k = xs[k] := by
  simp [aget, List.getD_eq_getElem?_getD, List.getElem?_eq_getElem h]

theorem aget_oob (xs : List α) (k : Nat) (h : xs.length ≤ k) :
    aget xs k = default := by
  simp [aget, List.getD_eq_getElem?_getD, List.getElem?_eq_none h]

theorem aget_set_self (xs : List α) (i : Nat) (v : α) (h : i < xs.length) :
    aget (xs.set i v) i = v := by
  rw [aget_eq_getElem _ _ (by simpa using h)]
  simp

theorem aget_set_ne (xs : List α) (i k : Nat) (v : α) (h : k ≠ i) :
    aget (xs.set i v) k = aget xs k := by
  by_cases hk : k < xs.length
  · rw [aget_eq_getElem _ _ (by simpa using hk), aget_eq_getElem _ _ hk]
    exact List.getElem_set_ne (by omega) _
  · rw [aget_oob _ _ (by simpa using not_lt.mp hk), aget_oob _ _ (not_lt.mp hk)]

theorem length_aswap (xs : List α) (i j : Nat) :
    (aswap xs i j).length = xs.length := by
  simp [aswap]

theorem set_aget_self (xs : List α) (i : Nat) :
    xs.set i (aget xs i) = xs := by
  by_cases h : i < xs.length
  · apply List.ext_getElem
    · simp
    · intro k hk1 hk2
      by_cases hki : k = i
      · subst hki
        rw [List.getElem_set_self, aget_eq_getElem _ _ h]
      · exact List.getElem_set_ne (by omega) _
  · exact List.set_eq_of_length_le (by omega)

theorem aswap_self (xs : List α) (i : Nat) : aswap xs i i = xs := by
  simp only [aswap, List.set_set]
  exact set_aget_self xs i

theorem aget_aswap_fst (xs : List α) (i j : Nat) (hi : i < xs.length)
    (hj : j < xs.length) : aget (aswap xs i j) i = aget xs j := by
  by_cases hij : i = j
  · subst hij
    rw [aswap_self]
  · show aget ((xs.set i (xs.getD j default)).set j (xs.getD i default)) i = aget xs j
    rw [aget_set_ne _ _ _ _ hij, aget_set_self _ _ _ hi]
    rfl

theorem aget_aswap_snd (xs : List α) (i j : Nat) (hj : j < xs.length) :
    aget (aswap xs i j) j = aget xs i := by
  show aget ((xs.set i (xs.getD j default)).set j (xs.getD i default)) j = aget xs i
  rw [aget_set_self _ _ _ (by simpa using hj)]
  rfl

theorem aget_aswap_other (xs : List α) (i j k : Nat) (hki : k ≠ i) (hkj : k ≠ j) :
    aget (aswap xs i j) k = aget xs k := by
  show aget ((xs.set i (xs.getD j default)).set j (xs.getD i default)) k = aget xs k
  rw [aget_set_ne _ _ _ _ hkj, aget_set_ne _ _ _ _ hki]

theorem perm_cons_set (l : List α) (k : Nat) (v : α) (h : k < l.length) :
    (l.get ⟨k, h⟩ :: l.set k v).Perm (v :: l) := by
  induction l generalizing k with
  | nil => simp at h
  | cons x t ih =>
    cases k with
    | zero => simpa using List.Perm.swap v x t
    | succ k =>
      have hk : k < t.length := by simpa using h
      have h1 : ((x :: t).get ⟨k + 1, h⟩ : α) = t.get ⟨k, hk⟩ := rfl
      have h2 : (x :: t).set (k + 1) v = x :: t.set k v := rfl
      rw [h1, h2]
      exact ((List.Perm.swap x _ _).trans ((ih k hk).cons x)).trans (List.Perm.swap v x t)

theorem aswap_perm_lt (xs : List α) : ∀ (i j : Nat), i < j → j < xs.length →
    (aswap xs i j).Perm xs := by
  induction xs with
  | nil =>
    intro i j _ hj
    simp at hj
  | cons x t ih =>
    intro i j hij hj
    cases i with
    | zero =>
      cases j with
      | zero => omega
      | succ j =>
        have hjt : j < t.length := by simpa using hj
        show (((x :: t).set 0 ((x :: t).getD (j + 1) default)).set (j + 1)
          ((x :: t).getD 0 default)).Perm (x :: t)
        have h1 : (x :: t).getD (j + 1) default = t.get ⟨j, hjt⟩ := by
          show t.getD j default = t.get ⟨j, hjt⟩
          rw [show (t.get ⟨j, hjt⟩ : α) = t[j] from rfl, ← aget_eq_getElem t j hjt]
          rfl
        rw [h1]
        show (t.get ⟨j, hjt⟩ :: t.set j x).Perm (x :: t)
        exact perm_cons_set t j x hjt
    | succ i =>
      cases j with
      | zero => omega
      | succ j =>
        have hjt : j < t.length := by simpa using hj
        show (((x :: t).set (i + 1) ((x :: t).getD (j + 1) default)).set (j + 1)
          ((x :: t).getD (i + 1) default)).Perm (x :: t)
        show (x :: ((t.set i (t.getD j default)).set j (t.getD i default))).Perm (x :: t)
        exact (ih i j (by omega) hjt).cons x

theorem aswap_perm (xs : List α) (i j : Nat) (hi : i < xs.length)
    (hj : j < xs.length) : (aswap xs i j).Perm xs := by
  rcases lt_trichotomy i j with h | h | h
  · exact aswap_perm_lt xs i j h hj
  · subst h
    rw [aswap_self]
  · have hc : aswap xs i j = aswap xs j i := by
      simp only [aswap]
      exact List.set_comm _ _ _ (by omega)
    rw [hc]
    exact aswap_perm_lt xs j i h hi

/- ===== rangePerm framework ===== -/

theorem rangePerm_refl (xs : List α) (a b : Nat) : rangePerm xs xs a b :=
  ⟨rfl, fun _ _ _ => rfl, List.Perm.refl xs⟩

theorem rangePerm_trans {xs ys zs : List α} {a b : Nat}
    (h1 : rangePerm xs ys a b) (h2 : rangePerm ys zs a b) : rangePerm xs zs a b := by
  obtain ⟨l1, o1, p1⟩ := h1
  obtain ⟨l2, o2, p2⟩ := h2
  exact ⟨l2.trans l1, fun k hk hout => (o2 k (by omega) hout).trans (o1 k hk hout),
    p2.trans p1⟩

theorem rangePerm_widen {xs ys : List α} {a b a2 b2 : Nat}
    (h : rangePerm xs ys a2 b2) (ha : a ≤ a2) (hb : b2 ≤ b) : rangePerm xs ys a b := by
  obtain ⟨l1, o1, p1⟩ := h
  exact ⟨l1, fun k hk hout => o1 k hk (by omega), p1⟩

theorem rangePerm_aswap (xs : List α) {i j a b : Nat} (hai : a ≤ i) (hib : i < b)
    (haj : a ≤ j) (hjb : j < b) (hlen : b ≤ xs.length) :
    rangePerm xs (aswap xs i j) a b := by
  refine ⟨length_aswap xs i j, ?_, aswap_perm xs i j (by omega) (by omega)⟩
  intro k hk hout
  exact aget_aswap_other xs i j k (by omega) (by omega)

theorem windowOf_length (l : List α) (a b : Nat) (hb : b ≤ l.length) :
    (windowOf l a b).length = b - a := by
  simp [windowOf, Nat.min_eq_left hb]

theorem aget_windowOf (l : List α) (a b k : Nat) (hk : k < b - a) (hb : b ≤ l.length) :
    aget (windowOf l a b) k = aget l (a + k) := by
  have h1 : k < (windowOf l a b).length := by
    rw [windowOf_length l a b hb]
    omega
  have h2 : a + k < l.length := by omega
  rw [aget_eq_getElem _ _ h1, aget_eq_getElem _ _ h2]
  simp [windowOf]

theorem windowOf_decomp (l : List α) (a b : Nat) (hab : a ≤ b) (hb : b ≤ l.length) :
    l = l.take a ++ windowOf l a b ++ l.drop b := by
  have h2 : l.take b = (l.take b).take a ++ (l.take b).drop a :=
    (List.take_append_drop a _).symm
  have h3 : (l.take b).take a = l.take a := by
    rw [List.take_take, Nat.min_eq_left hab]
  calc l = l.take b ++ l.drop b := (List.take_append_drop b l).symm
    _ = ((l.take b).take a ++ (l.take b).drop a) ++ l.drop b := by rw [← h2]
    _ = l.take a ++ windowOf l a b ++ l.drop b := by rw [h3]; rfl

theorem take_eq_of_aget (xs ys : List α) (a : Nat) (hlen : ys.length = xs.length)
    (h : ∀ k, k < xs.length → k < a → aget ys k = aget xs k) :
    ys.take a = xs.take a := by
  apply List.ext_getElem
  · simp [hlen]
  · intro k hk1 hk2
    have hky : k < ys.length := by simp at hk1; omega
    have hkx : k < xs.length := by simp at hk2; omega
    have hka : k < a := by simp at hk1; omega
    rw [List.getElem_take, List.getElem_take,
      ← aget_eq_getElem _ _ hky, ← aget_eq_getElem _ _ hkx]
    exact h k hkx hka

theorem drop_eq_of_aget (xs ys : List α) (b : Nat) (hlen : ys.length = xs.length)
    (h : ∀ k, k < xs.length → b ≤ k → aget ys k = aget xs k) :
    ys.drop b = xs.drop b := by
  apply List.ext_getElem
  · simp [hlen]
  · intro k hk1 hk2
    have hky : b + k < ys.length := by simp at hk1; omega
    have hkx : b + k < xs.length := by simp at hk2; omega
    rw [List.getElem_drop, List.getElem_drop,
      ← aget_eq_getElem _ _ hky, ← aget_eq_getElem _ _ hkx]
    exact h (b + k) hkx (by omega)

theorem windowOf_perm {xs ys : List α} {a b : Nat} (h : rangePerm xs ys a b)
    (hab : a ≤ b) (hb : b ≤ xs.length) :
    (windowOf ys a b).Perm (windowOf xs a b) := by
  obtain ⟨hlen, hout, hperm⟩ := h
  have hby : b ≤ ys.length := by omega
  have hdx := windowOf_decomp xs a b hab hb
  have hdy := windowOf_decomp ys a b hab hby
  have ht : ys.take a = xs.take a :=
    take_eq_of_aget xs ys a hlen (fun k hk hka => hout k hk (Or.inl hka))
  have hd : ys.drop b = xs.drop b :=
    drop_eq_of_aget xs ys b hlen (fun k hk hkb => hout k hk (Or.inr hkb))
  have hp : (xs.take a ++ (windowOf ys a b ++ xs.drop b)).Perm
      (xs.take a ++ (windowOf xs a b ++ xs.drop b)) := by
    have hq := hperm
    rw [hdy, hdx, ht, hd] at hq
    simpa [List.append_assoc] using hq
  have hp2 := (List.perm_append_left_iff _).mp hp
  exact (List.perm_append_right_iff _).mp hp2

theorem rangePerm_mem {xs ys : List α} {a b : Nat} (h : rangePerm xs ys a b)
    (hb : b ≤ xs.length) : ∀ k, a ≤ k → k < b →
    ∃ m, a ≤ m ∧ m < b ∧ aget ys k = aget xs m := by
  intro k hak hkb
  have hab : a ≤ b := by omega
  have hwp := windowOf_perm h hab hb
  have hlen := h.1
  have hby : b ≤ ys.length := by omega
  have hkw : k - a < (windowOf ys a b).length := by
    rw [windowOf_length ys a b hby]
    omega
  have h1 : aget ys k = aget (windowOf ys a b) (k - a) := by
    rw [aget_windowOf ys a b (k - a) (by omega) hby]
    congr 1
    omega
  have hmem : aget (windowOf ys a b) (k - a) ∈ windowOf ys a b := by
    rw [aget_eq_getElem _ _ hkw]
    exact List.getElem_mem hkw
  have hmem2 : aget (windowOf ys a b) (k - a) ∈ windowOf xs a b := hwp.mem_iff.mp hmem
  obtain ⟨i, hi, hieq⟩ := List.mem_iff_getElem.mp hmem2
  have hiw : i < b - a := by
    rw [windowOf_length xs a b hb] at hi
    exact hi
  refine ⟨a + i, by omega, by omega, ?_⟩
  rw [h1, ← aget_windowOf xs a b i hiw hb, aget_eq_getElem _ _ hi, hieq]

theorem rangePerm_bound {xs ys : List α} {a b : Nat} (P : α → Prop)
    (h : rangePerm xs ys a b) (hb : b ≤ xs.length)
    (hP : ∀ k, a ≤ k → k < b → P (aget xs k)) :
    ∀ k, a ≤ k → k < b → P (aget ys k) := by
  intro k hak hkb
  obtain ⟨m, ham, hmb, heq⟩ := rangePerm_mem h hb k hak hkb
  rw [heq]
  exact hP m ham hmb

/- ===== sortedness helpers ===== -/

theorem sortedRange_vacuous (key : α → Int) (xs : List α) (a b : Nat)
    (h : b ≤ a + 1) : sortedRange key xs a b := by
  intro i j hai hij hjb
  omega

theorem sortedRange_of_adj {key : α → Int} {xs : List α} {a b : Nat}
    (h : adjSorted key xs a b) : sortedRange key xs a b := by
  have hstep : ∀ d i, a ≤ i → i + d + 1 < b →
      key (aget xs i) ≤ key (aget xs (i + d + 1)) := by
    intro d
    induction d with
    | zero =>
      intro i hai hib
      have h1 := h (i + 1) (by omega) (by omega)
      simpa using h1
    | succ d ih =>
      intro i hai hib
      have h1 := ih i hai (by omega)
      have h2 := h (i + d + 2) (by omega) (by omega)
      have h3 : key (aget xs (i + d + 1)) ≤ key (aget xs (i + d + 2)) := by
        have : i + d + 2 - 1 = i + d + 1 := by omega
        rwa [this] at h2
      have h4 : i + (d + 1) + 1 = i + d + 2 := by omega
      rw [h4]
      exact le_trans h1 h3
  intro i j hai hij hjb
  obtain ⟨d, rfl⟩ : ∃ d, j = i + d + 1 := ⟨j - i - 1, by omega⟩
  exact hstep d i hai hjb

theorem sortedRange_congr {key : α → Int} {xs ys : List α} {a b : Nat}
    (h : ∀ k, a ≤ k → k < b → aget ys k = aget xs k)
    (hs : sortedRange key xs a b) : sortedRange key ys a b := by
  intro i j hai hij hjb
  rw [h i hai (by omega), h j (by omega) hjb]
  exact hs i j hai hij hjb

theorem keyLess_lt {key : α → Int} {xs : List α} {i j : Nat}
    (h : aless (keyLess key) xs i j = true) : key (aget xs i) < key (aget xs j) := by
  simpa [aless, keyLess] using h

theorem keyLess_ge {key : α → Int} {xs : List α} {i j : Nat}
    (h : ¬ aless (keyLess key) xs i j = true) : key (aget xs j) ≤ key (aget xs i) := by
  simp only [aless, keyLess, decide_eq_true_eq] at h
  omega

end SortBasics

/- ===== insertion sort ===== -/

section InsertionSort

variable {α : Type} [Inhabited α]

theorem insertInner_spec (key : α → Int) (a i : Nat) :
    ∀ (j : Nat) (ys : List α), a ≤ j → j ≤ i → i < ys.length →
      (∀ k, a < k → k ≤ i → k ≠ j → key (aget ys (k - 1)) ≤ key (aget ys k)) →
      (a < j → j < i → key (aget ys (j - 1)) ≤ key (aget ys (j + 1))) →
      rangePerm ys (insertInner (keyLess key) a ys j) a (i + 1) ∧
      (∀ k, a < k → k ≤ i →
        key (aget (insertInner (keyLess key) a ys j) (k - 1)) ≤
          key (aget (insertInner (keyLess key) a ys j) k)) := by
  intro j
  induction j with
  | zero =>
    intro ys _ _ _ hpairs _
    refine ⟨rangePerm_refl ys a (i + 1), ?_⟩
    intro k hak hki
    rw [show insertInner (keyLess key) a ys 0 = ys from rfl]
    exact hpairs k hak hki (by omega)
  | succ j ih =>
    intro ys haj hji hlen hpairs hbridge
    by_cases hcond : a < j + 1 ∧ key (aget ys (j + 1)) < key (aget ys j)
    · have hc : (a < j + 1 && aless (keyLess key) ys (j + 1) j) = true := by
        simp [aless, keyLess, hcond.1, hcond.2]
      have hrw : insertInner (keyLess key) a ys (j + 1) =
          insertInner (keyLess key) a (aswap ys (j + 1) j) j := by
        rw [insertInner, if_pos hc]
      set ys2 := aswap ys (j + 1) j with hys2
      have hjlen : j + 1 < ys.length := by omega
      have hget_j : aget ys2 j = aget ys (j + 1) :=
        aget_aswap_snd ys (j + 1) j (by omega)
      have hget_j1 : aget ys2 (j + 1) = aget ys j :=
        aget_aswap_fst ys (j + 1) j hjlen (by omega)
      have hget_other : ∀ m, m ≠ j → m ≠ j + 1 → aget ys2 m = aget ys m := by
        intro m h1 h2
        exact aget_aswap_other ys (j + 1) j m h2 h1
      have hp2 : ∀ k, a < k → k ≤ i → k ≠ j →
          key (aget ys2 (k - 1)) ≤ key (aget ys2 k) := by
        intro k hak hki hkj
        by_cases hk1 : k = j + 1
        · subst hk1
          have h1 : j + 1 - 1 = j := by omega
          rw [h1, hget_j, hget_j1]
          exact le_of_lt hcond.2
        · by_cases hk2 : k = j + 2
          · subst hk2
            have h1 : j + 2 - 1 = j + 1 := by omega
            rw [h1, hget_j1, hget_other (j + 2) (by omega) (by omega)]
            exact hbridge hcond.1 (by omega)
          · have h1 : aget ys2 (k - 1) = aget ys (k - 1) :=
              hget_other (k - 1) (by omega) (by omega)
            have h2 : aget ys2 k = aget ys k := hget_other k hkj hk1
            rw [h1, h2]
            exact hpairs k hak hki hk1
      have hb2 : a < j → j < i → key (aget ys2 (j - 1)) ≤ key (aget ys2 (j + 1)) := by
        intro haj2 hji2
        have h1 : aget ys2 (j - 1) = aget ys (j - 1) :=
          hget_other (j - 1) (by omega) (by omega)
        rw [h1, hget_j1]
        exact hpairs j haj2 (by omega) (by omega)
      have hih := ih ys2 (by omega) (by omega) (by rw [hys2, length_aswap]; omega)
        hp2 hb2
      rw [hrw]
      refine ⟨rangePerm_trans ?_ hih.1, hih.2⟩
      exact rangePerm_aswap ys (by omega) (by omega) (by omega) (by omega) (by omega)
    · have hc : ¬ ((a < j + 1 && aless (keyLess key) ys (j + 1) j) = true) := by
        intro hcc
        simp only [Bool.and_eq_true, decide_eq_true_eq, aless, keyLess] at hcc
        exact hcond hcc
      have hrw : insertInner (keyLess key) a ys (j + 1) = ys := by
        rw [insertInner, if_neg hc]
      rw [hrw]
      refine ⟨rangePerm_refl ys a (i + 1), ?_⟩
      intro k hak hki
      by_cases hk1 : k = j + 1
      · subst hk1
        by_cases hja : a < j + 1
        · have h2 : ¬ key (aget ys (j + 1)) < key (aget ys j) := by
            intro h3
            exact hcond ⟨hja, h3⟩
          have h1 : j + 1 - 1 = j := by omega
          rw [h1]
          omega
        · omega
      · exact hpairs k hak hki hk1

theorem insertionSortRange_spec (key : α → Int) (xs : List α) (a : Nat) :
    ∀ b, b ≤ xs.length →
      rangePerm xs (insertionSortRange (keyLess key) xs a b) a b ∧
      sortedRange key (insertionSortRange (keyLess key) xs a b) a b := by
  intro b
  induction b with
  | zero =>
    intro _
    constructor
    · simp only [insertionSortRange, List.range_zero, List.drop_nil, List.foldl_nil]
      exact rangePerm_refl xs a 0
    · exact sortedRange_vacuous key _ a 0 (by omega)
  | succ b ihb =>
    intro hblen
    by_cases hba : b ≤ a
    · have hnil : (List.range (b + 1)).drop (a + 1) = [] :=
        List.drop_eq_nil_of_le (by rw [List.length_range]; omega)
      constructor
      · simp only [insertionSortRange, hnil, List.foldl_nil]
        exact rangePerm_refl xs a (b + 1)
      · simp only [insertionSortRange, hnil, List.foldl_nil]
        exact sortedRange_vacuous key _ a (b + 1) (by omega)
    · push_neg at hba
      have hstep : insertionSortRange (keyLess key) xs a (b + 1) =
          insertInner (keyLess key) a (insertionSortRange (keyLess key) xs a b) b := by
        have hdec : (List.range (b + 1)).drop (a + 1) =
            (List.range b).drop (a + 1) ++ [b] := by
          rw [List.range_succ, List.drop_append_of_le_length (by rw [List.length_range]; omega)]
        simp only [insertionSortRange, hdec, List.foldl_append, List.foldl_cons, List.foldl_nil]
      obtain ⟨hperm, hsort⟩ := ihb (by omega)
      set zs := insertionSortRange (keyLess key) xs a b with hzs
      have hzlen : zs.length = xs.length := hperm.1
      have hp2 : ∀ k, a < k → k ≤ b → k ≠ b →
          key (aget zs (k - 1)) ≤ key (aget zs k) := by
        intro k hak hki hkb
        exact hsort (k - 1) k (by omega) (by omega) (by omega)
      have hb2 : a < b → b < b → key (aget zs (b - 1)) ≤ key (aget zs (b + 1)) := by
        intro _ h2
        omega
      have hspec := insertInner_spec key a b b zs (by omega) (le_refl b) (by omega)
        hp2 hb2
      rw [hstep]
      refine ⟨rangePerm_trans (rangePerm_widen hperm (le_refl a) (by omega)) hspec.1, ?_⟩
      apply sortedRange_of_adj
      intro k hak hkb
      exact hspec.2 k hak (by omega)

end InsertionSort

/- ===== partition ===== -/

section Partition

variable {α : Type} [Inhabited α]

theorem scanFwd_spec (key : α → Int) (xs : List α) (a j : Nat) :
    ∀ (fuel i : Nat), j + 2 ≤ fuel + i →
      i ≤ scanFwd (keyLess key) xs a j fuel i ∧
      scanFwd (keyLess key) xs a j fuel i ≤ max i (j + 1) ∧
      (∀ k, i ≤ k → k < scanFwd (keyLess key) xs a j fuel i →
        key (aget xs k) < key (aget xs a)) ∧
      (scanFwd (keyLess key) xs a j fuel i ≤ j →
        ¬ key (aget xs (scanFwd (keyLess key) xs a j fuel i)) < key (aget xs a)) := by
  intro fuel
  induction fuel with
  | zero =>
    intro i hfi
    simp only [scanFwd]
    exact ⟨le_refl i, le_max_left i (j + 1), fun k h1 h2 => by omega, fun h => by omega⟩
  | succ fuel ih =>
    intro i hfi
    by_cases hcond : i ≤ j ∧ key (aget xs i) < key (aget xs a)
    · have hc : (i ≤ j && aless (keyLess key) xs i a) = true := by
        simp [aless, keyLess, hcond.1, hcond.2]
      have hrw : scanFwd (keyLess key) xs a j (fuel + 1) i =
          scanFwd (keyLess key) xs a j fuel (i + 1) := by
        rw [scanFwd, if_pos hc]
      obtain ⟨h1, h2, h3, h4⟩ := ih (i + 1) (by omega)
      rw [hrw]
      refine ⟨by omega, by omega, ?_, h4⟩
      intro k hk1 hk2
      by_cases hki : k = i
      · subst hki
        exact hcond.2
      · exact h3 k (by omega) hk2
    · have hc : ¬ ((i ≤ j && aless (keyLess key) xs i a) = true) := by
        intro hcc
        simp only [Bool.and_eq_true, decide_eq_true_eq, aless, keyLess] at hcc
        exact hcond hcc
      have hrw : scanFwd (keyLess key) xs a j (fuel + 1) i = i := by
        rw [scanFwd, if_neg hc]
      rw [hrw]
      refine ⟨le_refl i, le_max_left i (j + 1), fun k h1 h2 => by omega, ?_⟩
      intro hij hlt
      exact hcond ⟨hij, hlt⟩

theorem scanBack_spec (key : α → Int) (xs : List α) (a i : Nat) (hi : 1 ≤ i) :
    ∀ (fuel j : Nat), j + 2 ≤ fuel + i →
      min (i - 1) j ≤ scanBack (keyLess key) xs a i fuel j ∧
      scanBack (keyLess key) xs a i fuel j ≤ j ∧
      (∀ k, scanBack (keyLess key) xs a i fuel j < k → k ≤ j →
        ¬ key (aget xs k) < key (aget xs a)) ∧
      (i ≤ scanBack (keyLess key) xs a i fuel j →
        key (aget xs (scanBack (keyLess key) xs a i fuel j)) < key (aget xs a)) := by
  intro fuel
  induction fuel with
  | zero =>
    intro j hfi
    simp only [scanBack]
    exact ⟨by omega, le_refl j, fun k h1 h2 => by omega, fun h => by omega⟩
  | succ fuel ih =>
    intro j hfi
    by_cases hcond : i ≤ j ∧ ¬ key (aget xs j) < key (aget xs a)
    · have hc : (i ≤ j && !aless (keyLess key) xs j a) = true := by
        simp [aless, keyLess, hcond.1, hcond.2]
      have hrw : scanBack (keyLess key) xs a i (fuel + 1) j =
          scanBack (keyLess key) xs a i fuel (j - 1) := by
        rw [scanBack, if_pos hc]
      obtain ⟨h1, h2, h3, h4⟩ := ih (j - 1) (by omega)
      rw [hrw]
      refine ⟨by omega, by omega, ?_, h4⟩
      intro k hk1 hk2
      by_cases hkj : k = j
      · subst hkj
        exact hcond.2
      · exact h3 k hk1 (by omega)
    · have hc : ¬ ((i ≤ j && !aless (keyLess key) xs j a) = true) := by
        intro hcc
        simp only [Bool.and_eq_true, Bool.not_eq_true', Bool.not_eq_true,
          aless, keyLess, decide_eq_false_iff_not, decide_eq_true_eq] at hcc
        exact hcond hcc
      have hrw : scanBack (keyLess key) xs a i (fuel + 1) j = j := by
        rw [scanBack, if_neg hc]
      rw [hrw]
      refine ⟨by omega, le_refl j, fun k h1 h2 => by omega, ?_⟩
      intro hij
      by_contra hnot
      exact hc (by simp [aless, keyLess, hij, hnot])

theorem partLoop_spec (key : α → Int) (b : Nat) :
    ∀ (fuel : Nat) (xs : List α) (a i j : Nat),
      b ≤ xs.length → a + 1 ≤ i → a ≤ j → j ≤ b - 1 → a < b →
      j + 2 ≤ fuel + i →
      (∀ k, a < k → k < i → key (aget xs k) < key (aget xs a)) →
      (∀ k, j < k → k < b → ¬ key (aget xs k) < key (aget xs a)) →
      rangePerm xs (partLoop (keyLess key) b fuel xs a i j).1 (a + 1) b ∧
      a ≤ (partLoop (keyLess key) b fuel xs a i j).2 ∧
      (partLoop (keyLess key) b fuel xs a i j).2 ≤ b - 1 ∧
      (∀ k, a < k → k ≤ (partLoop (keyLess key) b fuel xs a i j).2 →
        key (aget (partLoop (keyLess key) b fuel xs a i j).1 k) < key (aget xs a)) ∧
      (∀ k, (partLoop (keyLess key) b fuel xs a i j).2 < k → k < b →
        ¬ key (aget (partLoop (keyLess key) b fuel xs a i j).1 k) < key (aget xs a)) := by
  intro fuel
  induction fuel with
  | zero =>
    intro xs a i j hb hai haj hjb hab hfuel hA hB
    rw [show partLoop (keyLess key) b 0 xs a i j = (xs, j) from rfl]
    refine ⟨rangePerm_refl xs (a + 1) b, haj, hjb, ?_, ?_⟩
    · intro k hak hkj
      exact hA k hak (by omega)
    · intro k hjk hkb
      exact hB k hjk hkb
  | succ fuel ih =>
    intro xs a i j hb hai haj hjb hab hfuel hA hB
    obtain ⟨hf1, hf2, hf3, hf4⟩ := scanFwd_spec key xs a j (b + 2) i (by omega)
    obtain ⟨hg1, hg2, hg3, hg4⟩ := scanBack_spec key xs a
      (scanFwd (keyLess key) xs a j (b + 2) i) (by omega) (b + 2) j (by omega)
    have hstep : partLoop (keyLess key) b (fuel + 1) xs a i j =
        (if scanFwd (keyLess key) xs a j (b + 2) i >
            scanBack (keyLess key) xs a (scanFwd (keyLess key) xs a j (b + 2) i) (b + 2) j
         then (xs, scanBack (keyLess key) xs a (scanFwd (keyLess key) xs a j (b + 2) i)
            (b + 2) j)
         else partLoop (keyLess key) b fuel
            (aswap xs (scanFwd (keyLess key) xs a j (b + 2) i)
              (scanBack (keyLess key) xs a (scanFwd (keyLess key) xs a j (b + 2) i) (b + 2) j))
            a (scanFwd (keyLess key) xs a j (b + 2) i + 1)
            (scanBack (keyLess key) xs a (scanFwd (keyLess key) xs a j (b + 2) i) (b + 2) j
              - 1)) := rfl
    by_cases hij : scanFwd (keyLess key) xs a j (b + 2) i >
        scanBack (keyLess key) xs a (scanFwd (keyLess key) xs a j (b + 2) i) (b + 2) j
    · rw [hstep, if_pos hij]
      refine ⟨rangePerm_refl xs (a + 1) b, by omega, by omega, ?_, ?_⟩
      · intro k hak hkj
        by_cases hki : k < i
        · exact hA k hak hki
        · exact hf3 k (by omega) (by omega)
      · intro k hjk hkb
        by_cases hkj : k ≤ j
        · exact hg3 k hjk hkj
        · exact hB k (by omega) hkb
    · rw [hstep, if_neg hij]
      push_neg at hij
      have hle1 : key (aget xs (scanBack (keyLess key) xs a
          (scanFwd (keyLess key) xs a j (b + 2) i) (b + 2) j)) < key (aget xs a) :=
        hg4 hij
      have hle2 : ¬ key (aget xs (scanFwd (keyLess key) xs a j (b + 2) i)) <
          key (aget xs a) := hf4 (by omega)
      set i1 := scanFwd (keyLess key) xs a j (b + 2) i with hdefi1
      set j1 := scanBack (keyLess key) xs a i1 (b + 2) j with hdefj1
      have hi1b : i1 ≤ b - 1 := by omega
      have hj1b : j1 < b := by omega
      have hi1l : i1 < xs.length := by omega
      have hj1l : j1 < xs.length := by omega
      have haA : aget (aswap xs i1 j1) a = aget xs a :=
        aget_aswap_other xs i1 j1 a (by omega) (by omega)
      have hxi1 : aget (aswap xs i1 j1) i1 = aget xs j1 :=
        aget_aswap_fst xs i1 j1 hi1l hj1l
      have hxj1 : aget (aswap xs i1 j1) j1 = aget xs i1 :=
        aget_aswap_snd xs i1 j1 hj1l
      have hA2 : ∀ k, a < k → k < i1 + 1 → key (aget (aswap xs i1 j1) k) <
          key (aget (aswap xs i1 j1) a) := by
        intro k hak hki
        rw [haA]
        by_cases hk1 : k = i1
        · subst hk1
          rw [hxi1]
          exact hle1
        · rw [aget_aswap_other xs i1 j1 k hk1 (by omega)]
          by_cases hki2 : k < i
          · exact hA k hak hki2
          · exact hf3 k (by omega) (by omega)
      have hB2 : ∀ k, j1 - 1 < k → k < b → ¬ key (aget (aswap xs i1 j1) k) <
          key (aget (aswap xs i1 j1) a) := by
        intro k hjk hkb
        rw [haA]
        by_cases hk1 : k = j1
        · subst hk1
          rw [hxj1]
          exact hle2
        · rw [aget_aswap_other xs i1 j1 k (by omega) hk1]
          by_cases hkj : k ≤ j
          · exact hg3 k (by omega) hkj
          · exact hB k (by omega) hkb
      have hrec := ih (aswap xs i1 j1) a (i1 + 1) (j1 - 1)
        (by rw [length_aswap]; exact hb) (by omega) (by omega) (by omega) hab
        (by omega) hA2 hB2
      rw [haA] at hrec
      obtain ⟨hr1, hr2, hr3, hr4, hr5⟩ := hrec
      have hpw : rangePerm xs (aswap xs i1 j1) (a + 1) b :=
        rangePerm_aswap xs (by omega) (by omega) (by omega) hj1b hb
      exact ⟨rangePerm_trans hpw hr1, hr2, hr3, hr4, hr5⟩

theorem partitionGo_spec (key : α → Int) (xs0 : List α) (a b pivot : Nat)
    (hb : b ≤ xs0.length) (hab : a < b) (hpa : a ≤ pivot) (hpb : pivot < b) :
    rangePerm xs0 (partitionGo (keyLess key) xs0 a b pivot).1 a b ∧
    a ≤ (partitionGo (keyLess key) xs0 a b pivot).2.1 ∧
    (partitionGo (keyLess key) xs0 a b pivot).2.1 < b ∧
    key (aget (partitionGo (keyLess key) xs0 a b pivot).1
      (partitionGo (keyLess key) xs0 a b pivot).2.1) = key (aget xs0 pivot) ∧
    (∀ k, a ≤ k → k < (partitionGo (keyLess key) xs0 a b pivot).2.1 →
      key (aget (partitionGo (keyLess key) xs0 a b pivot).1 k) <
        key (aget xs0 pivot)) ∧
    (∀ k, (partitionGo (keyLess key) xs0 a b pivot).2.1 < k → k < b →
      ¬ key (aget (partitionGo (keyLess key) xs0 a b pivot).1 k) <
        key (aget xs0 pivot)) := by
  have hlxs : (aswap xs0 a pivot).length = xs0.length := length_aswap xs0 a pivot
  have hpivA : aget (aswap xs0 a pivot) a = aget xs0 pivot :=
    aget_aswap_fst xs0 a pivot (by omega) (by omega)
  have hperm0 : rangePerm xs0 (aswap xs0 a pivot) a b :=
    rangePerm_aswap xs0 (le_refl a) hab hpa hpb hb
  obtain ⟨hf1, hf2, hf3, hf4⟩ := scanFwd_spec key (aswap xs0 a pivot) a (b - 1)
    (b + 2) (a + 1) (by omega)
  obtain ⟨hg1, hg2, hg3, hg4⟩ := scanBack_spec key (aswap xs0 a pivot) a
    (scanFwd (keyLess key) (aswap xs0 a pivot) a (b - 1) (b + 2) (a + 1)) (by omega)
    (b + 2) (b - 1) (by omega)
  set xs := aswap xs0 a pivot with hdefxs
  set i1 := scanFwd (keyLess key) xs a (b - 1) (b + 2) (a + 1) with hdefi1
  set j1 := scanBack (keyLess key) xs a i1 (b + 2) (b - 1) with hdefj1
  have hj1a : a ≤ j1 := by omega
  have hj1b : j1 < b := by omega
  have hlj1 : j1 < xs.length := by omega
  have hla : a < xs.length := by omega
  have h0 : partitionGo (keyLess key) xs0 a b pivot =
      (if i1 > j1 then (aswap xs j1 a, j1, true)
       else ((aswap (partLoop (keyLess key) b (b + 2) (aswap xs i1 j1) a (i1 + 1)
            (j1 - 1)).1
          (partLoop (keyLess key) b (b + 2) (aswap xs i1 j1) a (i1 + 1) (j1 - 1)).2 a,
        (partLoop (keyLess key) b (b + 2) (aswap xs i1 j1) a (i1 + 1) (j1 - 1)).2,
        false))) := rfl
  by_cases hij : i1 > j1
  · have h1 : partitionGo (keyLess key) xs0 a b pivot = (aswap xs j1 a, j1, true) := by
      rw [h0, if_pos hij]
    have hfst : (partitionGo (keyLess key) xs0 a b pivot).1 = aswap xs j1 a := by
      rw [h1]
    have hsnd : (partitionGo (keyLess key) xs0 a b pivot).2.1 = j1 := by
      rw [h1]
    rw [hfst, hsnd]
    have hmidget : aget (aswap xs j1 a) j1 = aget xs a := by
      by_cases hja : j1 = a
      · rw [hja, aswap_self]
      · exact aget_aswap_fst xs j1 a hlj1 hla
    refine ⟨?_, hj1a, hj1b, ?_, ?_, ?_⟩
    · exact rangePerm_trans hperm0
        (rangePerm_aswap xs hj1a hj1b (le_refl a) hab (by omega))
    · rw [hmidget, hpivA]
    · intro k hak hkj
      rw [← hpivA]
      by_cases hka : k = a
      · rw [hka, show aget (aswap xs j1 a) a = aget xs j1 from
          aget_aswap_snd xs j1 a hla]
        exact hf3 j1 (by omega) (by omega)
      · rw [aget_aswap_other xs j1 a k (by omega) hka]
        exact hf3 k (by omega) (by omega)
    · intro k hjk hkb
      rw [← hpivA]
      rw [aget_aswap_other xs j1 a k (by omega) (by omega)]
      exact hg3 k hjk (by omega)
  · push_neg at hij
    have hle1 : key (aget xs j1) < key (aget xs a) := hg4 hij
    have hle2 : ¬ key (aget xs i1) < key (aget xs a) := hf4 (by omega)
    have hi1l : i1 < xs.length := by omega
    have haA : aget (aswap xs i1 j1) a = aget xs a :=
      aget_aswap_other xs i1 j1 a (by omega) (by omega)
    have hxi1 : aget (aswap xs i1 j1) i1 = aget xs j1 :=
      aget_aswap_fst xs i1 j1 hi1l hlj1
    have hxj1 : aget (aswap xs i1 j1) j1 = aget xs i1 :=
      aget_aswap_snd xs i1 j1 hlj1
    have hA2 : ∀ k, a < k → k < i1 + 1 → key (aget (aswap xs i1 j1) k) <
        key (aget (aswap xs i1 j1) a) := by
      intro k hak hki
      rw [haA]
      by_cases hk1 : k = i1
      · rw [hk1, hxi1]
        exact hle1
      · rw [aget_aswap_other xs i1 j1 k hk1 (by omega)]
        exact hf3 k (by omega) (by omega)
    have hB2 : ∀ k, j1 - 1 < k → k < b → ¬ key (aget (aswap xs i1 j1) k) <
        key (aget (aswap xs i1 j1) a) := by
      intro k hjk hkb
      rw [haA]
      by_cases hk1 : k = j1
      · rw [hk1, hxj1]
        exact hle2
      · rw [aget_aswap_other xs i1 j1 k (by omega) hk1]
        exact hg3 k (by omega) (by omega)
    have hrec := partLoop_spec key b (b + 2) (aswap xs i1 j1) a (i1 + 1) (j1 - 1)
      (by rw [length_aswap]; omega) (by omega) (by omega) (by omega) hab
      (by omega) hA2 hB2
    rw [haA] at hrec
    obtain ⟨hr1, hr2, hr3, hr4, hr5⟩ := hrec
    have hnij : ¬ (i1 > j1) := by omega
    have h1 : partitionGo (keyLess key) xs0 a b pivot =
        ((aswap (partLoop (keyLess key) b (b + 2) (aswap xs i1 j1) a (i1 + 1)
            (j1 - 1)).1
          (partLoop (keyLess key) b (b + 2) (aswap xs i1 j1) a (i1 + 1) (j1 - 1)).2 a,
        (partLoop (keyLess key) b (b + 2) (aswap xs i1 j1) a (i1 + 1) (j1 - 1)).2,
        false)) := by
      rw [h0, if_neg hnij]
    have hfst : (partitionGo (keyLess key) xs0 a b pivot).1 =
        aswap (partLoop (keyLess key) b (b + 2) (aswap xs i1 j1) a (i1 + 1) (j1 - 1)).1
          (partLoop (keyLess key) b (b + 2) (aswap xs i1 j1) a (i1 + 1) (j1 - 1)).2 a := by
      rw [h1]
    have hsnd : (partitionGo (keyLess key) xs0 a b pivot).2.1 =
        (partLoop (keyLess key) b (b + 2) (aswap xs i1 j1) a (i1 + 1) (j1 - 1)).2 := by
      rw [h1]
    rw [hfst, hsnd]
    set zs := (partLoop (keyLess key) b (b + 2) (aswap xs i1 j1) a (i1 + 1) (j1 - 1)).1
      with hdefzs
    set jf := (partLoop (keyLess key) b (b + 2) (aswap xs i1 j1) a (i1 + 1) (j1 - 1)).2
      with hdefjf
    have hlzs : zs.length = xs0.length := by
      have h1 := hr1.1
      rw [hdefzs, h1, length_aswap]
      omega
    have hjfl : jf < zs.length := by omega
    have hal : a < zs.length := by omega
    have hzsa : aget zs a = aget xs a := by
      have h1 := hr1.2.1 a (by rw [length_aswap]; omega) (Or.inl (by omega))
      rw [h1, haA]
    have hmidget : aget (aswap zs jf a) jf = aget xs a := by
      by_cases hja : jf = a
      · rw [hja, aswap_self]
        exact hzsa
      · rw [show aget (aswap zs jf a) jf = aget zs a from
          aget_aswap_fst zs jf a hjfl hal]
        exact hzsa
    have hperm2 : rangePerm xs0 zs a b := by
      refine rangePerm_trans hperm0 (rangePerm_trans ?_ (rangePerm_widen hr1 (by omega)
        (le_refl b)))
      exact rangePerm_aswap xs (by omega) (by omega) (by omega) hj1b (by omega)
    refine ⟨?_, by omega, by omega, ?_, ?_, ?_⟩
    · refine rangePerm_trans hperm2 ?_
      exact rangePerm_aswap zs (by omega) (by omega) (le_refl a) hab (by omega)
    · rw [hmidget, hpivA]
    · intro k hak hkj
      rw [← hpivA]
      by_cases hka : k = a
      · rw [hka, show aget (aswap zs jf a) a = aget zs jf from
          aget_aswap_snd zs jf a hal]
        exact hr4 jf (by omega) (le_refl jf)
      · rw [aget_aswap_other zs jf a k (by omega) hka]
        exact hr4 k (by omega) (by omega)
    · intro k hjk hkb
      rw [← hpivA]
      rw [aget_aswap_other zs jf a k (by omega) (by omega)]
      exact hr5 k hjk hkb

end Partition

/- ===== partitionEqual ===== -/

section PartitionEqual

variable {α : Type} [Inhabited α]

theorem scanFwdEq_spec (key : α → Int) (xs : List α) (a j : Nat) :
    ∀ (fuel i : Nat), j + 2 ≤ fuel + i →
      i ≤ scanFwdEq (keyLess key) xs a j fuel i ∧
      scanFwdEq (keyLess key) xs a j fuel i ≤ max i (j + 1) ∧
      (∀ k, i ≤ k → k < scanFwdEq (keyLess key) xs a j fuel i →
        key (aget xs k) ≤ key (aget xs a)) ∧
      (scanFwdEq (keyLess key) xs a j fuel i ≤ j →
        key (aget xs a) < key (aget xs (scanFwdEq (keyLess key) xs a j fuel i))) := by
  intro fuel
  induction fuel with
  | zero =>
    intro i hfi
    simp only [scanFwdEq]
    exact ⟨le_refl i, le_max_left i (j + 1), fun k h1 h2 => by omega, fun h => by omega⟩
  | succ fuel ih =>
    intro i hfi
    by_cases hcond : i ≤ j ∧ ¬ key (aget xs a) < key (aget xs i)
    · have hc : (i ≤ j && !aless (keyLess key) xs a i) = true := by
        simp [aless, keyLess, hcond.1, hcond.2]
      have hrw : scanFwdEq (keyLess key) xs a j (fuel + 1) i =
          scanFwdEq (keyLess key) xs a j fuel (i + 1) := by
        rw [scanFwdEq, if_pos hc]
      obtain ⟨h1, h2, h3, h4⟩ := ih (i + 1) (by omega)
      rw [hrw]
      refine ⟨by omega, by omega, ?_, h4⟩
      intro k hk1 hk2
      by_cases hki : k = i
      · subst hki
        omega
      · exact h3 k (by omega) hk2
    · have hc : ¬ ((i ≤ j && !aless (keyLess key) xs a i) = true) := by
        intro hcc
        simp only [Bool.and_eq_true, Bool.not_eq_true', Bool.not_eq_true,
          aless, keyLess, decide_eq_false_iff_not, decide_eq_true_eq] at hcc
        exact hcond hcc
      have hrw : scanFwdEq (keyLess key) xs a j (fuel + 1) i = i := by
        rw [scanFwdEq, if_neg hc]
      rw [hrw]
      refine ⟨le_refl i, le_max_left i (j + 1), fun k h1 h2 => by omega, ?_⟩
      intro hij
      by_contra hnot
      exact hc (by simp [aless, keyLess, hij, hnot])

theorem scanBackEq_spec (key : α → Int) (xs : List α) (a i : Nat) (hi : 1 ≤ i) :
    ∀ (fuel j : Nat), j + 2 ≤ fuel + i →
      min (i - 1) j ≤ scanBackEq (keyLess key) xs a i fuel j ∧
      scanBackEq (keyLess key) xs a i fuel j ≤ j ∧
      (∀ k, scanBackEq (keyLess key) xs a i fuel j < k → k ≤ j →
        key (aget xs a) < key (aget xs k)) ∧
      (i ≤ scanBackEq (keyLess key) xs a i fuel j →
        key (aget xs (scanBackEq (keyLess key) xs a i fuel j)) ≤ key (aget xs a)) := by
  intro fuel
  induction fuel with
  | zero =>
    intro j hfi
    simp only [scanBackEq]
    exact ⟨by omega, le_refl j, fun k h1 h2 => by omega, fun h => by omega⟩
  | succ fuel ih =>
    intro j hfi
    by_cases hcond : i ≤ j ∧ key (aget xs a) < key (aget xs j)
    · have hc : (i ≤ j && aless (keyLess key) xs a j) = true := by
        simp [aless, keyLess, hcond.1, hcond.2]
      have hrw : scanBackEq (keyLess key) xs a i (fuel + 1) j =
          scanBackEq (keyLess key) xs a i fuel (j - 1) := by
        rw [scanBackEq, if_pos hc]
      obtain ⟨h1, h2, h3, h4⟩ := ih (j - 1) (by omega)
      rw [hrw]
      refine ⟨by omega, by omega, ?_, h4⟩
      intro k hk1 hk2
      by_cases hkj : k = j
      · subst hkj
        exact hcond.2
      · exact h3 k hk1 (by omega)
    · have hc : ¬ ((i ≤ j && aless (keyLess key) xs a j) = true) := by
        intro hcc
        simp only [Bool.and_eq_true, decide_eq_true_eq, aless, keyLess] at hcc
        exact hcond hcc
      have hrw : scanBackEq (keyLess key) xs a i (fuel + 1) j = j := by
        rw [scanBackEq, if_neg hc]
      rw [hrw]
      refine ⟨by omega, le_refl j, fun k h1 h2 => by omega, ?_⟩
      intro hij
      have h2 : ¬ key (aget xs a) < key (aget xs j) := by
        intro h3
        exact hcond ⟨hij, h3⟩
      omega

theorem partEqLoop_spec (key : α → Int) (b : Nat) :
    ∀ (fuel : Nat) (xs : List α) (a i j : Nat),
      b ≤ xs.length → a + 1 ≤ i → i ≤ b → a ≤ j → j ≤ b - 1 → a < b →
      j + 2 ≤ fuel + i →
      (∀ k, a < k → k < i → key (aget xs k) ≤ key (aget xs a)) →
      (∀ k, j < k → k < b → key (aget xs a) < key (aget xs k)) →
      rangePerm xs (partEqLoop (keyLess key) b fuel xs a i j).1 (a + 1) b ∧
      a + 1 ≤ (partEqLoop (keyLess key) b fuel xs a i j).2 ∧
      (partEqLoop (keyLess key) b fuel xs a i j).2 ≤ b ∧
      (∀ k, a < k → k < (partEqLoop (keyLess key) b fuel xs a i j).2 →
        key (aget (partEqLoop (keyLess key) b fuel xs a i j).1 k) ≤ key (aget xs a)) ∧
      (∀ k, (partEqLoop (keyLess key) b fuel xs a i j).2 ≤ k → k < b →
        key (aget xs a) < key (aget (partEqLoop (keyLess key) b fuel xs a i j).1 k)) := by
  intro fuel
  induction fuel with
  | zero =>
    intro xs a i j hb hai hib haj hjb hab hfuel hA hB
    rw [show partEqLoop (keyLess key) b 0 xs a i j = (xs, i) from rfl]
    refine ⟨rangePerm_refl xs (a + 1) b, hai, hib, ?_, ?_⟩
    · intro k hak hki
      exact hA k hak hki
    · intro k hik hkb
      exact hB k (by omega) hkb
  | succ fuel ih =>
    intro xs a i j hb hai hib haj hjb hab hfuel hA hB
    obtain ⟨hf1, hf2, hf3, hf4⟩ := scanFwdEq_spec key xs a j (b + 2) i (by omega)
    obtain ⟨hg1, hg2, hg3, hg4⟩ := scanBackEq_spec key xs a
      (scanFwdEq (keyLess key) xs a j (b + 2) i) (by omega) (b + 2) j (by omega)
    have hstep : partEqLoop (keyLess key) b (fuel + 1) xs a i j =
        (if scanFwdEq (keyLess key) xs a j (b + 2) i >
            scanBackEq (keyLess key) xs a (scanFwdEq (keyLess key) xs a j (b + 2) i)
              (b + 2) j
         then (xs, scanFwdEq (keyLess key) xs a j (b + 2) i)
         else partEqLoop (keyLess key) b fuel
            (aswap xs (scanFwdEq (keyLess key) xs a j (b + 2) i)
              (scanBackEq (keyLess key) xs a (scanFwdEq (keyLess key) xs a j (b + 2) i)
                (b + 2) j))
            a (scanFwdEq (keyLess key) xs a j (b + 2) i + 1)
            (scanBackEq (keyLess key) xs a (scanFwdEq (keyLess key) xs a j (b + 2) i)
              (b + 2) j - 1)) := rfl
    by_cases hij : scanFwdEq (keyLess key) xs a j (b + 2) i >
        scanBackEq (keyLess key) xs a (scanFwdEq (keyLess key) xs a j (b + 2) i) (b + 2) j
    · rw [hstep, if_pos hij]
      have hm1 : i ≤ scanFwdEq (keyLess key) xs a j (b + 2) i := hf1
      have hm2 : scanFwdEq (keyLess key) xs a j (b + 2) i ≤ b := by omega
      refine ⟨rangePerm_refl xs (a + 1) b, by omega, hm2, ?_, ?_⟩
      · intro k hak hki
        by_cases hk2 : k < i
        · exact hA k hak hk2
        · exact hf3 k (by omega) (by omega)
      · intro k hik hkb
        by_cases hkj : k ≤ j
        · exact hg3 k (by omega) hkj
        · exact hB k (by omega) hkb
    · rw [hstep, if_neg hij]
      push_neg at hij
      have hle1 : key (aget xs (scanBackEq (keyLess key) xs a
          (scanFwdEq (keyLess key) xs a j (b + 2) i) (b + 2) j)) ≤ key (aget xs a) :=
        hg4 hij
      have hle2 : key (aget xs a) < key (aget xs (scanFwdEq (keyLess key) xs a j
          (b + 2) i)) := hf4 (by omega)
      set i1 := scanFwdEq (keyLess key) xs a j (b + 2) i with hdefi1
      set j1 := scanBackEq (keyLess key) xs a i1 (b + 2) j with hdefj1
      have hi1l : i1 < xs.length := by omega
      have hj1l : j1 < xs.length := by omega
      have haA : aget (aswap xs i1 j1) a = aget xs a :=
        aget_aswap_other xs i1 j1 a (by omega) (by omega)
      have hxi1 : aget (aswap xs i1 j1) i1 = aget xs j1 :=
        aget_aswap_fst xs i1 j1 hi1l hj1l
      have hxj1 : aget (aswap xs i1 j1) j1 = aget xs i1 :=
        aget_aswap_snd xs i1 j1 hj1l
      have hA2 : ∀ k, a < k → k < i1 + 1 → key (aget (aswap xs i1 j1) k) ≤
          key (aget (aswap xs i1 j1) a) := by
        intro k hak hki
        rw [haA]
        by_cases hk1 : k = i1
        · rw [hk1, hxi1]
          exact hle1
        · rw [aget_aswap_other xs i1 j1 k hk1 (by omega)]
          by_cases hk2 : k < i
          · exact hA k hak hk2
          · exact hf3 k (by omega) (by omega)
      have hB2 : ∀ k, j1 - 1 < k → k < b → key (aget (aswap xs i1 j1) a) <
          key (aget (aswap xs i1 j1) k) := by
        intro k hjk hkb
        rw [haA]
        by_cases hk1 : k = j1
        · rw [hk1, hxj1]
          exact hle2
        · rw [aget_aswap_other xs i1 j1 k (by omega) hk1]
          by_cases hkj : k ≤ j
          · exact hg3 k (by omega) hkj
          · exact hB k (by omega) hkb
      have hrec := ih (aswap xs i1 j1) a (i1 + 1) (j1 - 1)
        (by rw [length_aswap]; exact hb) (by omega) (by omega) (by omega) (by omega) hab
        (by omega) hA2 hB2
      rw [haA] at hrec
      obtain ⟨hr1, hr2, hr3, hr4, hr5⟩ := hrec
      have hpw : rangePerm xs (aswap xs i1 j1) (a + 1) b :=
        rangePerm_aswap xs (by omega) (by omega) (by omega) (by omega) hb
      exact ⟨rangePerm_trans hpw hr1, hr2, hr3, hr4, hr5⟩

theorem partitionEqualGo_spec (key : α → Int) (xs0 : List α) (a b pivot : Nat)
    (hb : b ≤ xs0.length) (hab : a < b) (hpa : a ≤ pivot) (hpb : pivot < b) :
    rangePerm xs0 (partitionEqualGo (keyLess key) xs0 a b pivot).1 a b ∧
    a + 1 ≤ (partitionEqualGo (keyLess key) xs0 a b pivot).2 ∧
    (partitionEqualGo (keyLess key) xs0 a b pivot).2 ≤ b ∧
    (∀ k, a ≤ k → k < (partitionEqualGo (keyLess key) xs0 a b pivot).2 →
      key (aget (partitionEqualGo (keyLess key) xs0 a b pivot).1 k) ≤
        key (aget xs0 pivot)) ∧
    (∀ k, (partitionEqualGo (keyLess key) xs0 a b pivot).2 ≤ k → k < b →
      key (aget xs0 pivot) <
        key (aget (partitionEqualGo (keyLess key) xs0 a b pivot).1 k)) := by
  have hlxs : (aswap xs0 a pivot).length = xs0.length := length_aswap xs0 a pivot
  have hpivA : aget (aswap xs0 a pivot) a = aget xs0 pivot :=
    aget_aswap_fst xs0 a pivot (by omega) (by omega)
  have hperm0 : rangePerm xs0 (aswap xs0 a pivot) a b :=
    rangePerm_aswap xs0 (le_refl a) hab hpa hpb hb
  set xs := aswap xs0 a pivot with hdefxs
  have hspec := partEqLoop_spec key b (b + 2) xs a (a + 1) (b - 1)
    (by omega) (le_refl (a + 1)) (by omega) (by omega) (le_refl (b - 1)) hab
    (by omega) (by intro k h1 h2; omega) (by intro k h1 h2; omega)
  obtain ⟨hr1, hr2, hr3, hr4, hr5⟩ := hspec
  have hstep : partitionEqualGo (keyLess key) xs0 a b pivot =
      partEqLoop (keyLess key) b (b + 2) xs a (a + 1) (b - 1) := rfl
  rw [hstep]
  have hysa : aget (partEqLoop (keyLess key) b (b + 2) xs a (a + 1) (b - 1)).1 a =
      aget xs a := by
    have h1 := hr1.2.1 a (by omega) (Or.inl (by omega))
    exact h1
  refine ⟨?_, hr2, hr3, ?_, ?_⟩
  · exact rangePerm_trans hperm0 (rangePerm_widen hr1 (by omega) (le_refl b))
  · intro k hak hkm
    rw [← hpivA]
    by_cases hka : k = a
    · rw [hka, hysa]
    · exact hr4 k (by omega) hkm
  · intro k hmk hkb
    rw [← hpivA]
    exact hr5 k hmk hkb

end PartitionEqual

/- ===== partialInsertionSort ===== -/

section PartialInsertion

variable {α : Type} [Inhabited α]

/-- Boundary transfer: a left sentinel bound on a window survives any
in-window permutation. -/
theorem rangePerm_boundary {key : α → Int} {xs ys : List α} {a b : Nat}
    (h : rangePerm xs ys a b) (hb : b ≤ xs.length)
    (hbd : 0 < a → ∀ k, a ≤ k → k < b →
      key (aget xs (a - 1)) ≤ key (aget xs k)) :
    0 < a → ∀ k, a ≤ k → k < b → key (aget ys (a - 1)) ≤ key (aget ys k) := by
  intro ha k hk1 hk2
  have he : aget ys (a - 1) = aget xs (a - 1) :=
    h.2.1 (a - 1) (by omega) (Or.inl (by omega))
  rw [he]
  exact rangePerm_bound (fun v => key (aget xs (a - 1)) ≤ key v) h hb
    (hbd ha) k hk1 hk2

theorem pisAdvance_spec (key : α → Int) (xs : List α) (b : Nat) :
    ∀ (fuel i : Nat), b + 1 ≤ fuel + i →
      i ≤ pisAdvance (keyLess key) xs b fuel i ∧
      pisAdvance (keyLess key) xs b fuel i ≤ max i b ∧
      (∀ k, i ≤ k → k < pisAdvance (keyLess key) xs b fuel i →
        key (aget xs (k - 1)) ≤ key (aget xs k)) ∧
      (pisAdvance (keyLess key) xs b fuel i < b →
        key (aget xs (pisAdvance (keyLess key) xs b fuel i)) <
          key (aget xs (pisAdvance (keyLess key) xs b fuel i - 1))) := by
  intro fuel
  induction fuel with
  | zero =>
    intro i hfi
    simp only [pisAdvance]
    exact ⟨le_refl i, le_max_left i b, fun k h1 h2 => by omega, fun h => by omega⟩
  | succ fuel ih =>
    intro i hfi
    by_cases hcond : i < b ∧ ¬ key (aget xs i) < key (aget xs (i - 1))
    · have hc : (i < b && !aless (keyLess key) xs i (i - 1)) = true := by
        simp [aless, keyLess, hcond.1, hcond.2]
      have hrw : pisAdvance (keyLess key) xs b (fuel + 1) i =
          pisAdvance (keyLess key) xs b fuel (i + 1) := by
        rw [pisAdvance, if_pos hc]
      obtain ⟨h1, h2, h3, h4⟩ := ih (i + 1) (by omega)
      rw [hrw]
      refine ⟨by omega, by omega, ?_, h4⟩
      intro k hk1 hk2
      by_cases hki : k = i
      · subst hki
        omega
      · exact h3 k (by omega) hk2
    · have hc : ¬ ((i < b && !aless (keyLess key) xs i (i - 1)) = true) := by
        intro hcc
        simp only [Bool.and_eq_true, Bool.not_eq_true', Bool.not_eq_true,
          aless, keyLess, decide_eq_false_iff_not, decide_eq_true_eq] at hcc
        exact hcond hcc
      have hrw : pisAdvance (keyLess key) xs b (fuel + 1) i = i := by
        rw [pisAdvance, if_neg hc]
      rw [hrw]
      refine ⟨le_refl i, le_max_left i b, fun k h1 h2 => by omega, ?_⟩
      intro hib
      by_contra hnot
      exact hc (by simp [aless, keyLess, hib, hnot])

theorem pisShiftLeft_spec (key : α → Int) (a T : Nat) :
    ∀ (fuel j : Nat) (ys : List α),
      a ≤ j → j ≤ T → T < ys.length → j + 1 ≤ fuel + a →
      (0 < a → ∀ k, a ≤ k → k ≤ T → key (aget ys (a - 1)) ≤ key (aget ys k)) →
      (∀ k, a < k → k ≤ T → k ≠ j → key (aget ys (k - 1)) ≤ key (aget ys k)) →
      (a < j → j < T → key (aget ys (j - 1)) ≤ key (aget ys (j + 1))) →
      rangePerm ys (pisShiftLeft (keyLess key) fuel ys j) a (T + 1) ∧
      (∀ k, a < k → k ≤ T →
        key (aget (pisShiftLeft (keyLess key) fuel ys j) (k - 1)) ≤
          key (aget (pisShiftLeft (keyLess key) fuel ys j) k)) := by
  intro fuel
  induction fuel with
  | zero =>
    intro j ys haj hjT hT hfuel hb0 hpairs hbridge
    omega
  | succ fuel ih =>
    intro j ys haj hjT hT hfuel hb0 hpairs hbridge
    by_cases hj1 : j ≥ 1
    · by_cases hless : key (aget ys j) < key (aget ys (j - 1))
      · have hc : ¬ (!aless (keyLess key) ys j (j - 1)) = true := by
          simp [aless, keyLess, hless]
        have hrw : pisShiftLeft (keyLess key) (fuel + 1) ys j =
            pisShiftLeft (keyLess key) fuel (aswap ys j (j - 1)) (j - 1) := by
          rw [pisShiftLeft, if_pos hj1, if_neg hc]
        have hja : a < j := by
          by_contra hja2
          have hja3 : j = a := by omega
          have h1 := hb0 (by omega) a (le_refl a) (by omega)
          rw [hja3] at hless
          omega
        have hjlen : j < ys.length := by omega
        have hj1len : j - 1 < ys.length := by omega
        have hget_s : aget (aswap ys j (j - 1)) j = aget ys (j - 1) :=
          aget_aswap_fst ys j (j - 1) hjlen hj1len
        have hget_p : aget (aswap ys j (j - 1)) (j - 1) = aget ys j :=
          aget_aswap_snd ys j (j - 1) hj1len
        have hget_o : ∀ m, m ≠ j → m ≠ j - 1 → aget (aswap ys j (j - 1)) m = aget ys m :=
          fun m h1 h2 => aget_aswap_other ys j (j - 1) m h1 h2
        have hb02 : 0 < a → ∀ k, a ≤ k → k ≤ T →
            key (aget (aswap ys j (j - 1)) (a - 1)) ≤
              key (aget (aswap ys j (j - 1)) k) := by
          intro ha k hk1 hk2
          have he : aget (aswap ys j (j - 1)) (a - 1) = aget ys (a - 1) :=
            hget_o (a - 1) (by omega) (by omega)
          rw [he]
          by_cases hkj : k = j
          · rw [hkj, hget_s]
            exact hb0 ha (j - 1) (by omega) (by omega)
          · by_cases hkj1 : k = j - 1
            · rw [hkj1, hget_p]
              exact hb0 ha j (by omega) hjT
            · rw [hget_o k hkj hkj1]
              exact hb0 ha k hk1 hk2
        have hp2 : ∀ k, a < k → k ≤ T → k ≠ j - 1 →
            key (aget (aswap ys j (j - 1)) (k - 1)) ≤
              key (aget (aswap ys j (j - 1)) k) := by
          intro k hak hkT hkj
          by_cases hk1 : k = j
          · rw [hk1, hget_s, show aswap ys j (j-1) = aswap ys j (j-1) from rfl]
            rw [show j - 1 = j - 1 from rfl] at hget_p
            rw [show aget (aswap ys j (j - 1)) (j - 1) = aget ys j from hget_p]
            exact le_of_lt hless
          · by_cases hk2 : k = j + 1
            · rw [hk2, show j + 1 - 1 = j from rfl, hget_s,
                hget_o (j + 1) (by omega) (by omega)]
              exact hbridge hja (by omega)
            · rw [hget_o (k - 1) (by omega) (by omega), hget_o k hk1 hkj]
              exact hpairs k hak hkT hk1
        have hbr2 : a < j - 1 → j - 1 < T →
            key (aget (aswap ys j (j - 1)) (j - 1 - 1)) ≤
              key (aget (aswap ys j (j - 1)) (j - 1 + 1)) := by
          intro h1 h2
          rw [show j - 1 + 1 = j from by omega, hget_s,
            hget_o (j - 1 - 1) (by omega) (by omega)]
          have h3 := hpairs (j - 1) h1 (by omega) (by omega)
          rwa [show j - 1 - 1 = j - 1 - 1 from rfl] at h3
        have hrec := ih (j - 1) (aswap ys j (j - 1)) (by omega) (by omega)
          (by rw [length_aswap]; omega) (by omega) hb02 hp2 hbr2
        rw [hrw]
        refine ⟨rangePerm_trans ?_ hrec.1, hrec.2⟩
        exact rangePerm_aswap ys (by omega) (by omega) (by omega) (by omega) (by omega)
      · have hc : (!aless (keyLess key) ys j (j - 1)) = true := by
          simp [aless, keyLess, hless]
        have hrw : pisShiftLeft (keyLess key) (fuel + 1) ys j = ys := by
          rw [pisShiftLeft, if_pos hj1, if_pos hc]
        rw [hrw]
        refine ⟨rangePerm_refl ys a (T + 1), ?_⟩
        intro k hak hkT
        by_cases hk1 : k = j
        · rw [hk1]
          omega
        · exact hpairs k hak hkT hk1
    · have hrw : pisShiftLeft (keyLess key) (fuel + 1) ys j = ys := by
        rw [pisShiftLeft, if_neg hj1]
      rw [hrw]
      refine ⟨rangePerm_refl ys a (T + 1), ?_⟩
      intro k hak hkT
      exact hpairs k hak hkT (by omega)

theorem pisShiftRight_spec (key : α → Int) (b lo : Nat) :
    ∀ (fuel j : Nat) (ys : List α),
      lo + 1 ≤ j → b ≤ ys.length → b + 1 ≤ fuel + j →
      rangePerm ys (pisShiftRight (keyLess key) b fuel ys j) lo b := by
  intro fuel
  induction fuel with
  | zero =>
    intro j ys hlo hb hfuel
    exact rangePerm_refl ys lo b
  | succ fuel ih =>
    intro j ys hlo hb hfuel
    by_cases hjb : j < b
    · by_cases hless : key (aget ys j) < key (aget ys (j - 1))
      · have hc : ¬ (!aless (keyLess key) ys j (j - 1)) = true := by
          simp [aless, keyLess, hless]
        have hrw : pisShiftRight (keyLess key) b (fuel + 1) ys j =
            pisShiftRight (keyLess key) b fuel (aswap ys j (j - 1)) (j + 1) := by
          rw [pisShiftRight, if_pos hjb, if_neg hc]
        rw [hrw]
        refine rangePerm_trans ?_ (ih (j + 1) (aswap ys j (j - 1)) (by omega)
          (by rw [length_aswap]; omega) (by omega))
        exact rangePerm_aswap ys (by omega) hjb (by omega) (by omega) hb
      · have hc : (!aless (keyLess key) ys j (j - 1)) = true := by
          simp [aless, keyLess, hless]
        have hrw : pisShiftRight (keyLess key) b (fuel + 1) ys j = ys := by
          rw [pisShiftRight, if_pos hjb, if_pos hc]
        rw [hrw]
        exact rangePerm_refl ys lo b
    · have hrw : pisShiftRight (keyLess key) b (fuel + 1) ys j = ys := by
        rw [pisShiftRight, if_neg hjb]
      rw [hrw]
      exact rangePerm_refl ys lo b

theorem pisLoop_spec (key : α → Int) (a b : Nat) :
    ∀ (steps : Nat) (xs : List α) (i : Nat),
      b ≤ xs.length → a + 1 ≤ i → i ≤ b →
      (0 < a → ∀ k, a ≤ k → k < b → key (aget xs (a - 1)) ≤ key (aget xs k)) →
      (∀ k, a < k → k < i → key (aget xs (k - 1)) ≤ key (aget xs k)) →
      rangePerm xs (pisLoop (keyLess key) a b steps xs i).1 a b ∧
      ((pisLoop (keyLess key) a b steps xs i).2 = true →
        sortedRange key (pisLoop (keyLess key) a b steps xs i).1 a b) := by
  intro steps
  induction steps with
  | zero =>
    intro xs i hb hai hib hb0 hsorted
    rw [show pisLoop (keyLess key) a b 0 xs i = (xs, false) from rfl]
    exact ⟨rangePerm_refl xs a b, fun h => by simp at h⟩
  | succ steps ih =>
    intro xs i hb hai hib hb0 hsorted
    obtain ⟨ha1, ha2, ha3, ha4⟩ := pisAdvance_spec key xs b (b + 2) i (by omega)
    set i2 := pisAdvance (keyLess key) xs b (b + 2) i with hdefi2
    have hi2b : i2 ≤ b := by omega
    have hsorted2 : ∀ k, a < k → k < i2 → key (aget xs (k - 1)) ≤ key (aget xs k) := by
      intro k hak hki
      by_cases hk1 : k < i
      · exact hsorted k hak hk1
      · exact ha3 k (by omega) hki
    have hbody : pisLoop (keyLess key) a b (steps + 1) xs i =
        (if i2 = b then (xs, true)
         else if b - a < 50 then (xs, false)
         else pisLoop (keyLess key) a b steps
           (if b - i2 ≥ 2 then
              pisShiftRight (keyLess key) b (b + 2)
                (if i2 - a ≥ 2 then
                  pisShiftLeft (keyLess key) (b + 2) (aswap xs i2 (i2 - 1)) (i2 - 1)
                 else aswap xs i2 (i2 - 1))
                (i2 + 1)
            else (if i2 - a ≥ 2 then
                pisShiftLeft (keyLess key) (b + 2) (aswap xs i2 (i2 - 1)) (i2 - 1)
              else aswap xs i2 (i2 - 1)))
           i2) := rfl
    by_cases hib2 : i2 = b
    · have hrw : pisLoop (keyLess key) a b (steps + 1) xs i = (xs, true) := by
        rw [hbody, if_pos hib2]
      rw [hrw]
      refine ⟨rangePerm_refl xs a b, fun _ => ?_⟩
      apply sortedRange_of_adj
      intro k hak hkb
      exact hsorted2 k hak (by omega)
    · by_cases h50 : b - a < 50
      · have hrw : pisLoop (keyLess key) a b (steps + 1) xs i = (xs, false) := by
          rw [hbody, if_neg hib2, if_pos h50]
        rw [hrw]
        exact ⟨rangePerm_refl xs a b, fun h => by simp at h⟩
      · have hi2lt : i2 < b := by omega
        have hstrict : key (aget xs i2) < key (aget xs (i2 - 1)) := ha4 hi2lt
        set xs1 := aswap xs i2 (i2 - 1) with hdefxs1
        have hl1 : xs1.length = xs.length := length_aswap xs i2 (i2 - 1)
        have hperm1 : rangePerm xs xs1 a b :=
          rangePerm_aswap xs (by omega) hi2lt (by omega) (by omega) hb
        have hg_s : aget xs1 i2 = aget xs (i2 - 1) :=
          aget_aswap_fst xs i2 (i2 - 1) (by omega) (by omega)
        have hg_p : aget xs1 (i2 - 1) = aget xs i2 :=
          aget_aswap_snd xs i2 (i2 - 1) (by omega)
        have hg_o : ∀ m, m ≠ i2 → m ≠ i2 - 1 → aget xs1 m = aget xs m :=
          fun m h1 h2 => aget_aswap_other xs i2 (i2 - 1) m h1 h2
        have hb01 : 0 < a → ∀ k, a ≤ k → k < b →
            key (aget xs1 (a - 1)) ≤ key (aget xs1 k) :=
          rangePerm_boundary hperm1 hb hb0
        -- after the shift left: sorted on [a, i2)
        have hsl : ∃ xs2 : List α, xs2 =
            (if i2 - a ≥ 2 then pisShiftLeft (keyLess key) (b + 2) xs1 (i2 - 1) else xs1) ∧
            rangePerm xs1 xs2 a b ∧
            (∀ k, a < k → k < i2 → key (aget xs2 (k - 1)) ≤ key (aget xs2 k)) := by
          by_cases hcase : i2 - a ≥ 2
          · have hb0T : 0 < a → ∀ k, a ≤ k → k ≤ i2 - 1 →
                key (aget xs1 (a - 1)) ≤ key (aget xs1 k) := by
              intro ha k hk1 hk2
              exact hb01 ha k hk1 (by omega)
            have hp1 : ∀ k, a < k → k ≤ i2 - 1 → k ≠ i2 - 1 →
                key (aget xs1 (k - 1)) ≤ key (aget xs1 k) := by
              intro k hak hkT hkj
              rw [hg_o (k - 1) (by omega) (by omega), hg_o k (by omega) hkj]
              exact hsorted2 k hak (by omega)
            have hbr1 : a < i2 - 1 → i2 - 1 < i2 - 1 →
                key (aget xs1 (i2 - 1 - 1)) ≤ key (aget xs1 (i2 - 1 + 1)) := by
              intro _ h2
              omega
            have hspec := pisShiftLeft_spec key a (i2 - 1) (b + 2) (i2 - 1) xs1
              (by omega) (le_refl (i2 - 1)) (by omega) (by omega) hb0T hp1 hbr1
            refine ⟨pisShiftLeft (keyLess key) (b + 2) xs1 (i2 - 1), by rw [if_pos hcase],
              rangePerm_widen hspec.1 (le_refl a) (by omega), ?_⟩
            intro k hak hki
            exact hspec.2 k hak (by omega)
          · refine ⟨xs1, by rw [if_neg hcase], rangePerm_refl xs1 a b, ?_⟩
            intro k hak hki
            have hk2 : k = a + 1 := by omega
            omega
        obtain ⟨xs2, hxs2eq, hperm2, hsorted3⟩ := hsl
        have hl2 : xs2.length = xs.length := by
          rw [hperm2.1, hl1]
        -- after the shift right: positions below i2 unchanged
        have hsr : ∃ xs3 : List α, xs3 =
            (if b - i2 ≥ 2 then pisShiftRight (keyLess key) b (b + 2) xs2 (i2 + 1)
             else xs2) ∧
            rangePerm xs2 xs3 a b ∧
            (∀ k, k < i2 → aget xs3 k = aget xs2 k) := by
          by_cases hcase : b - i2 ≥ 2
          · have hspec := pisShiftRight_spec key b i2 (b + 2) (i2 + 1) xs2
              (by omega) (by omega) (by omega)
            refine ⟨pisShiftRight (keyLess key) b (b + 2) xs2 (i2 + 1),
              by rw [if_pos hcase], rangePerm_widen hspec (by omega) (le_refl b), ?_⟩
            intro k hk
            exact hspec.2.1 k (by omega) (Or.inl hk)
          · exact ⟨xs2, by rw [if_neg hcase], rangePerm_refl xs2 a b,
              fun k hk => rfl⟩
        obtain ⟨xs3, hxs3eq, hperm3, hlow3⟩ := hsr
        have hl3 : xs3.length = xs.length := by
          rw [hperm3.1, hl2]
        have hsorted4 : ∀ k, a < k → k < i2 →
            key (aget xs3 (k - 1)) ≤ key (aget xs3 k) := by
          intro k hak hki
          rw [hlow3 (k - 1) (by omega), hlow3 k hki]
          exact hsorted3 k hak hki
        have hpermA : rangePerm xs xs3 a b :=
          rangePerm_trans hperm1 (rangePerm_trans hperm2 hperm3)
        have hb03 : 0 < a → ∀ k, a ≤ k → k < b →
            key (aget xs3 (a - 1)) ≤ key (aget xs3 k) :=
          rangePerm_boundary hpermA hb hb0
        have hrec := ih xs3 i2 (by omega) (by omega) (by omega) hb03 hsorted4
        have hrw : pisLoop (keyLess key) a b (steps + 1) xs i =
            pisLoop (keyLess key) a b steps xs3 i2 := by
          rw [hbody, if_neg hib2, if_neg h50, ← hxs2eq, ← hxs3eq]
        rw [hrw]
        exact ⟨rangePerm_trans hpermA hrec.1, hrec.2⟩

theorem partialInsertionSortGo_spec (key : α → Int) (xs : List α) (a b : Nat)
    (hb : b ≤ xs.length) (hab : a < b)
    (hb0 : 0 < a → ∀ k, a ≤ k → k < b → key (aget xs (a - 1)) ≤ key (aget xs k)) :
    rangePerm xs (partialInsertionSortGo (keyLess key) xs a b).1 a b ∧
    ((partialInsertionSortGo (keyLess key) xs a b).2 = true →
      sortedRange key (partialInsertionSortGo (keyLess key) xs a b).1 a b) := by
  have h := pisLoop_spec key a b 5 xs (a + 1) hb (le_refl (a + 1)) (by omega) hb0
    (by intro k h1 h2; omega)
  exact h

end PartialInsertion

/- ===== heapsort ===== -/

section HeapSort

variable {α : Type} [Inhabited α]

theorem heapBuildLoop_succ (less : α → α → Bool) (hi first m : Nat) (xs : List α) :
    heapBuildLoop less hi first (m + 1) xs =
      heapBuildLoop less hi first m (siftDownGo less (hi + 1) xs m hi first) := by
  simp [heapBuildLoop, List.range_succ]

theorem heapExtractLoop_succ (less : α → α → Bool) (hi first m : Nat) (xs : List α) :
    heapExtractLoop less hi first (m + 1) xs =
      heapExtractLoop less hi first m
        (siftDownGo less (hi + 1) (aswap xs first (first + m)) 0 m first) := by
  simp [heapExtractLoop, List.range_succ]

theorem heapSortRange_eq (less : α → α → Bool) (xs : List α) (a b : Nat) :
    heapSortRange less xs a b =
      heapExtractLoop less (b - a) a (b - a)
        (heapBuildLoop less (b - a) a ((b - a - 1) / 2 + 1) xs) := rfl

theorem siftDownGo_spec (key : α → Int) (first hi : Nat) :
    ∀ (fuel : Nat) (ys : List α) (root : Nat),
      first + hi ≤ ys.length → hi ≤ fuel + root →
      (∀ m k, root < m → m < hi → (k = 2 * m + 1 ∨ k = 2 * m + 2) → k < hi →
        key (aget ys (first + k)) ≤ key (aget ys (first + m))) →
      ((siftDownGo (keyLess key) fuel ys root hi first).length = ys.length ∧
       (∀ p, p < ys.length →
         (p ≠ first + root ∧ (p < first + (2 * root + 1) ∨ first + hi ≤ p)) →
         aget (siftDownGo (keyLess key) fuel ys root hi first) p = aget ys p) ∧
       (siftDownGo (keyLess key) fuel ys root hi first).Perm ys) ∧
      (∀ m k, root ≤ m → m < hi → (k = 2 * m + 1 ∨ k = 2 * m + 2) → k < hi →
        key (aget (siftDownGo (keyLess key) fuel ys root hi first) (first + k)) ≤
          key (aget (siftDownGo (keyLess key) fuel ys root hi first) (first + m))) ∧
      (key (aget (siftDownGo (keyLess key) fuel ys root hi first) (first + root)) =
          key (aget ys (first + root)) ∨
       ∃ c, (c = 2 * root + 1 ∨ c = 2 * root + 2) ∧ c < hi ∧
         key (aget (siftDownGo (keyLess key) fuel ys root hi first) (first + root)) =
           key (aget ys (first + c))) := by
  intro fuel
  induction fuel with
  | zero =>
    intro ys root hlen hfuel H
    rw [show siftDownGo (keyLess key) 0 ys root hi first = ys from rfl]
    refine ⟨⟨rfl, fun p h1 h2 => rfl, List.Perm.refl ys⟩, ?_, Or.inl rfl⟩
    intro m k hm1 hm2 hk1 hk2
    omega
  | succ fuel ih =>
    intro ys root hlen hfuel H
    by_cases hch : 2 * root + 1 ≥ hi
    · have hrw : siftDownGo (keyLess key) (fuel + 1) ys root hi first = ys := by
        rw [siftDownGo, if_pos hch]
      rw [hrw]
      refine ⟨⟨rfl, fun p h1 h2 => rfl, List.Perm.refl ys⟩, ?_, Or.inl rfl⟩
      intro m k hm1 hm2 hk1 hk2
      by_cases hmr : m = root
      · omega
      · exact H m k (by omega) hm2 hk1 hk2
    · push_neg at hch
      set c2 := (if 2 * root + 1 + 1 < hi &&
          aless (keyLess key) ys (first + (2 * root + 1)) (first + (2 * root + 1) + 1)
        then 2 * root + 1 + 1 else 2 * root + 1) with hdefc2
      have hc2a : c2 = 2 * root + 1 ∨ c2 = 2 * root + 2 := by
        rw [hdefc2]
        by_cases hbb : (2 * root + 1 + 1 < hi &&
            aless (keyLess key) ys (first + (2 * root + 1))
              (first + (2 * root + 1) + 1)) = true
        · rw [if_pos hbb]
          right
          omega
        · rw [if_neg hbb]
          left
          rfl
      have hc2b : c2 < hi := by
        rw [hdefc2]
        by_cases hbb : (2 * root + 1 + 1 < hi &&
            aless (keyLess key) ys (first + (2 * root + 1))
              (first + (2 * root + 1) + 1)) = true
        · rw [if_pos hbb]
          simp only [Bool.and_eq_true, decide_eq_true_eq] at hbb
          omega
        · rw [if_neg hbb]
          omega
      have hc2c : key (aget ys (first + (2 * root + 1))) ≤ key (aget ys (first + c2)) := by
        rw [hdefc2]
        by_cases hbb : (2 * root + 1 + 1 < hi &&
            aless (keyLess key) ys (first + (2 * root + 1))
              (first + (2 * root + 1) + 1)) = true
        · rw [if_pos hbb]
          simp only [Bool.and_eq_true, decide_eq_true_eq, aless, keyLess] at hbb
          exact le_of_lt hbb.2
        · rw [if_neg hbb]
      have hc2d : 2 * root + 2 < hi →
          key (aget ys (first + (2 * root + 2))) ≤ key (aget ys (first + c2)) := by
        intro h2
        rw [hdefc2]
        by_cases hbb : (2 * root + 1 + 1 < hi &&
            aless (keyLess key) ys (first + (2 * root + 1))
              (first + (2 * root + 1) + 1)) = true
        · rw [if_pos hbb]
        · rw [if_neg hbb]
          simp only [Bool.and_eq_true, decide_eq_true_eq, aless, keyLess,
            not_and, not_lt] at hbb
          have h3 := hbb (by omega)
          have he : first + (2 * root + 1) + 1 = first + (2 * root + 2) := by omega
          rw [he] at h3
          exact h3
      have hstep : siftDownGo (keyLess key) (fuel + 1) ys root hi first =
          (if !aless (keyLess key) ys (first + root) (first + c2) then ys
           else siftDownGo (keyLess key) fuel (aswap ys (first + root) (first + c2))
             c2 hi first) := by
        rw [siftDownGo, if_neg (by omega)]
      by_cases hstop : key (aget ys (first + root)) < key (aget ys (first + c2))
      · have hc : ¬ (!aless (keyLess key) ys (first + root) (first + c2)) = true := by
          simp [aless, keyLess, hstop]
        rw [hstep, if_neg hc]
        have hrootlen : first + root < ys.length := by omega
        have hc2len : first + c2 < ys.length := by omega
        have hy2root : aget (aswap ys (first + root) (first + c2)) (first + root) =
            aget ys (first + c2) :=
          aget_aswap_fst ys (first + root) (first + c2) hrootlen hc2len
        have hy2c2 : aget (aswap ys (first + root) (first + c2)) (first + c2) =
            aget ys (first + root) :=
          aget_aswap_snd ys (first + root) (first + c2) hc2len
        have hy2o : ∀ p, p ≠ first + root → p ≠ first + c2 →
            aget (aswap ys (first + root) (first + c2)) p = aget ys p :=
          fun p h1 h2 => aget_aswap_other ys (first + root) (first + c2) p h1 h2
        have H2 : ∀ m k, c2 < m → m < hi → (k = 2 * m + 1 ∨ k = 2 * m + 2) → k < hi →
            key (aget (aswap ys (first + root) (first + c2)) (first + k)) ≤
              key (aget (aswap ys (first + root) (first + c2)) (first + m)) := by
          intro m k hm1 hm2 hk1 hk2
          rw [hy2o (first + m) (by omega) (by omega),
            hy2o (first + k) (by omega) (by omega)]
          exact H m k (by omega) hm2 hk1 hk2
        have hrec := ih (aswap ys (first + root) (first + c2)) c2
          (by rw [length_aswap]; exact hlen) (by omega) H2
        obtain ⟨⟨hl1, ho1, hp1⟩, hheap, hrootval⟩ := hrec
        set R := siftDownGo (keyLess key) fuel (aswap ys (first + root) (first + c2))
          c2 hi first with hdefR
        have hRc2 : key (aget R (first + c2)) ≤ key (aget ys (first + c2)) := by
          rcases hrootval with hv | ⟨c, hca, hcb2, hcv⟩
          · rw [hv, hy2c2]
            exact le_of_lt hstop
          · rw [hcv, hy2o (first + c) (by omega) (by omega)]
            exact H c2 c (by omega) hc2b hca hcb2
        clear hrootval
        have hlR : R.length = ys.length := by
          rw [hl1, length_aswap]
        have hRroot : aget R (first + root) = aget ys (first + c2) := by
          rw [ho1 (first + root) (by rw [length_aswap]; omega) ⟨by omega, by omega⟩,
            hy2root]
        refine ⟨⟨hlR, ?_, hp1.trans (aswap_perm ys (first + root) (first + c2)
          hrootlen hc2len)⟩, ?_, Or.inr ⟨c2, hc2a, hc2b, congrArg key hRroot⟩⟩
        · intro p hplen hpcond
          have hpc2 : p ≠ first + c2 := by omega
          rw [ho1 p (by rw [length_aswap]; omega) ⟨hpc2, by omega⟩,
            hy2o p hpcond.1 hpc2]
        · intro m k hm1 hm2 hk1 hk2
          by_cases hmr : m = root
          · subst hmr
            rw [hRroot]
            by_cases hkc2 : k = c2
            · subst hkc2
              exact hRc2
            · have hkR : aget R (first + k) = aget ys (first + k) := by
                rw [ho1 (first + k) (by rw [length_aswap]; omega)
                  ⟨by omega, by omega⟩, hy2o (first + k) (by omega) (by omega)]
              rw [hkR]
              rcases hk1 with hk | hk
              · rw [hk]
                exact hc2c
              · rw [hk]
                exact hc2d (by omega)
          · by_cases hmc2 : c2 ≤ m
            · exact hheap m k hmc2 hm2 hk1 hk2
            · have hmlt : m < c2 := by omega
              have hmR : aget R (first + m) = aget ys (first + m) := by
                rw [ho1 (first + m) (by rw [length_aswap]; omega)
                  ⟨by omega, by omega⟩, hy2o (first + m) (by omega) (by omega)]
              have hkR : aget R (first + k) = aget ys (first + k) := by
                rw [ho1 (first + k) (by rw [length_aswap]; omega)
                  ⟨by omega, by omega⟩, hy2o (first + k) (by omega) (by omega)]
              rw [hmR, hkR]
              exact H m k (by omega) hm2 hk1 hk2
      · have hc : (!aless (keyLess key) ys (first + root) (first + c2)) = true := by
          simp [aless, keyLess, hstop]
        rw [hstep, if_pos hc]
        refine ⟨⟨rfl, fun p h1 h2 => rfl, List.Perm.refl ys⟩, ?_, Or.inl rfl⟩
        intro m k hm1 hm2 hk1 hk2
        by_cases hmr : m = root
        · subst hmr
          rcases hk1 with hk | hk
          · rw [hk]
            exact le_trans hc2c (by omega)
          · rw [hk]
            exact le_trans (hc2d (by omega)) (by omega)
        · exact H m k (by omega) hm2 hk1 hk2

theorem heapBuildLoop_spec (key : α → Int) (hi first : Nat) :
    ∀ (m : Nat) (ys : List α), m ≤ hi → first + hi ≤ ys.length →
      (∀ p k, m ≤ p → p < hi → (k = 2 * p + 1 ∨ k = 2 * p + 2) → k < hi →
        key (aget ys (first + k)) ≤ key (aget ys (first + p))) →
      rangePerm ys (heapBuildLoop (keyLess key) hi first m ys) first (first + hi) ∧
      (∀ p k, p < hi → (k = 2 * p + 1 ∨ k = 2 * p + 2) → k < hi →
        key (aget (heapBuildLoop (keyLess key) hi first m ys) (first + k)) ≤
          key (aget (heapBuildLoop (keyLess key) hi first m ys) (first + p))) := by
  intro m
  induction m with
  | zero =>
    intro ys hm hlen H
    rw [show heapBuildLoop (keyLess key) hi first 0 ys = ys from rfl]
    exact ⟨rangePerm_refl ys first (first + hi),
      fun p k hp hk1 hk2 => H p k (by omega) hp hk1 hk2⟩
  | succ m ih =>
    intro ys hm hlen H
    rw [heapBuildLoop_succ]
    obtain ⟨⟨hl, ho, hperm⟩, hheap, _⟩ := siftDownGo_spec key first hi (hi + 1) ys m
      hlen (by omega) (fun p k hp1 hp2 hk1 hk2 => H p k (by omega) hp2 hk1 hk2)
    have hperm1 : rangePerm ys (siftDownGo (keyLess key) (hi + 1) ys m hi first)
        first (first + hi) := by
      refine ⟨hl, ?_, hperm⟩
      intro q hq hcond
      exact ho q hq ⟨by omega, by omega⟩
    obtain ⟨hr1, hr2⟩ := ih (siftDownGo (keyLess key) (hi + 1) ys m hi first)
      (by omega) (by rw [hl]; exact hlen)
      (fun p k hp1 hp2 hk1 hk2 => hheap p k hp1 hp2 hk1 hk2)
    exact ⟨rangePerm_trans hperm1 hr1, hr2⟩

theorem heapRootMax (key : α → Int) (first : Nat) (ys : List α) (M : Nat)
    (Hheap : ∀ p k, p < M → (k = 2 * p + 1 ∨ k = 2 * p + 2) → k < M →
      key (aget ys (first + k)) ≤ key (aget ys (first + p))) :
    ∀ p, p < M → key (aget ys (first + p)) ≤ key (aget ys first) := by
  intro p
  induction p using Nat.strong_induction_on with
  | _ p ih =>
    intro hpM
    match p with
    | 0 => exact le_refl _
    | q + 1 =>
      have hpar : q + 1 = 2 * (q / 2) + 1 ∨ q + 1 = 2 * (q / 2) + 2 := by omega
      have h1 := Hheap (q / 2) (q + 1) (by omega) hpar hpM
      have h2 := ih (q / 2) (by omega) (by omega)
      exact le_trans h1 h2

theorem heapExtractLoop_spec (key : α → Int) (hi first : Nat) :
    ∀ (m : Nat) (ys : List α), m ≤ hi → first + hi ≤ ys.length →
      (∀ p k, p < m → (k = 2 * p + 1 ∨ k = 2 * p + 2) → k < m →
        key (aget ys (first + k)) ≤ key (aget ys (first + p))) →
      (∀ p q, m ≤ p → p < q → q < hi →
        key (aget ys (first + p)) ≤ key (aget ys (first + q))) →
      (∀ p q, p < m → m ≤ q → q < hi →
        key (aget ys (first + p)) ≤ key (aget ys (first + q))) →
      rangePerm ys (heapExtractLoop (keyLess key) hi first m ys) first (first + hi) ∧
      (∀ p q, p < q → q < hi →
        key (aget (heapExtractLoop (keyLess key) hi first m ys) (first + p)) ≤
          key (aget (heapExtractLoop (keyLess key) hi first m ys) (first + q))) := by
  intro m
  induction m with
  | zero =>
    intro ys hm hlen Hheap Hsorted Hcross
    rw [show heapExtractLoop (keyLess key) hi first 0 ys = ys from rfl]
    exact ⟨rangePerm_refl ys first (first + hi),
      fun p q hpq hq => Hsorted p q (by omega) hpq hq⟩
  | succ m ih =>
    intro ys hm hlen Hheap Hsorted Hcross
    rw [heapExtractLoop_succ]
    have hfl : first < ys.length := by omega
    have hfml : first + m < ys.length := by omega
    have RM := heapRootMax key first ys (m + 1) Hheap
    by_cases hm0 : m = 0
    · subst hm0
      have hz : siftDownGo (keyLess key) (hi + 1) (aswap ys first (first + 0)) 0 0
          first = aswap ys first (first + 0) := by
        rw [siftDownGo, if_pos (by omega)]
      rw [hz, show first + 0 = first from rfl, aswap_self]
      refine ih ys (by omega) hlen (fun p k hp hk1 hk2 => by omega) ?_ ?_
      · intro p q hp hpq hq
        by_cases hp0 : p = 0
        · subst hp0
          exact Hcross 0 q (by omega) (by omega) hq
        · exact Hsorted p q (by omega) hpq hq
      · intro p q hp hq1 hq2
        omega
    · set ys1 := aswap ys first (first + m) with hdefys1
      have hy1_0 : aget ys1 first = aget ys (first + m) :=
        aget_aswap_fst ys first (first + m) hfl hfml
      have hy1_m : aget ys1 (first + m) = aget ys first :=
        aget_aswap_snd ys first (first + m) hfml
      have hy1_o : ∀ p, p ≠ first → p ≠ first + m → aget ys1 p = aget ys p :=
        fun p h1 h2 => aget_aswap_other ys first (first + m) p h1 h2
      have hly1 : ys1.length = ys.length := length_aswap ys first (first + m)
      have hH2 : ∀ p k, 0 < p → p < m → (k = 2 * p + 1 ∨ k = 2 * p + 2) → k < m →
          key (aget ys1 (first + k)) ≤ key (aget ys1 (first + p)) := by
        intro p k hp1 hp2 hk1 hk2
        rw [hy1_o (first + p) (by omega) (by omega),
          hy1_o (first + k) (by omega) (by omega)]
        exact Hheap p k (by omega) hk1 (by omega)
      obtain ⟨⟨hl, ho, hperm⟩, hheap2, _⟩ := siftDownGo_spec key first m (hi + 1) ys1 0
        (by omega) (by omega) hH2
      set zs := siftDownGo (keyLess key) (hi + 1) ys1 0 m first with hdefzs
      have hlzs : zs.length = ys.length := by rw [hl, hly1]
      have hzs_hiwin : ∀ q, m ≤ q → q < hi → aget zs (first + q) = aget ys1 (first + q) := by
        intro q hq1 hq2
        exact ho (first + q) (by omega) ⟨by omega, by omega⟩
      have hzs_m : aget zs (first + m) = aget ys first := by
        rw [hzs_hiwin m (le_refl m) (by omega), hy1_m]
      have hzs_gt : ∀ q, m < q → q < hi → aget zs (first + q) = aget ys (first + q) := by
        intro q hq1 hq2
        rw [hzs_hiwin q (by omega) hq2, hy1_o (first + q) (by omega) (by omega)]
      have hpermz : rangePerm ys1 zs first (first + m) := by
        refine ⟨hl, ?_, hperm⟩
        intro q hq hcond
        exact ho q hq ⟨by omega, by omega⟩
      -- every element of the residual heap window is one of the old heap values
      have hmemz : ∀ p, p < m → ∃ p2, p2 < m ∧
          aget zs (first + p) = aget ys1 (first + p2) := by
        intro p hp
        obtain ⟨P, hP1, hP2, hP3⟩ := rangePerm_mem hpermz (by omega) (first + p)
          (by omega) (by omega)
        exact ⟨P - first, by omega, by rw [hP3]; congr 1; omega⟩
      have hval : ∀ p, p < m → ∃ p2, p2 < m + 1 ∧
          aget zs (first + p) = aget ys (first + p2) := by
        intro p hp
        obtain ⟨p2, hp2, he⟩ := hmemz p hp
        by_cases hp20 : p2 = 0
        · refine ⟨m, by omega, ?_⟩
          rw [he, hp20, show first + 0 = first from rfl, hy1_0]
        · refine ⟨p2, by omega, ?_⟩
          rw [he, hy1_o (first + p2) (by omega) (by omega)]
      have hSuf : ∀ p q, m ≤ p → p < q → q < hi →
          key (aget zs (first + p)) ≤ key (aget zs (first + q)) := by
        intro p q hp hpq hq
        by_cases hpm : p = m
        · subst hpm
          rw [hzs_m, hzs_gt q (by omega) hq]
          have hX := Hcross 0 q (by omega) (by omega) hq
          rwa [show first + 0 = first from rfl] at hX
        · rw [hzs_gt p (by omega) (by omega), hzs_gt q (by omega) hq]
          exact Hsorted p q (by omega) hpq hq
      have hCr : ∀ p q, p < m → m ≤ q → q < hi →
          key (aget zs (first + p)) ≤ key (aget zs (first + q)) := by
        intro p q hp hq1 hq2
        obtain ⟨p2, hp2, he⟩ := hval p hp
        rw [he]
        by_cases hqm : q = m
        · subst hqm
          rw [hzs_m]
          exact RM p2 hp2
        · rw [hzs_gt q (by omega) hq2]
          exact Hcross p2 q (by omega) (by omega) hq2
      have hHp : ∀ p k, p < m → (k = 2 * p + 1 ∨ k = 2 * p + 2) → k < m →
          key (aget zs (first + k)) ≤ key (aget zs (first + p)) := by
        intro p k hp hk1 hk2
        exact hheap2 p k (by omega) hp hk1 hk2
      obtain ⟨hr1, hr2⟩ := ih zs (by omega) (by omega) hHp hSuf hCr
      refine ⟨?_, hr2⟩
      refine rangePerm_trans ?_ (rangePerm_trans
        (rangePerm_widen hpermz (le_refl first) (by omega)) hr1)
      exact rangePerm_aswap ys (le_refl first) (by omega) (by omega) (by omega)
        (by omega)

theorem heapSortRange_spec (key : α → Int) (xs : List α) (a b : Nat)
    (hb : b ≤ xs.length) (hab : a < b) :
    rangePerm xs (heapSortRange (keyLess key) xs a b) a b ∧
    sortedRange key (heapSortRange (keyLess key) xs a b) a b := by
  rw [heapSortRange_eq]
  have hhi : a + (b - a) = b := by omega
  obtain ⟨hb1, hb2⟩ := heapBuildLoop_spec key (b - a) a ((b - a - 1) / 2 + 1) xs
    (by omega) (by omega) (by intro p k hp1 hp2 hk1 hk2; omega)
  obtain ⟨he1, he2⟩ := heapExtractLoop_spec key (b - a) a (b - a)
    (heapBuildLoop (keyLess key) (b - a) a ((b - a - 1) / 2 + 1) xs)
    (le_refl (b - a)) (by rw [hb1.1]; omega) hb2
    (by intro p q h1 h2 h3; omega) (by intro p q h1 h2 h3; omega)
  constructor
  · have h1 := rangePerm_trans hb1 he1
    rw [hhi] at h1
    exact h1
  · intro i j hai hij hjb
    have h2 := he2 (i - a) (j - a) (by omega) (by omega)
    have e1 : a + (i - a) = i := by omega
    have e2 : a + (j - a) = j := by omega
    rw [e1, e2] at h2
    exact h2

end HeapSort

/- ===== reverseRange, breakPatterns, choosePivot ===== -/

section SmallParts

variable {α : Type} [Inhabited α]

theorem reverseRangeGo_perm (a b : Nat) :
    ∀ (fuel : Nat) (xs : List α) (i j : Nat),
      a ≤ i → j < b → b ≤ xs.length →
      rangePerm xs (reverseRangeGo fuel xs i j) a b := by
  intro fuel
  induction fuel with
  | zero =>
    intro xs i j hai hjb hb
    exact rangePerm_refl xs a b
  | succ fuel ih =>
    intro xs i j hai hjb hb
    by_cases hij : i < j
    · have hrw : reverseRangeGo (fuel + 1) xs i j =
          reverseRangeGo fuel (aswap xs i j) (i + 1) (j - 1) := by
        rw [reverseRangeGo, if_pos hij]
      rw [hrw]
      refine rangePerm_trans (rangePerm_aswap xs hai (by omega) (by omega) hjb hb) ?_
      exact ih (aswap xs i j) (i + 1) (j - 1) (by omega) (by omega)
        (by rw [length_aswap]; exact hb)
    · have hrw : reverseRangeGo (fuel + 1) xs i j = xs := by
        rw [reverseRangeGo, if_neg hij]
      rw [hrw]
      exact rangePerm_refl xs a b

theorem bitsLenAux_zero : ∀ fuel, bitsLenAux fuel 0 = 0 := by
  intro fuel
  cases fuel with
  | zero => rfl
  | succ fuel => rw [bitsLenAux, if_pos rfl]

theorem bitsLenAux_le : ∀ (fuel n : Nat), n ≤ fuel → 1 ≤ n →
    2 ^ bitsLenAux fuel n ≤ 2 * n := by
  intro fuel
  induction fuel with
  | zero =>
    intro n h1 h2
    omega
  | succ fuel ih =>
    intro n h1 h2
    have hrw : bitsLenAux (fuel + 1) n = bitsLenAux fuel (n / 2) + 1 := by
      rw [bitsLenAux, if_neg (by omega)]
    rw [hrw]
    by_cases hn1 : n = 1
    · subst hn1
      rw [show (1 : Nat) / 2 = 0 from rfl, bitsLenAux_zero]
      omega
    · have hrec := ih (n / 2) (by omega) (by omega)
      calc 2 ^ (bitsLenAux fuel (n / 2) + 1) = 2 ^ bitsLenAux fuel (n / 2) * 2 :=
            pow_succ 2 _
        _ ≤ 2 * (n / 2) * 2 := Nat.mul_le_mul_right 2 hrec
        _ ≤ 2 * n := by omega

theorem bitsLen_pow_le (n : Nat) (h : 1 ≤ n) : 2 ^ bitsLen n ≤ 2 * n :=
  bitsLenAux_le n n (le_refl n) h

theorem bpStep_perm (a b : Nat) (h8 : 8 ≤ b - a) :
    ∀ (st : List α × Nat) (i : Nat), i ≤ 2 → b ≤ st.1.length →
      rangePerm st.1
        (bpStep a (b - a) (2 ^ bitsLen (b - a)) (a + ((b - a) / 4) * 2 - 1) st i).1
        a b := by
  intro st i hi hb
  have h1 : (xorshiftNext st.2 &&& (2 ^ bitsLen (b - a) - 1)) ≤
      2 ^ bitsLen (b - a) - 1 := Nat.and_le_right
  have h2 : 2 ^ bitsLen (b - a) ≤ 2 * (b - a) := bitsLen_pow_le (b - a) (by omega)
  have h3 : 1 ≤ 2 ^ bitsLen (b - a) := Nat.one_le_two_pow
  have hother : (if (xorshiftNext st.2 &&& (2 ^ bitsLen (b - a) - 1)) ≥ b - a
      then (xorshiftNext st.2 &&& (2 ^ bitsLen (b - a) - 1)) - (b - a)
      else (xorshiftNext st.2 &&& (2 ^ bitsLen (b - a) - 1))) < b - a := by
    by_cases hcase : (xorshiftNext st.2 &&& (2 ^ bitsLen (b - a) - 1)) ≥ b - a
    · rw [if_pos hcase]
      omega
    · rw [if_neg hcase]
      omega
  show rangePerm st.1 (aswap st.1 (a + ((b - a) / 4) * 2 - 1 - 1 + i)
    (a + (if (xorshiftNext st.2 &&& (2 ^ bitsLen (b - a) - 1)) ≥ b - a
      then (xorshiftNext st.2 &&& (2 ^ bitsLen (b - a) - 1)) - (b - a)
      else (xorshiftNext st.2 &&& (2 ^ bitsLen (b - a) - 1))))) a b
  exact rangePerm_aswap st.1 (by omega) (by omega) (by omega) (by omega) hb

theorem breakPatternsGo_perm (xs : List α) (a b : Nat) (hb : b ≤ xs.length) :
    rangePerm xs (breakPatternsGo xs a b) a b := by
  by_cases h8 : b - a ≥ 8
  · have hrw : breakPatternsGo xs a b =
        (bpStep a (b - a) (2 ^ bitsLen (b - a)) (a + ((b - a) / 4) * 2 - 1)
          (bpStep a (b - a) (2 ^ bitsLen (b - a)) (a + ((b - a) / 4) * 2 - 1)
            (bpStep a (b - a) (2 ^ bitsLen (b - a)) (a + ((b - a) / 4) * 2 - 1)
              (xs, b - a) 0) 1) 2).1 := by
      rw [breakPatternsGo, if_pos h8]
      rfl
    rw [hrw]
    have hs0 := bpStep_perm a b h8 (xs, b - a) 0 (by omega) hb
    have hl0 : (bpStep a (b - a) (2 ^ bitsLen (b - a)) (a + ((b - a) / 4) * 2 - 1)
        (xs, b - a) 0).1.length = xs.length := hs0.1
    have hs1 := bpStep_perm a b h8
      (bpStep a (b - a) (2 ^ bitsLen (b - a)) (a + ((b - a) / 4) * 2 - 1)
        (xs, b - a) 0) 1 (by omega) (by omega)
    have hl1 : (bpStep a (b - a) (2 ^ bitsLen (b - a)) (a + ((b - a) / 4) * 2 - 1)
        (bpStep a (b - a) (2 ^ bitsLen (b - a)) (a + ((b - a) / 4) * 2 - 1)
          (xs, b - a) 0) 1).1.length = xs.length := by
      rw [hs1.1, hl0]
    have hs2 := bpStep_perm a b h8
      (bpStep a (b - a) (2 ^ bitsLen (b - a)) (a + ((b - a) / 4) * 2 - 1)
        (bpStep a (b - a) (2 ^ bitsLen (b - a)) (a + ((b - a) / 4) * 2 - 1)
          (xs, b - a) 0) 1) 2 (by omega) (by omega)
    exact rangePerm_trans hs0 (rangePerm_trans hs1 hs2)
  · have hrw : breakPatternsGo xs a b = xs := by
      rw [breakPatternsGo, if_neg h8]
    rw [hrw]
    exact rangePerm_refl xs a b

theorem order2Go_ex (less : α → α → Bool) (xs : List α) (u v s : Nat) :
    ∃ p q s2, order2Go less xs u v s = (p, q, s2) ∧
      ((p = u ∧ q = v) ∨ (p = v ∧ q = u)) := by
  by_cases h : aless less xs v u = true
  · exact ⟨v, u, s + 1, by rw [order2Go, if_pos h], Or.inr ⟨rfl, rfl⟩⟩
  · exact ⟨u, v, s, by rw [order2Go, if_neg h], Or.inl ⟨rfl, rfl⟩⟩

theorem medianGo_ex (less : α → α → Bool) (xs : List α) (u v w s : Nat) :
    ∃ r s2, medianGo less xs u v w s = (r, s2) ∧ (r = u ∨ r = v ∨ r = w) := by
  obtain ⟨p1, q1, t1, h1, hm1⟩ := order2Go_ex less xs u v s
  obtain ⟨p2, q2, t2, h2, hm2⟩ := order2Go_ex less xs q1 w t1
  obtain ⟨p3, q3, t3, h3, hm3⟩ := order2Go_ex less xs p1 p2 t2
  refine ⟨q3, t3, ?_, ?_⟩
  · rw [medianGo]
    rw [h1]
    simp only
    rw [h2]
    simp only
    rw [h3]
  · rcases hm1 with ⟨hp1, hq1⟩ | ⟨hp1, hq1⟩ <;>
      rcases hm2 with ⟨hp2, hq2⟩ | ⟨hp2, hq2⟩ <;>
      rcases hm3 with ⟨hp3, hq3⟩ | ⟨hp3, hq3⟩ <;>
      subst_vars <;> simp

theorem medianAdjGo_ex (less : α → α → Bool) (xs : List α) (t s : Nat) :
    ∃ r s2, medianAdjGo less xs t s = (r, s2) ∧
      (r = t - 1 ∨ r = t ∨ r = t + 1) := by
  obtain ⟨r, s2, h, hm⟩ := medianGo_ex less xs (t - 1) t (t + 1) s
  exact ⟨r, s2, h, hm⟩

theorem choosePivotGo_range (less : α → α → Bool) (xs : List α) (a b : Nat)
    (h13 : 13 ≤ b - a) :
    a ≤ (choosePivotGo less xs a b).1 ∧ (choosePivotGo less xs a b).1 < b := by
  have h8 : b - a ≥ 8 := by omega
  have hproj : ∀ (j s : Nat),
      ((if s = 0 then (j, PivotHint.increasingHint)
        else if s = 12 then (j, PivotHint.decreasingHint)
        else (j, PivotHint.unknownHint)) : Nat × PivotHint).1 = j := by
    intro j s
    by_cases h0 : s = 0
    · rw [if_pos h0]
    · rw [if_neg h0]
      by_cases h12 : s = 12
      · rw [if_pos h12]
      · rw [if_neg h12]
  by_cases h50 : b - a ≥ 50
  · obtain ⟨i1, s1, hA, hmA⟩ := medianAdjGo_ex less xs (a + ((b - a) / 4) * 1) 0
    obtain ⟨j1, s2, hB, hmB⟩ := medianAdjGo_ex less xs (a + ((b - a) / 4) * 2) s1
    obtain ⟨k1, s3, hC, hmC⟩ := medianAdjGo_ex less xs (a + ((b - a) / 4) * 3) s2
    obtain ⟨jm, s4, hM, hmM⟩ := medianGo_ex less xs i1 j1 k1 s3
    have hrw : choosePivotGo less xs a b =
        (if s4 = 0 then (jm, PivotHint.increasingHint)
         else if s4 = 12 then (jm, PivotHint.decreasingHint)
         else (jm, PivotHint.unknownHint)) := by
      rw [choosePivotGo]
      rw [if_pos h8, if_pos h50, hA]
      simp only
      rw [hB]
      simp only
      rw [hC]
      simp only
      rw [hM]
    rw [hrw, hproj jm s4]
    have hd : 12 ≤ (b - a) / 4 := by omega
    rcases hmM with h | h | h <;> subst h <;>
      [rcases hmA with h2 | h2 | h2; rcases hmB with h2 | h2 | h2;
        rcases hmC with h2 | h2 | h2] <;> subst h2 <;> omega
  · have hrw : choosePivotGo less xs a b =
        (let l := b - a
         let j := a + (l / 4) * 2
         let p := medianGo less xs (a + (l / 4) * 1) j (a + (l / 4) * 3) 0
         if p.2 = 0 then (p.1, PivotHint.increasingHint)
         else if p.2 = 12 then (p.1, PivotHint.decreasingHint)
         else (p.1, PivotHint.unknownHint)) := by
      rw [choosePivotGo]
      rw [if_pos h8, if_neg h50]
    obtain ⟨jm, s4, hM, hmM⟩ := medianGo_ex less xs (a + ((b - a) / 4) * 1)
      (a + ((b - a) / 4) * 2) (a + ((b - a) / 4) * 3) 0
    rw [hrw]
    simp only
    rw [hM, hproj jm s4]
    have hd : 3 ≤ (b - a) / 4 := by omega
    rcases hmM with h | h | h <;> subst h <;> omega

end SmallParts

/- ===== the main pdqsort loop ===== -/

section MainSort

variable {α : Type} [Inhabited α]

/-- Assembling sortedness after a strict partition around a pivot at mid. -/
theorem sorted_assemble {key : α → Int} {ys : List α} {a mid b : Nat} {V : Int}
    (h1 : a ≤ mid) (h2 : mid < b)
    (hmid : key (aget ys mid) = V)
    (hL : ∀ k, a ≤ k → k < mid → key (aget ys k) < V)
    (hR : ∀ k, mid < k → k < b → V ≤ key (aget ys k))
    (hSL : sortedRange key ys a mid) (hSR : sortedRange key ys (mid + 1) b) :
    sortedRange key ys a b := by
  intro i j hai hij hjb
  by_cases hjm : j < mid
  · exact hSL i j hai hij hjm
  · by_cases hjm2 : j = mid
    · subst hjm2
      rw [hmid]
      exact le_of_lt (hL i hai hij)
    · by_cases him : i < mid
      · exact le_trans (le_of_lt (hL i hai him)) (hR j (by omega) hjb)
      · by_cases him2 : i = mid
        · subst him2
          rw [hmid]
          exact hR j (by omega) hjb
        · exact hSR i j (by omega) hij hjb

/-- Assembling sortedness after gathering pivot-equal elements on the left. -/
theorem sorted_assemble_eq {key : α → Int} {ys : List α} {a mid b : Nat} {V : Int}
    (h1 : a ≤ mid) (h2 : mid ≤ b)
    (hL : ∀ k, a ≤ k → k < mid → key (aget ys k) = V)
    (hR : ∀ k, mid ≤ k → k < b → V < key (aget ys k))
    (hSR : sortedRange key ys mid b) :
    sortedRange key ys a b := by
  intro i j hai hij hjb
  by_cases hjm : j < mid
  · rw [hL i hai (by omega), hL j (by omega) hjm]
  · by_cases him : i < mid
    · rw [hL i hai him]
      exact le_of_lt (hR j (by omega) hjb)
    · exact hSR i j (by omega) hij hjb

theorem pdqsortGo_spec (key : α → Int) :
    ∀ (fuel : Nat) (xs : List α) (a b limit : Nat) (wb wp : Bool),
      b ≤ xs.length → b - a ≤ fuel →
      (0 < a → ∀ k, a ≤ k → k < b → key (aget xs (a - 1)) ≤ key (aget xs k)) →
      rangePerm xs (pdqsortGo (keyLess key) fuel xs a b limit wb wp) a b ∧
      sortedRange key (pdqsortGo (keyLess key) fuel xs a b limit wb wp) a b := by
  intro fuel
  induction fuel with
  | zero =>
    intro xs a b limit wb wp hb hfuel hbd
    rw [show pdqsortGo (keyLess key) 0 xs a b limit wb wp = xs from rfl]
    exact ⟨rangePerm_refl xs a b, sortedRange_vacuous key xs a b (by omega)⟩
  | succ fuel ih =>
    intro xs a b limit wb wp hb hfuel hbd
    by_cases h12 : b - a ≤ 12
    · have hrw : pdqsortGo (keyLess key) (fuel + 1) xs a b limit wb wp =
          insertionSortRange (keyLess key) xs a b := by
        rw [pdqsortGo, if_pos h12]
      rw [hrw]
      exact insertionSortRange_spec key xs a b hb
    · by_cases hlim : limit = 0
      · have hrw : pdqsortGo (keyLess key) (fuel + 1) xs a b limit wb wp =
            heapSortRange (keyLess key) xs a b := by
          rw [pdqsortGo, if_neg h12, if_pos hlim]
        rw [hrw]
        exact heapSortRange_spec key xs a b hb (by omega)
      · -- main branch: the four staged lets
        have hA : ∃ xs1 limit1,
            (if !wb then (breakPatternsGo xs a b, limit - 1) else (xs, limit)) =
              (xs1, limit1) ∧ rangePerm xs xs1 a b := by
          cases wb with
          | false =>
            exact ⟨breakPatternsGo xs a b, limit - 1, rfl,
              breakPatternsGo_perm xs a b hb⟩
          | true =>
            exact ⟨xs, limit, rfl, rangePerm_refl xs a b⟩
        obtain ⟨xs1, limit1, hA1, hA2⟩ := hA
        have hlen1 : xs1.length = xs.length := hA2.1
        have hbd1 : 0 < a → ∀ k, a ≤ k → k < b →
            key (aget xs1 (a - 1)) ≤ key (aget xs1 k) :=
          rangePerm_boundary hA2 hb hbd
        rcases hB : choosePivotGo (keyLess key) xs1 a b with ⟨pivot0, hint0⟩
        have hpr := choosePivotGo_range (keyLess key) xs1 a b (by omega)
        rw [hB] at hpr
        have hp1 : a ≤ pivot0 := hpr.1
        have hp2 : pivot0 < b := hpr.2
        have hC : ∃ xs2 pivot1 hint1,
            (if hint0 = PivotHint.decreasingHint then
              (reverseRangeGo b xs1 a (b - 1), (b - 1) - (pivot0 - a),
                PivotHint.increasingHint)
             else (xs1, pivot0, hint0)) = (xs2, pivot1, hint1) ∧
            rangePerm xs1 xs2 a b ∧ a ≤ pivot1 ∧ pivot1 < b := by
          by_cases hdec : hint0 = PivotHint.decreasingHint
          · refine ⟨reverseRangeGo b xs1 a (b - 1), (b - 1) - (pivot0 - a),
              PivotHint.increasingHint, by rw [if_pos hdec], ?_, by omega, by omega⟩
            exact reverseRangeGo_perm a b b xs1 a (b - 1) (le_refl a) (by omega)
              (by omega)
          · exact ⟨xs1, pivot0, hint0, by rw [if_neg hdec], rangePerm_refl xs1 a b,
              hp1, hp2⟩
        obtain ⟨xs2, pivot1, hint1, hC1, hC2, hc3, hc4⟩ := hC
        have hlen2 : xs2.length = xs.length := by rw [hC2.1, hlen1]
        have hbd2 : 0 < a → ∀ k, a ≤ k → k < b →
            key (aget xs2 (a - 1)) ≤ key (aget xs2 k) :=
          rangePerm_boundary hC2 (by omega) hbd1
        have hD : ∃ xs3 srt,
            (if wb && wp && hint1 = PivotHint.increasingHint then
              partialInsertionSortGo (keyLess key) xs2 a b
             else (xs2, false)) = (xs3, srt) ∧
            rangePerm xs2 xs3 a b ∧ (srt = true → sortedRange key xs3 a b) := by
          by_cases hcond : (wb && wp && hint1 = PivotHint.increasingHint) = true
          · obtain ⟨hs1, hs2⟩ := partialInsertionSortGo_spec key xs2 a b (by omega)
              (by omega) hbd2
            exact ⟨(partialInsertionSortGo (keyLess key) xs2 a b).1,
              (partialInsertionSortGo (keyLess key) xs2 a b).2,
              by rw [if_pos hcond], hs1, hs2⟩
          · exact ⟨xs2, false, by rw [if_neg hcond], rangePerm_refl xs2 a b,
              by intro h; simp at h⟩
        obtain ⟨xs3, srt, hD1, hD2, hD3⟩ := hD
        have hlen3 : xs3.length = xs.length := by rw [hD2.1, hlen2]
        have hbd3 : 0 < a → ∀ k, a ≤ k → k < b →
            key (aget xs3 (a - 1)) ≤ key (aget xs3 k) :=
          rangePerm_boundary hD2 (by omega) hbd2
        have hpermA : rangePerm xs xs3 a b :=
          rangePerm_trans hA2 (rangePerm_trans hC2 hD2)
        by_cases hsrt : srt = true
        · have hrw : pdqsortGo (keyLess key) (fuel + 1) xs a b limit wb wp = xs3 := by
            rw [pdqsortGo, if_neg h12, if_neg hlim]
            simp only [hA1]
            simp only [hB]
            simp only [hC1]
            simp only [hD1]
            rw [if_pos hsrt]
          rw [hrw]
          exact ⟨hpermA, hD3 hsrt⟩
        · by_cases hpe : (a > 0 && !aless (keyLess key) xs3 (a - 1) pivot1) = true
          · -- partitionEqual branch
            rcases hPE : partitionEqualGo (keyLess key) xs3 a b pivot1 with ⟨xs4, mid⟩
            have hrw : pdqsortGo (keyLess key) (fuel + 1) xs a b limit wb wp =
                pdqsortGo (keyLess key) fuel xs4 mid b limit1 wb wp := by
              rw [pdqsortGo, if_neg h12, if_neg hlim]
              simp only [hA1]
              simp only [hB]
              simp only [hC1]
              simp only [hD1]
              rw [if_neg hsrt, if_pos hpe]
              simp only [hPE]
            have hspec := partitionEqualGo_spec key xs3 a b pivot1 (by omega)
              (by omega) hc3 hc4
            rw [hPE] at hspec
            have hq1 : rangePerm xs3 xs4 a b := hspec.1
            have hq2 : a + 1 ≤ mid := hspec.2.1
            have hq3 : mid ≤ b := hspec.2.2.1
            have hq4 : ∀ k, a ≤ k → k < mid →
                key (aget xs4 k) ≤ key (aget xs3 pivot1) := hspec.2.2.2.1
            have hq5 : ∀ k, mid ≤ k → k < b →
                key (aget xs3 pivot1) < key (aget xs4 k) := hspec.2.2.2.2
            simp only [Bool.and_eq_true, Bool.not_eq_true', decide_eq_true_eq] at hpe
            have hpe2 : key (aget xs3 pivot1) ≤ key (aget xs3 (a - 1)) := by
              have h1 := hpe.2
              simp only [aless, keyLess, decide_eq_false_iff_not, not_lt] at h1
              exact h1
            have hpe3 : key (aget xs3 (a - 1)) ≤ key (aget xs3 pivot1) :=
              hbd3 hpe.1 pivot1 hc3 hc4
            -- every element equals the pivot key on [a, mid)
            have hVlow : ∀ k, a ≤ k → k < b →
                key (aget xs3 pivot1) ≤ key (aget xs3 k) := by
              intro k hk1 hk2
              exact le_trans hpe2 (hbd3 hpe.1 k hk1 hk2)
            have hVlow4 : ∀ k, a ≤ k → k < b →
                key (aget xs3 pivot1) ≤ key (aget xs4 k) := by
              exact rangePerm_bound (fun v => key (aget xs3 pivot1) ≤ key v) hq1
                (by omega) hVlow
            have heqL : ∀ k, a ≤ k → k < mid → key (aget xs4 k) =
                key (aget xs3 pivot1) := by
              intro k hk1 hk2
              have h1 := hq4 k hk1 hk2
              have h2 := hVlow4 k hk1 (by omega)
              omega
            have hbdm : 0 < mid → ∀ k, mid ≤ k → k < b →
                key (aget xs4 (mid - 1)) ≤ key (aget xs4 k) := by
              intro hmid0 k hk1 hk2
              have h2 : key (aget xs4 (mid - 1)) = key (aget xs3 pivot1) :=
                heqL (mid - 1) (by omega) (by omega)
              rw [h2]
              exact le_of_lt (hq5 k hk1 hk2)
            obtain ⟨hr1, hr2⟩ := ih xs4 mid b limit1 wb wp (by rw [hq1.1]; omega)
              (by omega) hbdm
            rw [hrw]
            set R := pdqsortGo (keyLess key) fuel xs4 mid b limit1 wb wp with hdefR
            have hfin1 : rangePerm xs R a b :=
              rangePerm_trans hpermA (rangePerm_trans hq1
                (rangePerm_widen hr1 (by omega) (le_refl b)))
            refine ⟨hfin1, ?_⟩
            have hRL : ∀ k, a ≤ k → k < mid →
                key (aget R k) = key (aget xs3 pivot1) := by
              intro k hk1 hk2
              rw [hr1.2.1 k (by rw [hq1.1]; omega) (Or.inl hk2)]
              exact heqL k hk1 hk2
            have hRR : ∀ k, mid ≤ k → k < b →
                key (aget xs3 pivot1) < key (aget R k) := by
              exact rangePerm_bound (fun v => key (aget xs3 pivot1) < key v) hr1
                (by rw [hq1.1]; omega) (fun k hk1 hk2 => hq5 k hk1 hk2)
            exact sorted_assemble_eq (by omega) hq3 hRL hRR hr2
          · -- partition branch
            rcases hP : partitionGo (keyLess key) xs3 a b pivot1 with ⟨xs4, mid, ap⟩
            have hspec := partitionGo_spec key xs3 a b pivot1 (by omega) (by omega)
              hc3 hc4
            rw [hP] at hspec
            have hq1 : rangePerm xs3 xs4 a b := hspec.1
            have hq2 : a ≤ mid := hspec.2.1
            have hq3 : mid < b := hspec.2.2.1
            have hq4 : key (aget xs4 mid) = key (aget xs3 pivot1) := hspec.2.2.2.1
            have hq5 : ∀ k, a ≤ k → k < mid →
                key (aget xs4 k) < key (aget xs3 pivot1) := hspec.2.2.2.2.1
            have hq6 : ∀ k, mid < k → k < b →
                ¬ key (aget xs4 k) < key (aget xs3 pivot1) := hspec.2.2.2.2.2
            have hlen4 : xs4.length = xs.length := by rw [hq1.1, hlen3]
            have hbd4 : 0 < a → ∀ k, a ≤ k → k < b →
                key (aget xs4 (a - 1)) ≤ key (aget xs4 k) :=
              rangePerm_boundary hq1 (by omega) hbd3
            by_cases hlr : mid - a < b - mid
            · have hrw : pdqsortGo (keyLess key) (fuel + 1) xs a b limit wb wp =
                  pdqsortGo (keyLess key) fuel
                    (pdqsortGo (keyLess key) fuel xs4 a mid limit1 true true)
                    (mid + 1) b limit1
                    (decide (min (mid - a) (b - mid) ≥ (b - a) / 8)) ap := by
                rw [pdqsortGo, if_neg h12, if_neg hlim]
                simp only [hA1]
                simp only [hB]
                simp only [hC1]
                simp only [hD1]
                rw [if_neg hsrt, if_neg hpe]
                simp only [hP]
                rw [if_pos hlr]
              obtain ⟨hr1, hr2⟩ := ih xs4 a mid limit1 true true (by omega)
                (by omega) (fun h0 k hk1 hk2 => hbd4 h0 k hk1 (by omega))
              set Y1 := pdqsortGo (keyLess key) fuel xs4 a mid limit1 true true
                with hdefY1
              have hlenY1 : Y1.length = xs.length := by rw [hr1.1, hlen4]
              have hY1mid : aget Y1 mid = aget xs4 mid :=
                hr1.2.1 mid (by omega) (Or.inr (le_refl mid))
              have hY1hi : ∀ k, mid < k → k < b → aget Y1 k = aget xs4 k := by
                intro k hk1 hk2
                exact hr1.2.1 k (by omega) (Or.inr (by omega))
              have hbdm : 0 < mid + 1 → ∀ k, mid + 1 ≤ k → k < b →
                  key (aget Y1 (mid + 1 - 1)) ≤ key (aget Y1 k) := by
                intro _ k hk1 hk2
                rw [show mid + 1 - 1 = mid from rfl, hY1mid, hq4,
                  hY1hi k (by omega) hk2]
                exact le_of_not_lt (hq6 k (by omega) hk2)
              obtain ⟨hs1, hs2⟩ := ih Y1 (mid + 1) b limit1
                (decide (min (mid - a) (b - mid) ≥ (b - a) / 8)) ap
                (by omega) (by omega) hbdm
              rw [hrw]
              set Y2 := pdqsortGo (keyLess key) fuel Y1 (mid + 1) b limit1
                (decide (min (mid - a) (b - mid) ≥ (b - a) / 8)) ap with hdefY2
              have hY2low : ∀ k, k < mid + 1 → aget Y2 k = aget Y1 k := by
                intro k hk
                exact hs1.2.1 k (by omega) (Or.inl hk)
              have hfin1 : rangePerm xs Y2 a b := by
                refine rangePerm_trans hpermA (rangePerm_trans hq1 ?_)
                refine rangePerm_trans (rangePerm_widen hr1 (le_refl a) (by omega)) ?_
                exact rangePerm_widen hs1 (by omega) (le_refl b)
              refine ⟨hfin1, ?_⟩
              -- left region values stay below the pivot key
              have hY1L : ∀ k, a ≤ k → k < mid →
                  key (aget Y1 k) < key (aget xs3 pivot1) :=
                rangePerm_bound (fun v => key v < key (aget xs3 pivot1)) hr1
                  (by omega) hq5
              have hY2L : ∀ k, a ≤ k → k < mid →
                  key (aget Y2 k) < key (aget xs3 pivot1) := by
                intro k hk1 hk2
                rw [hY2low k (by omega)]
                exact hY1L k hk1 hk2
              have hY2mid : key (aget Y2 mid) = key (aget xs3 pivot1) := by
                rw [hY2low mid (by omega), hY1mid, hq4]
              have hY2R : ∀ k, mid < k → k < b →
                  key (aget xs3 pivot1) ≤ key (aget Y2 k) := by
                refine rangePerm_bound (fun v => key (aget xs3 pivot1) ≤ key v) hs1
                  (by omega) ?_
                intro k hk1 hk2
                rw [hY1hi k (by omega) hk2]
                exact le_of_not_lt (hq6 k (by omega) hk2)
              have hSL : sortedRange key Y2 a mid := by
                refine sortedRange_congr (fun k hk1 hk2 => hY2low k (by omega)) hr2
              exact sorted_assemble hq2 hq3 hY2mid hY2L
                (fun k hk1 hk2 => hY2R k hk1 hk2) hSL hs2
            · have hrw : pdqsortGo (keyLess key) (fuel + 1) xs a b limit wb wp =
                  pdqsortGo (keyLess key) fuel
                    (pdqsortGo (keyLess key) fuel xs4 (mid + 1) b limit1 true true)
                    a mid limit1
                    (decide (min (mid - a) (b - mid) ≥ (b - a) / 8)) ap := by
                rw [pdqsortGo, if_neg h12, if_neg hlim]
                simp only [hA1]
                simp only [hB]
                simp only [hC1]
                simp only [hD1]
                rw [if_neg hsrt, if_neg hpe]
                simp only [hP]
                rw [if_neg hlr]
              have hbdm : 0 < mid + 1 → ∀ k, mid + 1 ≤ k → k < b →
                  key (aget xs4 (mid + 1 - 1)) ≤ key (aget xs4 k) := by
                intro _ k hk1 hk2
                rw [show mid + 1 - 1 = mid from rfl, hq4]
                exact le_of_not_lt (hq6 k (by omega) hk2)
              obtain ⟨hr1, hr2⟩ := ih xs4 (mid + 1) b limit1 true true (by omega)
                (by omega) hbdm
              set Y1 := pdqsortGo (keyLess key) fuel xs4 (mid + 1) b limit1 true true
                with hdefY1
              have hlenY1 : Y1.length = xs.length := by rw [hr1.1, hlen4]
              have hY1low : ∀ k, k < mid + 1 → aget Y1 k = aget xs4 k := by
                intro k hk
                exact hr1.2.1 k (by omega) (Or.inl hk)
              have hbdY1 : 0 < a → ∀ k, a ≤ k → k < mid →
                  key (aget Y1 (a - 1)) ≤ key (aget Y1 k) := by
                intro h0 k hk1 hk2
                rw [hY1low k (by omega), hY1low (a - 1) (by omega)]
                exact hbd4 h0 k hk1 (by omega)
              obtain ⟨hs1, hs2⟩ := ih Y1 a mid limit1
                (decide (min (mid - a) (b - mid) ≥ (b - a) / 8)) ap
                (by omega) (by omega) hbdY1
              rw [hrw]
              set Y2 := pdqsortGo (keyLess key) fuel Y1 a mid limit1
                (decide (min (mid - a) (b - mid) ≥ (b - a) / 8)) ap with hdefY2
              have hY2hi : ∀ k, mid ≤ k → k < xs.length → aget Y2 k = aget Y1 k := by
                intro k hk1 hk2
                exact hs1.2.1 k (by omega) (Or.inr hk1)
              have hfin1 : rangePerm xs Y2 a b := by
                refine rangePerm_trans hpermA (rangePerm_trans hq1 ?_)
                refine rangePerm_trans (rangePerm_widen hr1 (by omega) (le_refl b)) ?_
                exact rangePerm_widen hs1 (le_refl a) (by omega)
              refine ⟨hfin1, ?_⟩
              have hY2L : ∀ k, a ≤ k → k < mid →
                  key (aget Y2 k) < key (aget xs3 pivot1) := by
                refine rangePerm_bound (fun v => key v < key (aget xs3 pivot1)) hs1
                  (by omega) ?_
                intro k hk1 hk2
                rw [hY1low k (by omega)]
                exact hq5 k hk1 hk2
              have hY2mid : key (aget Y2 mid) = key (aget xs3 pivot1) := by
                rw [hY2hi mid (le_refl mid) (by omega), hY1low mid (by omega), hq4]
              have hY2R : ∀ k, mid < k → k < b →
                  key (aget xs3 pivot1) ≤ key (aget Y2 k) := by
                intro k hk1 hk2
                rw [hY2hi k (by omega) (by omega)]
                refine rangePerm_bound (fun v => key (aget xs3 pivot1) ≤ key v) hr1
                  (by omega) ?_ k (by omega) hk2
                intro k2 hk21 hk22
                exact le_of_not_lt (hq6 k2 (by omega) hk22)
              have hSR : sortedRange key Y2 (mid + 1) b := by
                refine sortedRange_congr ?_ hr2
                intro k hk1 hk2
                exact hY2hi k (by omega) (by omega)
              exact sorted_assemble hq2 hq3 hY2mid hY2L
                (fun k hk1 hk2 => hY2R k hk1 hk2) hs2 hSR

theorem sortSliceGo_spec (key : α → Int) (xs : List α) :
    (sortSliceGo (keyLess key) xs).Perm xs ∧
    List.Pairwise (fun p q => key p ≤ key q) (sortSliceGo (keyLess key) xs) := by
  have hfuel : xs.length - 0 ≤ (xs.length + 4) * (bitsLen xs.length + 4) + 16 := by
    have h1 : xs.length + 4 ≤ (xs.length + 4) * (bitsLen xs.length + 4) :=
      Nat.le_mul_of_pos_right _ (by omega)
    omega
  obtain ⟨hp, hs⟩ := pdqsortGo_spec key ((xs.length + 4) * (bitsLen xs.length + 4) + 16)
    xs 0 xs.length (bitsLen xs.length) true true (le_refl _) hfuel
    (by intro h; omega)
  constructor
  · exact hp.2.2
  · rw [List.pairwise_iff_getElem]
    intro i j hi hj hij
    have hlen : (sortSliceGo (keyLess key) xs).length = xs.length := hp.1
    have h1 := hs i j (by omega) hij (by rw [← hlen]; exact hj)
    rwa [aget_eq_getElem _ i (by exact hi), aget_eq_getElem _ j (by exact hj)] at h1

end MainSort

set_option maxRecDepth 40000 in
/-- C5 counterexample: Chain.Sort uses Go sort.Slice, which is not stable.
With thirteen plugins inserted in order p1 (priority 2), p2 … p13 (all
priority 1), the sorted chain executes p7 first in the BeforeRequest
phase, although p2 … p6 have equal priority and were inserted earlier, so
equal-priority plugins are not kept in insertion order. -/
theorem claim_c5_counterexample :
    (getExecutionOrder (Chain.sortPlugins ⟨c5Plugins⟩).plugins
        Phase.beforeRequest).map PluginInstance.name =
      ["p7", "p2", "p3", "p4", "p5", "p6", "p8", "p9", "p10", "p11", "p12", "p13", "p1"] ∧
    (getExecutionOrder (Chain.sortPlugins ⟨c5Plugins⟩).plugins
        Phase.beforeRequest).map PluginInstance.name ≠
      ["p2", "p3", "p4", "p5", "p6", "p7", "p8", "p9", "p10", "p11", "p12", "p13", "p1"] := by
  constructor
  · decide
  · decide

/-- C5 (amended): for every built chain, Chain.Sort (sort.Slice, the
embedded pdqsort) produces a permutation of the included plugin instances
that is ascending by priority — proved unconditionally of sortSliceGo by
the development above — so the BeforeRequest pass runs in ascending
priority order and the AfterResponse pass, which is exactly the reversed
list, in descending order; a chain of well-behaved plugins is invoked once
per plugin in list order for BeforeRequest and in reversed order for
AfterResponse.  Ties follow the order produced by Go sort.Slice, which is
not insertion order in general. -/
theorem claim_c5_amended_order :
    (∀ ps : List PluginInstance,
      getExecutionOrder ps Phase.afterResponse =
        (getExecutionOrder ps Phase.beforeRequest).reverse) ∧
    (∀ c : Chain,
      ((Chain.sortPlugins c).plugins).Perm c.plugins ∧
      (getExecutionOrder (Chain.sortPlugins c).plugins Phase.beforeRequest).Pairwise
        (fun p q => p.priority ≤ q.priority) ∧
      (getExecutionOrder (Chain.sortPlugins c).plugins Phase.afterResponse).Pairwise
        (fun p q => q.priority ≤ p.priority)) ∧
    (∀ (ps : List PluginInstance) (ctx : Ctx),
      (∀ inst ∈ ps, ∀ x : Ctx, (inst.exec x).1.aborted = x.aborted ∧ (inst.exec x).2 = none) →
      ctx.aborted = false →
      (executeFrom (getExecutionOrder ps Phase.beforeRequest) ctx).trace =
        ps.map PluginInstance.name ∧
      (executeFrom (getExecutionOrder ps Phase.afterResponse) ctx).trace =
        (ps.map PluginInstance.name).reverse) := by
  refine ⟨?_, ?_, ?_⟩
  · intro ps
    simp [getExecutionOrder]
  · intro c
    have hkey := sortSliceGo_spec PluginInstance.priority c.plugins
    have hfun : (fun p q : PluginInstance => decide (p.priority < q.priority)) =
        keyLess PluginInstance.priority := rfl
    have hdef : (Chain.sortPlugins c).plugins =
        sortSliceGo (keyLess PluginInstance.priority) c.plugins := by
      show sortSliceGo (fun p q : PluginInstance =>
        decide (p.priority < q.priority)) c.plugins = _
      rw [hfun]
    have hbefore : getExecutionOrder (Chain.sortPlugins c).plugins
        Phase.beforeRequest = (Chain.sortPlugins c).plugins := by
      simp [getExecutionOrder]
    have hafter : getExecutionOrder (Chain.sortPlugins c).plugins
        Phase.afterResponse = ((Chain.sortPlugins c).plugins).reverse := by
      simp [getExecutionOrder]
    refine ⟨?_, ?_, ?_⟩
    · rw [hdef]
      exact hkey.1
    · rw [hbefore, hdef]
      exact hkey.2
    · rw [hafter, List.pairwise_reverse, hdef]
      exact hkey.2
  · intro ps ctx h hab
    constructor
    · simpa [getExecutionOrder] using
        (executeFrom_benign_trace ps ctx h hab).1
    · have hrev : ∀ inst ∈ ps.reverse, ∀ x : Ctx,
          (inst.exec x).1.aborted = x.aborted ∧ (inst.exec x).2 = none := by
        intro i hi x
        exact h i (List.mem_reverse.mp hi) x
      have := (executeFrom_benign_trace ps.reverse ctx hrev hab).1
      simpa [getExecutionOrder, List.map_reverse] using this

/-- Witness for the amended C5 at the spec's example priorities [5, 10, 15]:
the sorted chain is a permutation of the inserted plugins, ascending by
priority, and calls occur as a, b, c before the proxy and c, b, a after
it. -/
theorem claim_c5_amended_order_witness :
    ((Chain.sortPlugins ⟨c5SmallPlugins⟩).plugins).Perm c5SmallPlugins ∧
    (getExecutionOrder (Chain.sortPlugins ⟨c5SmallPlugins⟩).plugins
      Phase.beforeRequest).Pairwise (fun p q => p.priority ≤ q.priority) ∧
    (executeFrom (getExecutionOrder c5SmallPlugins Phase.beforeRequest)
      (newCtx Phase.beforeRequest)).trace = ["a", "b", "c"] ∧
    (executeFrom (getExecutionOrder c5SmallPlugins Phase.afterResponse)
      (newCtx Phase.afterResponse)).trace = ["c", "b", "a"] := by
  have hsorted := claim_c5_amended_order.2.1 ⟨c5SmallPlugins⟩
  have hbenign : ∀ inst ∈ c5SmallPlugins, ∀ x : Ctx,
      (inst.exec x).1.aborted = x.aborted ∧ (inst.exec x).2 = none := by
    intro inst hi x
    simp only [c5SmallPlugins, List.mem_cons, List.mem_singleton] at hi
    rcases hi with rfl | rfl | rfl | h
    · exact ⟨rfl, rfl⟩
    · exact ⟨rfl, rfl⟩
    · exact ⟨rfl, rfl⟩
    · simp at h
  have h1 := claim_c5_amended_order.2.2 c5SmallPlugins (newCtx Phase.beforeRequest)
    hbenign rfl
  have h2 := claim_c5_amended_order.2.2 c5SmallPlugins (newCtx Phase.afterResponse)
    hbenign rfl
  exact ⟨hsorted.1, hsorted.2.1, by rw [h1.1]; decide, by rw [h2.2]; decide⟩

set_option maxRecDepth 40000 in
/-- C4: the claim's concrete scenario holds (/a/b static wins, /a/c binds
the param x, /a/c/d falls to the wildcard with * = c/d), but the universal
sibling ordering does not: nodePriority adds the insertion depth to the
kind band, so inserting /b and then a pattern with a leading parameter
followed by 51 more segments puts the param child (priority 102) before
the static child (priority 101) among the root's children, which is the
order Search tries; the code's own sortChildren / nodePriority comments
promise static before param before wildcard. -/
theorem claim_c4_sibling_order :
    ((c4PriorityTree.searchPath "/a/b").1 = some rStatic) ∧
    ((c4PriorityTree.searchPath "/a/c").1 = some rParam ∧
      (c4PriorityTree.searchPath "/a/c").2 = [("x", "c")]) ∧
    ((c4PriorityTree.searchPath "/a/c/d").1 = some rWild ∧
      (c4PriorityTree.searchPath "/a/c/d").2 = [("*", "c/d")]) ∧
    (c4DeepTree.root.children.map RNode.nType =
      [NodeType.paramNode, NodeType.staticNode]) ∧
    (c4DeepTree.root.children.map nodePriority = [102, 101]) ∧
    ((c4DeepTree.searchPath "/b").1 = some rB) := by
  refine ⟨?_, ⟨?_, ?_⟩, ⟨?_, ?_⟩, ?_, ?_, ?_⟩ <;> decide

/-- Helper: a value written under a key is what Header.Get then reads. -/
theorem headersGet_headersSet_self (h : Headers) (k v : String) :
    headersGet (headersSet h k v) k = v := by
  have haux : ∀ (h : Headers) (ck : String) (vs : List String),
      assocGetH ck (assocSetH ck vs h) = some vs := by
    intro h ck vs
    induction h with
    | nil => simp [assocSetH, assocGetH]
    | cons kv rest ih =>
      by_cases hk : kv.1 = ck
      · simp [assocSetH, assocGetH, hk]
      · simp [assocSetH, assocGetH, hk, ih]
  simp [headersGet, headersSet, haux]

/-- Helper: writing one key leaves Header.Get of a key with a different
canonical form unchanged. -/
theorem headersGet_headersSet_ne (h : Headers) (k k2 v : String)
    (hne : canonicalKey k ≠ canonicalKey k2) :
    headersGet (headersSet h k v) k2 = headersGet h k2 := by
  have haux : ∀ (h : Headers) (ck ck2 : String) (vs : List String), ck ≠ ck2 →
      assocGetH ck2 (assocSetH ck vs h) = assocGetH ck2 h := by
    intro h ck ck2 vs hnee
    induction h with
    | nil => simp [assocSetH, assocGetH, fun hc => hnee hc]
    | cons kv rest ih =>
      by_cases hk : kv.1 = ck
      · have : ¬kv.1 = ck2 := by
          rw [hk]
          exact hnee
        simp [assocSetH, assocGetH, hk, this, hnee]
      · by_cases hk2 : kv.1 = ck2
        · simp [assocSetH, assocGetH, hk, hk2, Ne.symm hnee]
        · simp [assocSetH, assocGetH, hk, hk2, ih]
  simp [headersGet, headersSet, haux _ _ _ _ hne]

/-- C2 counterexample: with inbound X-Forwarded-For 1.1.1.1 from remote
2.2.2.2, the upstream request carries X-Forwarded-For 1.1.1.1, 1.1.1.1 —
the appended client IP is the first X-Forwarded-For element, not the
remote address — and not 1.1.1.1, 2.2.2.2 as the claim states. -/
theorem claim_c2_counterexample :
    headersGet (setProxyHeadersGo (copyHeaders [] c2Request.headers) c2Request "rid-1")
      "X-Forwarded-For" = "1.1.1.1, 1.1.1.1" ∧
    ("1.1.1.1, 1.1.1.1" : String) ≠ "1.1.1.1, 2.2.2.2" := by
  constructor <;> decide

/-- C2 (amended): the upstream X-Forwarded-For equals the prior value with
the extracted client IP appended (or the client IP alone when no prior
value exists), where the extraction order is X-Forwarded-For first
element, then X-Real-IP, then remote address with the part after the last
colon stripped; since the extracted client IP of a request carrying
X-Forwarded-For is that header's first element, the inbound
X-Forwarded-For: 1.1.1.1 from remote 2.2.2.2 yields the upstream value
1.1.1.1, 1.1.1.1. -/
theorem claim_c2_xff_append (up : Headers) (r : Request) (reqID : String) :
    (getClientIP r ≠ "" → headersGet up "X-Forwarded-For" ≠ "" →
      headersGet (setProxyHeadersGo up r reqID) "X-Forwarded-For" =
        headersGet up "X-Forwarded-For" ++ ", " ++ getClientIP r) ∧
    (getClientIP r ≠ "" → headersGet up "X-Forwarded-For" = "" →
      headersGet (setProxyHeadersGo up r reqID) "X-Forwarded-For" = getClientIP r) ∧
    (headersGet r.headers "X-Forwarded-For" = "" →
      headersGet r.headers "X-Real-IP" ≠ "" →
      getClientIP r = goTrimSpace (headersGet r.headers "X-Real-IP")) ∧
    (headersGet r.headers "X-Forwarded-For" = "" →
      headersGet r.headers "X-Real-IP" = "" →
      goLastIndexOfChar r.remoteAddr ':' > 0 →
      getClientIP r = strTake r.remoteAddr (goLastIndexOfChar r.remoteAddr ':').toNat) := by
  refine ⟨?_, ?_, ?_, ?_⟩
  · intro hc hp
    simp only [setProxyHeadersGo]
    rw [headersGet_headersSet_ne _ _ _ _ (by decide)]
    rw [if_pos hc]
    rw [headersGet_headersSet_ne _ _ _ _ (by decide)]
    rw [headersGet_headersSet_ne _ _ _ _ (by decide)]
    rw [headersGet_headersSet_ne _ _ _ _ (by decide)]
    rw [if_pos hc, if_pos hp]
    rw [headersGet_headersSet_self]
  · intro hc hp
    simp only [setProxyHeadersGo]
    rw [headersGet_headersSet_ne _ _ _ _ (by decide)]
    rw [if_pos hc]
    rw [headersGet_headersSet_ne _ _ _ _ (by decide)]
    rw [headersGet_headersSet_ne _ _ _ _ (by decide)]
    rw [headersGet_headersSet_ne _ _ _ _ (by decide)]
    rw [if_pos hc, if_neg (by simp [hp])]
    rw [headersGet_headersSet_self]
  · intro hxff hxri
    simp [getClientIP, hxff, hxri]
  · intro hxff hxri hl
    simp [getClientIP, hxff, hxri, hl]

/-- Witness for the amended C2 at the concrete request: the upstream
X-Forwarded-For is 1.1.1.1, 1.1.1.1. -/
theorem claim_c2_xff_append_witness :
    headersGet (setProxyHeadersGo (copyHeaders [] c2Request.headers) c2Request "rid-1")
      "X-Forwarded-For" = "1.1.1.1, 1.1.1.1" := by
  have h := (claim_c2_xff_append (copyHeaders [] c2Request.headers) c2Request "rid-1").1
    (by decide) (by decide)
  exact h.trans (by decide)

/-- Helper: the strip loop trims exactly the first declared pattern that
prefixes the path, and leaves the path alone when none does. -/
theorem stripPathLoop_eq_find (path : String) (paths : List String) :
    stripPathLoop path paths =
      match paths.find? (fun rp => strHasPfx path rp) with
      | some rp => strTrimPfx path rp
      | none => path := by
  induction paths with
  | nil => rfl
  | cons rp rest ih =>
    by_cases h : strHasPfx path rp
    · simp [stripPathLoop, List.find?, h]
    · simp [stripPathLoop, List.find?, h, ih]

/-- C3 counterexample: the route declares the overlapping literal patterns
[/api, /api/users] with stripPath, and the inbound path is /api/users/7;
the claim requires the longer pattern /api/users to be removed (upstream
path /7) but the code trims the first declared match /api, sending
/users/7 upstream. -/
theorem claim_c3_counterexample :
    buildUpstreamURL "http://backend" c3Request c3Route = "http://backend/users/7" ∧
    ensureLeadingSlash (stripLongestSpec c3Request.urlPath c3Route.paths) = "/7" ∧
    ("http://backend/users/7" : String) ≠ "http://backend" ++ "/7" := by
  refine ⟨?_, ?_, ?_⟩ <;> decide

/-- C3 (amended): with stripPath set, the upstream URL is the target plus
the inbound path with the FIRST declared route pattern that literally
prefixes it trimmed (the path unchanged when none matches), plus the query
string; a leading slash is always restored on the effective path. -/
theorem claim_c3_strip_first_match (targetURL : String) (r : Request) (route : Route) :
    (route.stripPath = true →
      buildUpstreamURL targetURL r route =
        targetURL ++
          ensureLeadingSlash
            (match route.paths.find? (fun rp => strHasPfx r.urlPath rp) with
             | some rp => strTrimPfx r.urlPath rp
             | none => r.urlPath) ++
          (if r.rawQuery ≠ "" then "?" ++ r.rawQuery else "")) ∧
    (∀ p : String, strHasPfx (ensureLeadingSlash p) "/" = true) := by
  constructor
  · intro hs
    simp only [buildUpstreamURL, hs, if_true, ensureLeadingSlash]
    rw [stripPathLoop_eq_find]
    by_cases hq : r.rawQuery = ""
    · simp [hq]
    · simp [hq, String.append_assoc]
  · intro p
    by_cases h : strHasPfx p "/"
    · simp [ensureLeadingSlash, h]
    · simp only [ensureLeadingSlash, h, Bool.not_false, if_true]
      have hsplit : ("/" ++ p).toList = '/' :: p.toList := by
        show ("/" ++ p).data = '/' :: p.data
        rw [String.data_append]
        rfl
      simp [strHasPfx, hsplit, List.isPrefixOf]

/-- Witness for the amended C3 at the concrete route [/api, /api/users]
with stripPath and inbound /api/users/7: the first declared match /api is
trimmed, giving upstream http://backend/users/7, and the slash fixup
always yields a slash-prefixed path. -/
theorem claim_c3_strip_first_match_witness :
    buildUpstreamURL "http://backend" c3Request c3Route = "http://backend/users/7" ∧
    strHasPfx (ensureLeadingSlash "users/7") "/" = true := by
  have h := claim_c3_strip_first_match "http://backend" c3Request c3Route
  refine ⟨?_, h.2 "users/7"⟩
  have h1 := h.1 rfl
  rw [h1]
  decide

/-- Helper: one script run at the stored refill instant (no time elapsed)
on a bucket holding q ≤ C tokens: no refill happens, one token is consumed
exactly when q ≥ 1. -/
theorem tb_script_state (C : Int) (r : ℚ) (now : Int) (q : ℚ) (hqC : q ≤ (C : ℚ)) :
    (tokenBucketScript C r now (some ⟨q, now⟩)).1 =
      ⟨if 1 ≤ q then q - 1 else q, now⟩ ∧
    (tokenBucketScript C r now (some ⟨q, now⟩)).2.1 = (if 1 ≤ q then 1 else 0) ∧
    (tokenBucketScript C r now (some ⟨q, now⟩)).2.2.1 = ⌊if 1 ≤ q then q - 1 else q⌋ := by
  have hmin : min (C : ℚ) (q + ((max 0 (now - now) : Int) : ℚ) / 1000 * r) = q := by
    simp [min_eq_right hqC]
  refine ⟨?_, ?_, ?_⟩ <;>
    · simp only [tokenBucketScript, hmin, ge_iff_le]
      by_cases hq : 1 ≤ q <;> simp [hq]

/-- Helper: the script from an absent bucket behaves as from a full one. -/
theorem tb_script_none (C : Int) (r : ℚ) (now : Int) :
    tokenBucketScript C r now none = tokenBucketScript C r now (some ⟨(C : ℚ), now⟩) :=
  rfl

/-- Helper: Allow at the stored refill instant on a bucket holding q ≤ C
tokens: the state keeps the time and drops one token exactly when q ≥ 1,
which is also the allowed verdict, and Remaining is the floored count. -/
theorem tb_allow_facts (C : Int) (r : ℚ) (now : Int) (q : ℚ) (hqC : q ≤ (C : ℚ)) :
    (tokenBucketAllow C r now (some ⟨q, now⟩)).1 =
      ⟨if 1 ≤ q then q - 1 else q, now⟩ ∧
    (tokenBucketAllow C r now (some ⟨q, now⟩)).2.allowed = decide (1 ≤ q) ∧
    (tokenBucketAllow C r now (some ⟨q, now⟩)).2.remaining =
      ⌊if 1 ≤ q then q - 1 else q⌋ := by
  obtain ⟨h1, h2, h3⟩ := tb_script_state C r now q hqC
  by_cases hq : 1 ≤ q <;>
    refine ⟨?_, ?_, ?_⟩ <;>
      simp [tokenBucketAllow, h1, h2, h3, hq]

/-- Helper: Allow on an absent bucket equals Allow on a full bucket. -/
theorem tb_allow_none (C : Int) (r : ℚ) (now : Int) :
    tokenBucketAllow C r now none = tokenBucketAllow C r now (some ⟨(C : ℚ), now⟩) :=
  rfl

/-- Helper: after k immediate calls (k ≤ C) on a fresh identifier the
bucket holds C − k tokens. -/
theorem tb_state_after (C : Int) (r : ℚ) (now : Int) (hC : 1 ≤ C) :
    ∀ k : Nat, (k : Int) ≤ C →
      tbAfterCalls C r now k =
        if k = 0 then none else some ⟨(C : ℚ) - (k : ℚ), now⟩ := by
  intro k
  induction k with
  | zero =>
    intro _
    rfl
  | succ j ih =>
    intro hk
    have hj : (j : Int) ≤ C := by
      push_cast at hk
      omega
    have hjlt : (j : Int) < C := by
      push_cast at hk
      omega
    show some (tokenBucketAllow C r now (tbAfterCalls C r now j)).1 = _
    rw [ih hj, if_neg (Nat.succ_ne_zero j)]
    by_cases hj0 : j = 0
    · subst hj0
      have hq1 : (1 : ℚ) ≤ (C : ℚ) := by exact_mod_cast hC
      rw [if_pos rfl, tb_allow_none,
        (tb_allow_facts C r now (C : ℚ) le_rfl).1, if_pos hq1]
      push_cast
      norm_num
    · have hq1 : (1 : ℚ) ≤ (C : ℚ) - (j : ℚ) := by
        have : (j : ℚ) + 1 ≤ (C : ℚ) := by exact_mod_cast hjlt
        linarith
      have hqC : (C : ℚ) - (j : ℚ) ≤ (C : ℚ) :=
        sub_le_self _ (by positivity)
      rw [if_neg hj0, (tb_allow_facts C r now ((C : ℚ) - (j : ℚ)) hqC).1, if_pos hq1]
      have : (C : ℚ) - (j : ℚ) - 1 = (C : ℚ) - ((j + 1 : Nat) : ℚ) := by
        push_cast
        ring
      rw [this]

/-- C7: from a previously unseen identifier, with capacity C ≥ 1 and
refill rate r > 0 and no time elapsing, each of the first C calls is
allowed with Remaining counting down C−1, C−2, …, 0, and the (C+1)-th
call is denied with Remaining 0. -/
theorem claim_c7_token_bucket (C : Int) (r : ℚ) (now : Int)
    (hC : 1 ≤ C) (hr : 0 < r) :
    (∀ k : Nat, (k : Int) < C →
      (tokenBucketAllow C r now (tbAfterCalls C r now k)).2.allowed = true ∧
      (tokenBucketAllow C r now (tbAfterCalls C r now k)).2.remaining = C - 1 - (k : Int)) ∧
    (tokenBucketAllow C r now (tbAfterCalls C r now C.toNat)).2.allowed = false ∧
    (tokenBucketAllow C r now (tbAfterCalls C r now C.toNat)).2.remaining = 0 := by
  have _hr := hr
  constructor
  · intro k hk
    have hkC : (k : Int) ≤ C := le_of_lt hk
    rw [tb_state_after C r now hC k hkC]
    by_cases hk0 : k = 0
    · subst hk0
      have hq1 : (1 : ℚ) ≤ (C : ℚ) := by exact_mod_cast hC
      have hfl : ⌊(C : ℚ) - 1⌋ = C - 1 := by
        rw [show (C : ℚ) - 1 = ((C - 1 : Int) : ℚ) by push_cast; ring]
        exact Int.floor_intCast _
      rw [if_pos rfl, tb_allow_none]
      obtain ⟨_, h2, h3⟩ := tb_allow_facts C r now (C : ℚ) le_rfl
      refine ⟨?_, ?_⟩
      · rw [h2]
        simp [hq1]
      · rw [h3, if_pos hq1, hfl]
        push_cast
        ring
    · have hq1 : (1 : ℚ) ≤ (C : ℚ) - (k : ℚ) := by
        have : (k : ℚ) + 1 ≤ (C : ℚ) := by exact_mod_cast hk
        linarith
      have hqC : (C : ℚ) - (k : ℚ) ≤ (C : ℚ) :=
        sub_le_self _ (by positivity)
      have hfl : ⌊(C : ℚ) - (k : ℚ) - 1⌋ = C - 1 - (k : Int) := by
        rw [show (C : ℚ) - (k : ℚ) - 1 = ((C - 1 - (k : Int) : Int) : ℚ) by push_cast; ring]
        exact Int.floor_intCast _
      rw [if_neg hk0]
      obtain ⟨_, h2, h3⟩ := tb_allow_facts C r now ((C : ℚ) - (k : ℚ)) hqC
      refine ⟨?_, ?_⟩
      · rw [h2]
        simp [hq1]
      · rw [h3, if_pos hq1, hfl]
  · have hCC : ((C.toNat : Int)) = C := Int.toNat_of_nonneg (by omega)
    have hCnz : C.toNat ≠ 0 := by omega
    rw [tb_state_after C r now hC C.toNat (le_of_eq hCC), if_neg hCnz]
    have hzero : (C : ℚ) - ((C.toNat : Nat) : ℚ) = 0 := by
      have h : ((C.toNat : Nat) : ℚ) = (C : ℚ) := by exact_mod_cast hCC
      rw [h]
      ring
    rw [hzero]
    have hq0 : ¬(1 : ℚ) ≤ (0 : ℚ) := by norm_num
    have hqC0 : (0 : ℚ) ≤ (C : ℚ) := by
      have h : (0 : Int) ≤ C := by omega
      exact_mod_cast h
    obtain ⟨_, h2, h3⟩ := tb_allow_facts C r now 0 hqC0
    refine ⟨?_, ?_⟩
    · rw [h2]
      simp [hq0]
    · rw [h3, if_neg hq0]
      norm_num

/-- Witness for C7 with capacity 2 and rate 1: the first two calls are
allowed with Remaining 1 then 0, the third is denied with Remaining 0. -/
theorem claim_c7_token_bucket_witness :
    (tokenBucketAllow 2 1 0 (tbAfterCalls 2 1 0 0)).2.allowed = true ∧
    (tokenBucketAllow 2 1 0 (tbAfterCalls 2 1 0 0)).2.remaining = 1 ∧
    (tokenBucketAllow 2 1 0 (tbAfterCalls 2 1 0 1)).2.remaining = 0 ∧
    (tokenBucketAllow 2 1 0 (tbAfterCalls 2 1 0 2)).2.allowed = false := by
  have h := claim_c7_token_bucket 2 1 0 (by norm_num) (by norm_num)
  refine ⟨(h.1 0 (by norm_num)).1, ?_, ?_, ?_⟩
  · have := (h.1 0 (by norm_num)).2
    rw [this]
    norm_num
  · have := (h.1 1 (by norm_num)).2
    rw [this]
    norm_num
  · exact h.2.1

/-- Helper: adding an absent member appends it. -/
theorem zAdd_not_mem (z : List (String × Int)) (m : String) (sc : Int)
    (h : ∀ e ∈ z, e.1 ≠ m) :
    zAdd z sc m = z ++ [(m, sc)] := by
  induction z with
  | nil => rfl
  | cons e rest ih =>
    have he : e.1 ≠ m := h e (by simp)
    simp only [zAdd, if_neg he, List.cons_append]
    rw [ih (fun x hx => h x (by simp [hx]))]

/-- Helper: cleanup removes nothing when every score is inside the
window. -/
theorem zCleanup_id (ws : Int) (z : List (String × Int))
    (h : ∀ e ∈ z, ws < e.2) :
    zCleanup ws z = z := by
  unfold zCleanup
  rw [List.filter_eq_self]
  intro e he
  simpa using h e he

/-- Helper: the minimum score of a nonempty set whose scores all equal t
is t. -/
theorem zMinScore_const (t : Int) :
    ∀ z : List (String × Int), z ≠ [] → (∀ e ∈ z, e.2 = t) →
      zMinScore z = some t := by
  intro z
  induction z with
  | nil =>
    intro h _
    exact absurd rfl h
  | cons e rest ih =>
    intro _ hall
    have he : e.2 = t := hall e (by simp)
    by_cases hr : rest = []
    · subst hr
      simp [zMinScore, he]
    · have hrest : zMinScore rest = some t :=
        ih hr (fun x hx => hall x (List.mem_cons_of_mem _ hx))
      simp only [zMinScore, hrest]
      simp [he]

/-- Helper: one Allow call on a set the cleanup leaves alone: below the
limit it appends via ZADD and reports allowed with count + 1; at the limit
it changes nothing, reports denied, and the retry-after is the clamped
time to the oldest member's expiry. -/
theorem sw_allow_eval (L W t : Int) (rid : String) (z : List (String × Int))
    (hclean : zCleanup (t - W) z = z) :
    (slidingWindowAllow L W t rid z).1 =
      (if (z.length : Int) < L then zAdd z t rid else z) ∧
    (slidingWindowAllow L W t rid z).2.allowed = decide ((z.length : Int) < L) ∧
    (¬(z.length : Int) < L →
      (slidingWindowAllow L W t rid z).2.retryAfterSec =
        (if zOldest z > 0 then
          (if (zOldest z + W) - t < 0 then 0 else (zOldest z + W) - t)
        else 0)) := by
  by_cases h : (z.length : Int) < L
  · refine ⟨?_, ?_, ?_⟩ <;>
      simp [slidingWindowAllow, slidingWindowScript, hclean, h]
  · refine ⟨?_, ?_, ?_⟩ <;>
      simp [slidingWindowAllow, slidingWindowScript, hclean, h]
    by_cases ho : 0 < zOldest z <;> simp [ho]

/-- Helper: after k calls (k ≤ L) at second t from an empty window the
stored set is exactly the k distinct request members, all with score t. -/
theorem sw_state_after (L W t : Int) (ids : Nat → String)
    (hW : 1 ≤ W)
    (hinj : ∀ i < L.toNat + 1, ∀ j < L.toNat + 1, i ≠ j → ids i ≠ ids j) :
    ∀ k : Nat, (k : Int) ≤ L →
      swAfterCalls L W t ids k = (List.range k).map (fun i => (ids i, t)) := by
  intro k
  induction k with
  | zero =>
    intro _
    rfl
  | succ j ih =>
    intro hk
    have hj : (j : Int) ≤ L := by
      push_cast at hk
      omega
    have hjlt : (j : Int) < L := by
      push_cast at hk
      omega
    show (slidingWindowAllow L W t (ids j) (swAfterCalls L W t ids j)).1 = _
    rw [ih hj]
    have hclean : zCleanup (t - W) ((List.range j).map (fun i => (ids i, t))) =
        (List.range j).map (fun i => (ids i, t)) := by
      apply zCleanup_id
      intro e he
      simp only [List.mem_map] at he
      obtain ⟨i, _, rfl⟩ := he
      omega
    have hlen : (((List.range j).map (fun i => (ids i, t))).length : Int) = (j : Int) := by
      simp
    have hfresh : ∀ e ∈ (List.range j).map (fun i => (ids i, t)), e.1 ≠ ids j := by
      intro e he
      simp only [List.mem_map, List.mem_range] at he
      obtain ⟨i, hi, rfl⟩ := he
      have hij : i ≠ j := by omega
      have hiB : i < L.toNat + 1 := by omega
      have hjB : j < L.toNat + 1 := by omega
      exact hinj i hiB j hjB hij
    rw [(sw_allow_eval L W t (ids j) _ hclean).1]
    rw [if_pos (by rw [hlen]; exact hjlt)]
    rw [zAdd_not_mem _ _ _ hfresh]
    rw [List.range_succ, List.map_append]
    simp

/-- C8: from an empty window with limit L ≥ 1 and window W ≥ 1, the first
L calls at second t ≥ 1 with pairwise distinct request ids are allowed and
each inserts exactly one member; the (L+1)-th call is denied, leaves the
stored set unchanged, and its RetryAfter equals W (in particular it is at
most W and not below zero). -/
theorem claim_c8_sliding_window (L W t : Int) (ids : Nat → String)
    (hL : 1 ≤ L) (hW : 1 ≤ W) (ht : 1 ≤ t)
    (hinj : ∀ i < L.toNat + 1, ∀ j < L.toNat + 1, i ≠ j → ids i ≠ ids j) :
    (∀ k : Nat, (k : Int) < L →
      (slidingWindowAllow L W t (ids k) (swAfterCalls L W t ids k)).2.allowed = true ∧
      ((slidingWindowAllow L W t (ids k) (swAfterCalls L W t ids k)).1.length
        = (swAfterCalls L W t ids k).length + 1)) ∧
    ((slidingWindowAllow L W t (ids L.toNat)
        (swAfterCalls L W t ids L.toNat)).2.allowed = false ∧
      (slidingWindowAllow L W t (ids L.toNat) (swAfterCalls L W t ids L.toNat)).1 =
        swAfterCalls L W t ids L.toNat ∧
      (slidingWindowAllow L W t (ids L.toNat)
        (swAfterCalls L W t ids L.toNat)).2.retryAfterSec = W ∧
      0 ≤ (slidingWindowAllow L W t (ids L.toNat)
        (swAfterCalls L W t ids L.toNat)).2.retryAfterSec ∧
      (slidingWindowAllow L W t (ids L.toNat)
        (swAfterCalls L W t ids L.toNat)).2.retryAfterSec ≤ W) := by
  have hstate := sw_state_after L W t ids hW hinj
  constructor
  · intro k hk
    have hkL : (k : Int) ≤ L := le_of_lt hk
    rw [hstate k hkL]
    have hclean : zCleanup (t - W) ((List.range k).map (fun i => (ids i, t))) =
        (List.range k).map (fun i => (ids i, t)) := by
      apply zCleanup_id
      intro e he
      simp only [List.mem_map] at he
      obtain ⟨i, _, rfl⟩ := he
      omega
    have hlen : ((((List.range k).map (fun i => (ids i, t))).length : Nat) : Int)
        = (k : Int) := by
      simp
    obtain ⟨h1, h2, _⟩ := sw_allow_eval L W t (ids k) _ hclean
    refine ⟨?_, ?_⟩
    · rw [h2]
      simp only [hlen]
      simp [hk]
    · rw [h1, if_pos (by rw [hlen]; exact hk)]
      have hfresh : ∀ e ∈ (List.range k).map (fun i => (ids i, t)), e.1 ≠ ids k := by
        intro e he
        simp only [List.mem_map, List.mem_range] at he
        obtain ⟨i, hi, rfl⟩ := he
        have hik : i ≠ k := by omega
        have hiB : i < L.toNat + 1 := by omega
        have hkB : k < L.toNat + 1 := by
          have hkL2 : (k : Int) < L := hk
          omega
        exact hinj i hiB k hkB hik
      rw [zAdd_not_mem _ _ _ hfresh]
      simp
  · have hLL : ((L.toNat : Int)) = L := Int.toNat_of_nonneg (by omega)
    rw [hstate L.toNat (le_of_eq hLL)]
    have hclean : zCleanup (t - W) ((List.range L.toNat).map (fun i => (ids i, t))) =
        (List.range L.toNat).map (fun i => (ids i, t)) := by
      apply zCleanup_id
      intro e he
      simp only [List.mem_map] at he
      obtain ⟨i, _, rfl⟩ := he
      omega
    have hlen : ((((List.range L.toNat).map (fun i => (ids i, t))).length : Nat) : Int)
        = L := by
      simp [hLL]
    have hnotlt : ¬((((List.range L.toNat).map (fun i => (ids i, t))).length : Nat) : Int) < L := by
      rw [hlen]
      omega
    obtain ⟨h1, h2, h3⟩ := sw_allow_eval L W t (ids L.toNat) _ hclean
    have holdest : zOldest ((List.range L.toNat).map (fun i => (ids i, t))) = t := by
      unfold zOldest
      rw [zMinScore_const t _ ?_ ?_]
      · intro hempty
        have : L.toNat = 0 := by simpa using congrArg List.length hempty
        omega
      · intro e he
        simp only [List.mem_map] at he
        obtain ⟨i, _, rfl⟩ := he
        rfl
    refine ⟨?_, ?_, ?_, ?_, ?_⟩
    · rw [h2]
      simp [hnotlt]
    · rw [h1, if_neg hnotlt]
    · rw [h3 hnotlt, holdest]
      rw [if_pos (by omega)]
      rw [if_neg (by omega)]
      omega
    · rw [h3 hnotlt, holdest]
      rw [if_pos (by omega), if_neg (by omega)]
      omega
    · rw [h3 hnotlt, holdest]
      rw [if_pos (by omega), if_neg (by omega)]
      omega

/-- Witness for C8 with limit 2, window 5, at second 10, with request ids
"0" and "1" and "2": the first two calls are allowed and grow the set by
one member each, the third is denied, changes nothing and reports
RetryAfter 5. -/
theorem claim_c8_sliding_window_witness :
    (slidingWindowAllow 2 5 10 (toString 0) (swAfterCalls 2 5 10 (fun k => toString k) 0)).2.allowed = true ∧
    (slidingWindowAllow 2 5 10 (toString 2) (swAfterCalls 2 5 10 (fun k => toString k) 2)).2.allowed = false ∧
    (slidingWindowAllow 2 5 10 (toString 2) (swAfterCalls 2 5 10 (fun k => toString k) 2)).2.retryAfterSec = 5 := by
  have h := claim_c8_sliding_window 2 5 10 (fun k => toString k)
    (by norm_num) (by norm_num) (by norm_num) (by decide)
  exact ⟨(h.1 0 (by norm_num)).1, h.2.1, h.2.2.2.1⟩

end Switchboard
